import Mathlib

/-! Launcher: application catalog and fuzzy search.

A shallow embedding of `internal/search/fuzzy.go`, of `internal/applications/apps.go` (the
descriptor parser, the icon key, index and resolver, the scan of `List`) and of the catalog
`launcher.Run` builds, with the properties the specification states about them.

Representation:

* A Go `string` is a Lean `String`: well-formed UTF-8 text. `len(s)` is the number of bytes
  of the UTF-8 encoding (`goLen`), `[]rune(s)` is the list of characters (`s.data`), and
  `strings.Index` reports a byte offset. `<` on strings is the lexicographic order on code
  points, which on well-formed UTF-8 is Go's byte-wise order.
* A Go `int` is a Lean `Int`. The scores are sums of a few multiples of string lengths and
  indexes, far below `2^63`, so no wrap-around is modelled.
* The Unicode case table behind `unicode.ToLower` (used for code points above ASCII) is a
  parameter `caseTable`; every theorem holds for every table.
* `sort.Slice` is modelled by the insertion sort the Go runtime runs on short slices.
* The file system is explicit: the content of a file (`openFile`), the entries of a
  directory (`readDir`), the existence of a file (`fileExists`) and the visits of a
  directory walk are parameters. Paths use the separator `/`; `filepath.Clean`, `Join`,
  `Dir` and `Ext` are modelled on the characters of the path.
-/

/-! ## The pieces of Go's standard library the code calls -/

/-- `len(s)`: the number of bytes of the string. -/
def goLen (s : String) : Nat := s.utf8ByteSize

/-- `unicode.IsSpace`: the Latin-1 cases are listed inline, the rest is the `White_Space`
range table. -/
def unicodeIsSpace (r : Char) : Bool :=
  let n := r.toNat
  if n ≤ 0xFF then
    n == 0x09 || n == 0x0A || n == 0x0B || n == 0x0C || n == 0x0D || n == 0x20
      || n == 0x85 || n == 0xA0
  else
    n == 0x1680 || (0x2000 ≤ n && n ≤ 0x200A) || n == 0x2028 || n == 0x2029
      || n == 0x202F || n == 0x205F || n == 0x3000

/-- `strings.TrimSpace`: drop the leading and the trailing white space. -/
def stringsTrimSpace (s : String) : String :=
  String.mk ((s.data.dropWhile unicodeIsSpace).reverse.dropWhile unicodeIsSpace).reverse

/-- `unicode.ToLower`: ASCII is handled inline, every other code point goes through the
case table. -/
def unicodeToLower (caseTable : Char → Char) (r : Char) : Char :=
  if r.toNat ≤ 0x7F then
    if 'A'.toNat ≤ r.toNat ∧ r.toNat ≤ 'Z'.toNat then Char.ofNat (r.toNat + 32) else r
  else caseTable r

/-- `strings.ToLower`: every character mapped by `unicode.ToLower`. -/
def stringsToLower (caseTable : Char → Char) (s : String) : String :=
  String.mk (s.data.map (unicodeToLower caseTable))

/-- The scan of `strings.Index`: the byte offset `off` advances by the width of each
character passed over; `-1` when the end is reached without an occurrence. -/
def indexFrom (sub : List Char) : List Char → Nat → Int
  | [], off => if sub.isEmpty then (off : Int) else -1
  | c :: cs, off =>
    if sub.isPrefixOf (c :: cs) then (off : Int) else indexFrom sub cs (off + c.utf8Size)

/-- `strings.Index(s, sub)`: the byte offset of the first occurrence of `sub` in `s`,
or `-1`. -/
def stringsIndex (s sub : String) : Int := indexFrom sub.data s.data 0

/-- One pass of the inner loop of the insertion sort behind `sort.Slice`: the new element
`x` moves left past every element it is less than. The sorted prefix is held reversed
(nearest element first). -/
def sinkLeft {α : Type} (less : α → α → Bool) (x : α) : List α → List α
  | [] => [x]
  | y :: ys => if less x y then y :: sinkLeft less x ys else x :: y :: ys

/-- `sort.Slice(xs, less)`: insertion sort, left to right. It is not guaranteed stable by
Go; elements that `less` does not separate may come out in any order for long slices. -/
def sortSlice {α : Type} (less : α → α → Bool) (xs : List α) : List α :=
  (xs.foldl (fun sortedRev x => sinkLeft less x sortedRev) []).reverse

/-- `strings.HasPrefix(s, prefix)`. -/
def stringsHasPrefix (s pre : String) : Bool := pre.data.isPrefixOf s.data

/-- `strings.HasSuffix(s, suffix)`. -/
def stringsHasSuffix (s suf : String) : Bool := suf.data.isSuffixOf s.data

/-- `strings.Contains(s, substr)` is `strings.Index(s, substr) >= 0`. -/
def stringsContains (s substr : String) : Bool := decide (stringsIndex s substr ≥ 0)

/-- The scan of `strings.Fields`: `cur` holds, reversed, the characters of the field being
read; a white-space character ends it. -/
def fieldsLoop : List Char → List Char → List String
  | [], cur => if cur = [] then [] else [String.mk cur.reverse]
  | c :: cs, cur =>
    if unicodeIsSpace c then
      if cur = [] then fieldsLoop cs [] else String.mk cur.reverse :: fieldsLoop cs []
    else fieldsLoop cs (c :: cur)

/-- `strings.Fields(s)`: the maximal runs of characters that are not white space. -/
def stringsFields (s : String) : List String := fieldsLoop s.data []

/-- `strings.Join(elems, sep)`. -/
def stringsJoin : List String → String → String
  | [], _ => ""
  | [a], _ => a
  | a :: b :: rest, sep => a ++ sep ++ stringsJoin (b :: rest) sep

/-- `strings.SplitN(s, "=", 2)` when it yields two parts: the text before the first `=` and
the text after it; `none` when `s` has no `=` (a single part). -/
def splitAtEquals : List Char → Option (List Char × List Char)
  | [] => none
  | c :: cs =>
    if c = '=' then some ([], cs)
    else (splitAtEquals cs).map (fun p => (c :: p.1, p.2))

/-- `strings.EqualFold(s, t)` on ASCII letters: equal up to the case of `A`..`Z`. The code
calls it against the literal `"true"`, whose letters fold with no character outside ASCII,
so there it is Go's `EqualFold`. -/
def stringsEqualFold (s t : String) : Bool :=
  s.data.map Char.toLower == t.data.map Char.toLower

/-- The lines `bufio.ScanLines` cuts the input into, before the trailing carriage return of
each is dropped: `cur` holds the current line reversed. An empty last line is no line. -/
def rawLinesLoop : List Char → List Char → List (List Char)
  | [], cur => if cur = [] then [] else [cur.reverse]
  | c :: cs, cur =>
    if c = '\n' then cur.reverse :: rawLinesLoop cs [] else rawLinesLoop cs (c :: cur)

/-- `dropCR` of `bufio`: a line loses one trailing carriage return. -/
def dropCR (line : List Char) : List Char :=
  if line.getLast? = some '\r' then line.dropLast else line

/-- The size handed to `scanner.Buffer` as the largest token: `1024*1024` bytes. -/
def maxTokenSize : Nat := 1024 * 1024

/-- The scanner stops with `bufio.ErrTooLong` when a line does not fit the buffer: the
buffer is full (`maxTokenSize` bytes) and holds no line end. -/
def scanTooLong (content : String) : Bool :=
  (rawLinesLoop content.data []).any (fun l => decide (maxTokenSize ≤ goLen (String.mk l)))

/-- The successive values of `scanner.Text()`. -/
def scanLines (content : String) : List String :=
  (rawLinesLoop content.data []).map (fun l => String.mk (dropCR l))

/-- `unicode.ToUpper`: ASCII is handled inline, every other code point goes through the
case table. -/
def unicodeToUpper (caseTable : Char → Char) (r : Char) : Char :=
  if r.toNat ≤ 0x7F then
    if 'a'.toNat ≤ r.toNat ∧ r.toNat ≤ 'z'.toNat then Char.ofNat (r.toNat - 32) else r
  else caseTable r

/-- The entry of Go's `unicode.CaseRanges` for U+0131, the dotless i:
`{0x0131, 0x0131, d{-232, 0, -232}}`, upper case U+0049 `I`. As an upper-case table it is
the identity at every other code point. -/
def dotlessUpperTable (c : Char) : Char := if c = Char.ofNat 0x131 then 'I' else c

/-- The same entry as a lower-case table: U+0131 is its own lower case (delta 0). It is the
identity at every other code point. -/
def dotlessLowerTable (c : Char) : Char := c

/-- `strings.ToUpper`: every character mapped by `unicode.ToUpper`. -/
def stringsToUpper (caseTable : Char → Char) (s : String) : String :=
  String.mk (s.data.map (unicodeToUpper caseTable))

/-- `strings.TrimSuffix(s, suffix)`. -/
def stringsTrimSuffix (s suffix : String) : String :=
  if stringsHasSuffix s suffix = true then
    String.mk (s.data.take (s.data.length - suffix.data.length))
  else s

/-- The loop of `filepath.Ext`, from the end of the path towards its start: it stops with no
extension at a separator and returns the text from the first dot it meets. `acc` holds the
characters already passed. -/
def extLoop : List Char → List Char → List Char
  | [], _ => []
  | c :: rest, acc =>
    if c = '/' then [] else if c = '.' then '.' :: acc else extLoop rest (c :: acc)

/-- `filepath.Ext(path)`: the suffix from the last dot of the last element of the path,
empty when there is no dot. The separator is `/`. -/
def filepathExt (path : String) : String := String.mk (extLoop path.data.reverse [])

/-- The element loop of `filepath.Clean`, over the elements between the separators of the
path: empty and `.` elements are skipped; a `..` element removes the element before it
when that is a name, is kept when the path is not rooted and nothing can be removed, and
is dropped at the root; a name is kept. `out` holds the kept elements, last first. -/
def cleanElements (rooted : Bool) : List (List Char) → List (List Char) → List (List Char)
  | [], out => out.reverse
  | e :: rest, out =>
    if e = [] ∨ e = ['.'] then cleanElements rooted rest out
    else if e = ['.', '.'] then
      match out with
      | top :: below =>
        if top = ['.', '.'] then
          if rooted = true then cleanElements rooted rest out
          else cleanElements rooted rest (e :: out)
        else cleanElements rooted rest below
      | [] =>
        if rooted = true then cleanElements rooted rest out
        else cleanElements rooted rest (e :: out)
    else cleanElements rooted rest (e :: out)

/-- `filepath.Clean(path)` with separator `/`: the shortest equivalent path by lexical
processing. A rooted result starts with `/`; an empty result is `.`. -/
def filepathClean (path : String) : String :=
  if path = "" then "."
  else
    let rooted : Bool := path.data.head? == some '/'
    let body := List.intercalate ['/'] (cleanElements rooted (path.data.splitOn '/') [])
    if rooted = true then String.mk ('/' :: body)
    else if body = [] then "."
    else String.mk body

/-- `filepath.Join(a, b)`: the elements from the first non-empty one on, joined by the
separator and cleaned; empty when both are empty. -/
def filepathJoin (a b : String) : String :=
  if a ≠ "" then filepathClean (a ++ "/" ++ b)
  else if b ≠ "" then filepathClean b
  else ""

/-- `filepath.Dir(path)`: the path up to and including its last separator, cleaned. -/
def filepathDir (path : String) : String :=
  filepathClean (String.mk (path.data.reverse.dropWhile (fun c => c != '/')).reverse)

/-- `filepath.IsAbs(path)`: the path begins with the separator. -/
def filepathIsAbs (path : String) : Bool := stringsHasPrefix path "/"

/-- `filepath.Base(path)` with separator `/`: the last element of the path, trailing
separators removed first; `.` for the empty path and `/` for a path of separators only. -/
def filepathBase (path : String) : String :=
  if path = "" then "."
  else
    let stripped := (path.data.reverse.dropWhile (fun c => c == '/')).reverse
    let last := (stripped.reverse.takeWhile (fun c => c != '/')).reverse
    if last = [] then "/" else String.mk last

namespace applications

/-- Application represents a desktop launcher entry available on the system. -/
structure Application where
  Name : String
  Exec : String
  IconName : String
  IconPath : String
  Path : String
  deriving DecidableEq, Repr

/-- The errors `parseDesktopFile` returns: the error of `os.Open`, the error of the scanner,
and `errSkipApplication`. -/
inductive parseError where
  | openFailed
  | scanFailed
  | errSkipApplication
  deriving DecidableEq, Repr

/-- `sanitiseExec(raw)`. -/
def sanitiseExec (raw : String) : String :=
  let fields := stringsFields raw
  let cleaned := fields.filter (fun field => !stringsContains field "%")
  stringsJoin cleaned " "

/-- The variables `parseDesktopFile` declares before its loop. -/
structure entryVars where
  inDesktopEntry : Bool
  name : String
  exec : String
  iconName : String
  appType : String
  hidden : Bool
  noDisplay : Bool
  deriving DecidableEq, Repr

/-- The body of the loop of `parseDesktopFile` for one scanned line. -/
def parseLine (st : entryVars) (text : String) : entryVars :=
  let line := stringsTrimSpace text
  if line = "" ∨ stringsHasPrefix line "#" = true then st
  else if stringsHasPrefix line "[" = true ∧ stringsHasSuffix line "]" = true then
    { st with inDesktopEntry := decide (line = "[Desktop Entry]") }
  else if st.inDesktopEntry = false then st
  else
    match splitAtEquals line.data with
    | none => st
    | some (k, v) =>
      let key := stringsTrimSpace (String.mk k)
      let value := stringsTrimSpace (String.mk v)
      if key = "Type" then { st with appType := value }
      else if key = "Name" then { st with name := value }
      else if stringsHasPrefix key "Name[" = true ∧ st.name = "" then { st with name := value }
      else if key = "Exec" then { st with exec := sanitiseExec value }
      else if key = "Icon" then { st with iconName := value }
      else if key = "Hidden" then { st with hidden := stringsEqualFold value "true" }
      else if key = "NoDisplay" then { st with noDisplay := stringsEqualFold value "true" }
      else st

/-- The values the loop of `parseDesktopFile` resolves from the content of a descriptor. -/
def resolveEntry (content : String) : entryVars :=
  (scanLines content).foldl parseLine
    { inDesktopEntry := false, name := "", exec := "", iconName := "", appType := "",
      hidden := false, noDisplay := false }

/-- `parseDesktopFile(path)`. The file system is the function `openFile` (the content of
the file at a path, `none` when `os.Open` fails; an opened file is read to its end), and
`resolveIcon` stands for the icon resolution, which reads the file system and the icon
index; the parser only stores its result. -/
def parseDesktopFile (resolveIcon : String → String → String)
    (openFile : String → Option String) (path : String) : Except parseError Application :=
  match openFile path with
  | none => Except.error parseError.openFailed
  | some content =>
    if scanTooLong content = true then Except.error parseError.scanFailed
    else
      let st := resolveEntry content
      if st.appType ≠ "Application" ∨ st.hidden = true ∨ st.noDisplay = true ∨ st.name = ""
          ∨ st.exec = "" then
        Except.error parseError.errSkipApplication
      else
        Except.ok
          { Name := st.name, Exec := st.exec, IconName := st.iconName,
            IconPath := resolveIcon st.iconName path, Path := path }

end applications

namespace search

open applications

/-- The file's own `max` on `int`. -/
def max (a b : Int) : Int := if a > b then a else b

/-- The loop variables of `fuzzyScore`. -/
structure fuzzyState where
  qi : Nat
  score : Int
  lastMatchIndex : Int
  deriving DecidableEq, Repr

/-- The body of the loop of `fuzzyScore` at candidate index `ci` with rune `r`. Once
`qi >= len(qr)` the loop breaks, which leaves the variables as they are. -/
def fuzzyStep (qr : List Char) (st : fuzzyState) (ci : Nat) (r : Char) : fuzzyState :=
  if st.qi ≥ qr.length then st
  else if qr[st.qi]? = some r then
    let score := st.score + 5
    let score := if st.lastMatchIndex = (ci : Int) - 1 then score + 10 else score
    let score := if st.qi = 0 then score + max (15 - (ci : Int) * 2) 0 else score
    { qi := st.qi + 1, score := score, lastMatchIndex := (ci : Int) }
  else st

/-- The loop `for ci, r := range cr` of `fuzzyScore`, from index `ci` on. -/
def fuzzyLoop (qr : List Char) : List Char → Nat → fuzzyState → fuzzyState
  | [], _, st => st
  | r :: rest, ci, st => fuzzyLoop qr rest (ci + 1) (fuzzyStep qr st ci r)

/-- `fuzzyScore(query, candidate)`. -/
def fuzzyScore (query candidate : String) : Bool × Int :=
  let qr := query.data
  let cr := candidate.data
  if qr.length = 0 ∨ cr.length = 0 then (false, 0)
  else
    let st := fuzzyLoop qr cr 0 { qi := 0, score := 0, lastMatchIndex := -1 }
    if st.qi ≠ qr.length then (false, 0)
    else (true, st.score - (cr.length : Int))

/-- `scoreApplication(app, q)`: the score and the kind of the match. -/
def scoreApplication (caseTable : Char → Char) (app : Application) (q : String) :
    Int × String :=
  let lowerName := stringsToLower caseTable app.Name
  let lowerExec := stringsToLower caseTable app.Exec
  if stringsIndex lowerName q ≥ 0 then
    (2000 - stringsIndex lowerName q * 20 - (goLen lowerName : Int), "name-substring")
  else if stringsIndex lowerExec q ≥ 0 then
    (1500 - stringsIndex lowerExec q * 20 - (goLen lowerExec : Int), "exec-substring")
  else if (fuzzyScore q lowerName).1 then
    (1000 + (fuzzyScore q lowerName).2, "name-fuzzy")
  else if (fuzzyScore q lowerExec).1 then
    (800 + (fuzzyScore q lowerExec).2, "exec-fuzzy")
  else (0, "")

/-- An application with its score and the kind of its match. -/
structure scoredApp where
  app : Application
  score : Int
  kind : String
  deriving DecidableEq, Repr

/-- The `less` function `scoreApplications` hands to `sort.Slice`. -/
def scoredLess (caseTable : Char → Char) (a b : scoredApp) : Bool :=
  if a.score = b.score then
    let nameI := stringsToLower caseTable a.app.Name
    let nameJ := stringsToLower caseTable b.app.Name
    if nameI = nameJ then decide (a.app.Name < b.app.Name)
    else decide (nameI < nameJ)
  else decide (a.score > b.score)

/-- `scoreApplications(apps, q)`: the applications with a positive score, sorted. -/
def scoreApplications (caseTable : Char → Char) (apps : List Application) (q : String) :
    List scoredApp :=
  let results := apps.filterMap (fun app =>
    let r := scoreApplication caseTable app q
    if r.1 > 0 then some { app := app, score := r.1, kind := r.2 } else none)
  sortSlice (scoredLess caseTable) results

/-- `Filter(apps, query)`. A nil slice is the empty list. -/
def Filter (caseTable : Char → Char) (apps : List Application) (query : String) :
    List Application :=
  let trimmed := stringsTrimSpace query
  if trimmed = "" then []
  else
    let q := stringsToLower caseTable trimmed
    let results := scoreApplications caseTable apps q
    if results.length = 0 then []
    else results.map (fun res => res.app)

end search

namespace applications

/-- `iconKey(name)`. -/
def iconKey (caseTable : Char → Char) (name : String) : String :=
  if name = "" then ""
  else
    let base := name
    let ext := stringsToLower caseTable (filepathExt base)
    let base :=
      if ext = ".png" ∨ ext = ".svg" ∨ ext = ".xpm" then
        stringsTrimSuffix base (filepathExt base)
      else base
    stringsToLower caseTable base

/-- `iconScore(path)`. -/
def iconScore (caseTable : Char → Char) (path : String) : Int :=
  let score : Int := 0
  let score := if stringsContains path "/apps/" = true then score + 2 else score
  let ext := stringsToLower caseTable (filepathExt path)
  if ext = ".png" then score + 2
  else if ext = ".svg" then score + 1
  else score

/-- `betterIconCandidate(newPath, existingPath)`. -/
def betterIconCandidate (caseTable : Char → Char) (newPath existingPath : String) : Bool :=
  let newScore := iconScore caseTable newPath
  let oldScore := iconScore caseTable existingPath
  if newScore = oldScore then decide (goLen newPath < goLen existingPath)
  else decide (newScore > oldScore)

/-- One call of the function `loadIconIndex` hands to `filepath.WalkDir`: the path, the
name of the entry, whether the entry is a directory, and whether the walk reports an error
for it. -/
structure walkVisit where
  path : String
  name : String
  isDir : Bool
  err : Bool
  deriving DecidableEq, Repr

/-- The body of the walk function of `loadIconIndex`, on the index built so far. The map
`iconIndex` is a function from keys to the stored path, `none` for an absent key. -/
def visitIconFile (caseTable : Char → Char) (iconIndex : String → Option String)
    (v : walkVisit) : String → Option String :=
  if v.err = true then iconIndex
  else if v.isDir = true then iconIndex
  else
    let ext := stringsToLower caseTable (filepathExt v.name)
    if ext ≠ ".png" ∧ ext ≠ ".svg" ∧ ext ≠ ".xpm" then iconIndex
    else
      let key := iconKey caseTable v.name
      if key = "" then iconIndex
      else
        match iconIndex key with
        | none => fun k => if k = key then some v.path else iconIndex k
        | some existing =>
          if betterIconCandidate caseTable v.path existing = true then
            fun k => if k = key then some v.path else iconIndex k
          else iconIndex

/-- `loadIconIndex()`: the index after the walks of the icon directories, given as the
sequence of calls the walks make, in their order. It is built once. -/
def loadIconIndex (caseTable : Char → Char) (walk : List walkVisit) :
    String → Option String :=
  walk.foldl (visitIconFile caseTable) (fun _ => none)

/-- `findIconWithExtensions(base)`. The file system is the predicate `fileExists`: a path
names an existing file that is not a directory. -/
def findIconWithExtensions (fileExists : String → Bool) (base : String) : String :=
  if fileExists base = true then base
  else if filepathExt base ≠ "" then ""
  else
    match [".png", ".svg", ".xpm"].find? (fun ext => fileExists (base ++ ext)) with
    | some ext => base ++ ext
    | none => ""

/-- `resolveIcon(iconValue, desktopPath)`. `iconIndex` is the index `loadIconIndex()`
returns. -/
def resolveIcon (caseTable : Char → Char) (fileExists : String → Bool)
    (iconIndex : String → Option String) (iconValue desktopPath : String) : String :=
  if iconValue = "" then ""
  else if filepathIsAbs iconValue = true then
    if fileExists iconValue = true then iconValue else ""
  else
    let desktopDir := filepathDir desktopPath
    let candidate := findIconWithExtensions fileExists (filepathJoin desktopDir iconValue)
    if candidate ≠ "" then candidate
    else
      let candidate2 :=
        if stringsContains iconValue "/" = true then
          findIconWithExtensions fileExists
            (filepathClean (filepathJoin desktopDir iconValue))
        else ""
      if candidate2 ≠ "" then candidate2
      else
        let name := iconKey caseTable iconValue
        if name = "" then ""
        else
          match iconIndex name with
          | some path => path
          | none => ""

/-- An entry `os.ReadDir` returns: its name and whether it is a directory. -/
structure dirEntry where
  name : String
  isDir : Bool
  deriving DecidableEq, Repr

/-- The outcome of `os.ReadDir(dir)`: an error that is `os.ErrNotExist`, another error, or
the entries of the directory. -/
inductive readDirResult where
  | notExist
  | failed
  | entries (es : List dirEntry)
  deriving DecidableEq, Repr

/-- The errors `List` collects: `read dir <dir>: ...` and `parse <path>: ...`. -/
inductive listError where
  | readDir (dir : String)
  | parse (path : String) (err : parseError)
  deriving DecidableEq, Repr

/-- The variables of the scan loop of `List`: the set `seenPaths` (its members in the order
they were added), `apps` and `errs`; and, for the properties, the paths handed to
`parseDesktopFile`, in order. -/
structure scanState where
  seenPaths : List String
  apps : List Application
  errs : List listError
  parsed : List String
  deriving DecidableEq, Repr

/-- The body of the inner loop of `List`, for one entry of the directory `dir`. -/
def visitEntry (resolveIcon : String → String → String) (openFile : String → Option String)
    (dir : String) (st : scanState) (entry : dirEntry) : scanState :=
  if entry.isDir = true ∨ stringsHasSuffix entry.name ".desktop" = false then st
  else
    let path := filepathJoin dir entry.name
    if path ∈ st.seenPaths then st
    else
      let st := { st with seenPaths := st.seenPaths ++ [path], parsed := st.parsed ++ [path] }
      match parseDesktopFile resolveIcon openFile path with
      | Except.error err =>
        if err = parseError.errSkipApplication then st
        else { st with errs := st.errs ++ [listError.parse path err] }
      | Except.ok app => { st with apps := st.apps ++ [app] }

/-- The body of the outer loop of `List`, for one directory. The file system is the
function `readDir`. -/
def visitDir (resolveIcon : String → String → String) (openFile : String → Option String)
    (readDir : String → readDirResult) (st : scanState) (dir : String) : scanState :=
  match readDir dir with
  | readDirResult.notExist => st
  | readDirResult.failed => { st with errs := st.errs ++ [listError.readDir dir] }
  | readDirResult.entries es => es.foldl (visitEntry resolveIcon openFile dir) st

/-- The scan of `List` over the directories `desktopDirs()` returns. -/
def scanDirs (resolveIcon : String → String → String) (openFile : String → Option String)
    (readDir : String → readDirResult) (dirs : List String) : scanState :=
  dirs.foldl (visitDir resolveIcon openFile readDir)
    { seenPaths := [], apps := [], errs := [], parsed := [] }

/-- The `less` function `List`, `listDarwin` and `Run` hand to `sort.Slice`. -/
def appLess (caseTable : Char → Char) (a b : Application) : Bool :=
  let nameI := stringsToLower caseTable a.Name
  let nameJ := stringsToLower caseTable b.Name
  if nameI = nameJ then decide (a.Exec < b.Exec)
  else decide (nameI < nameJ)

/-- `List()` on a system that is not darwin (the name `List` is Lean's list type): the
sorted applications and the joined error, `none` for nil. -/
def ListApplications (caseTable : Char → Char) (resolveIcon : String → String → String)
    (openFile : String → Option String) (readDir : String → readDirResult)
    (dirs : List String) : List Application × Option (List listError) :=
  let st := scanDirs resolveIcon openFile readDir dirs
  let apps := sortSlice (appLess caseTable) st.apps
  if st.errs.length > 0 then (apps, some st.errs) else (apps, none)

/-- The fields of a bundle's `Info.plist` the bundle scanner reads. -/
structure macInfoPlist where
  DisplayName : String
  BundleName : String
  Executable : String
  IconFile : String
  IconFiles : List String

/-- The test by which the walk callback of `listDarwin` takes a directory for a bundle:
`strings.HasSuffix(strings.ToLower(d.Name()), ".app")`. -/
def bundleSuffixMatch (caseTable : Char → Char) (name : String) : Bool :=
  stringsHasSuffix (stringsToLower caseTable name) ".app"

/-- Returns the first of the values that is not blank, trimmed; empty when all are blank. -/
def firstNonEmpty : List String → String
  | [] => ""
  | v :: rest => if stringsTrimSpace v ≠ "" then stringsTrimSpace v else firstNonEmpty rest

/-- Builds the record of a bundle. `readInfoPlist` stands for the metadata read (a
subprocess): it yields the fields or an error, and on an error the code goes on with the
empty fields and hands the error back beside the record. `resolveMacIcon` is the icon lookup
in the bundle's resources. -/
def parseAppBundle (readInfoPlist : String → Except String macInfoPlist)
    (resolveMacIcon : String → macInfoPlist → String) (bundlePath : String) :
    Application × Option String :=
  let read := readInfoPlist bundlePath
  let info : macInfoPlist :=
    match read with
    | Except.ok i => i
    | Except.error _ =>
      { DisplayName := "", BundleName := "", Executable := "", IconFile := "", IconFiles := [] }
  let err : Option String :=
    match read with
    | Except.ok _ => none
    | Except.error e => some e
  let name := firstNonEmpty
    [stringsTrimSpace info.DisplayName, stringsTrimSpace info.BundleName,
      stringsTrimSuffix (filepathBase bundlePath) ".app"]
  let iconPath := resolveMacIcon bundlePath info
  let iconName := if iconPath ≠ "" then filepathBase iconPath else ""
  ({ Name := name, Exec := bundlePath, IconName := iconName, IconPath := iconPath,
     Path := bundlePath }, err)

end applications

namespace launcher

open applications

/-- The catalog `Run` builds: the applications of `List` with those of the plugins appended,
sorted. -/
def runCatalog (caseTable : Char → Char) (apps plugins : List Application) :
    List Application :=
  sortSlice (appLess caseTable) (apps ++ plugins)

end launcher

/-! ## Notions the specification uses -/

/-- The string `sub` occurs in `l` after the characters `pre`, which take `i` bytes, and at
no earlier place: `i` is the index Go reports for the first occurrence. -/
def occursFirstAt (sub l : List Char) (i : Nat) : Prop :=
  ∃ pre post : List Char, l = pre ++ sub ++ post ∧ goLen (String.mk pre) = i ∧
    ∀ pre' post' : List Char, l = pre' ++ sub ++ post' → pre.length ≤ pre'.length

/-- The first occurrence of `sub` in `s` is at byte index `i`. -/
def firstOccurrence (s sub : String) (i : Nat) : Prop := occursFirstAt sub.data s.data i

/-- The elements `filepath.Clean` keeps: names and `..` elements, and the `..` elements only
at the start of a path that is not rooted. `l` lists the elements first to last. -/
def cleanedElements (rooted : Bool) (l : List (List Char)) : Prop :=
  (∀ e ∈ l, e ≠ [] ∧ e ≠ ['.'] ∧ '/' ∉ e) ∧
    (rooted = true → ['.', '.'] ∉ l) ∧
    (∀ pre post, l = pre ++ ['.', '.'] :: post → ∀ x ∈ pre, x = ['.', '.'])

/-- The files the specification has the resolver try beside the descriptor, in order: the
path `base` itself and, when `base` has no extension, `base` with `.png`, `.svg`, `.xpm`. -/
def iconCandidates (base : String) : List String :=
  base :: (if filepathExt base = "" then [base ++ ".png", base ++ ".svg", base ++ ".xpm"]
    else [])

/-- The resolution of a non-absolute identifier as the specification words it: the first
existing file among `<descriptor dir>/id` and, only when `id` has no extension, that path
with `.png`, `.svg`, `.xpm`; else the index entry under `iconKey(id)`; else empty. -/
def applications.resolveIconSpec (caseTable : Char → Char) (fileExists : String → Bool)
    (iconIndex : String → Option String) (iconValue desktopPath : String) : String :=
  let base := filepathJoin (filepathDir desktopPath) iconValue
  let tried := base ::
    (if filepathExt iconValue = "" then [base ++ ".png", base ++ ".svg", base ++ ".xpm"]
      else [])
  (tried.find? fileExists).getD
    ((iconIndex (applications.iconKey caseTable iconValue)).getD "")

/-- The sort key of the catalog: lowercased name, then the exact launch command, compared
lexicographically. -/
def applications.appKey (caseTable : Char → Char) (a : applications.Application) :
    String ×ₗ String :=
  toLex (stringsToLower caseTable a.Name, a.Exec)

/-- The order of the catalog between two consecutive entries `a` then `b`: the lowercased
name of `a` is smaller, or the lowercased names are equal and `a.Exec <= b.Exec`. -/
def applications.catalogOrder (caseTable : Char → Char) (a b : applications.Application) :
    Prop :=
  stringsToLower caseTable a.Name < stringsToLower caseTable b.Name ∨
    (stringsToLower caseTable a.Name = stringsToLower caseTable b.Name ∧ a.Exec ≤ b.Exec)

/-- What the scan of `List` meets, in order: a directory whose read failed with an error
other than not-exist, or an entry of a directory that was read. A directory that does not
exist contributes nothing. -/
inductive applications.scanEvent where
  | dirFailed (dir : String)
  | entry (dir : String) (e : applications.dirEntry)

/-- The events of the scan of the directories `dirs`, in the order of the two loops. -/
def applications.scanEvents (readDir : String → applications.readDirResult)
    (dirs : List String) : List applications.scanEvent :=
  dirs.flatMap (fun dir =>
    match readDir dir with
    | applications.readDirResult.notExist => []
    | applications.readDirResult.failed => [applications.scanEvent.dirFailed dir]
    | applications.readDirResult.entries es => es.map (applications.scanEvent.entry dir))

/-- What the loops of `List` do at one event. -/
def applications.stepEvent (resolveIcon : String → String → String)
    (openFile : String → Option String) (st : applications.scanState) :
    applications.scanEvent → applications.scanState
  | applications.scanEvent.dirFailed dir =>
    { st with errs := st.errs ++ [applications.listError.readDir dir] }
  | applications.scanEvent.entry dir e => applications.visitEntry resolveIcon openFile dir st e

/-- The descriptor path an event offers: the joined path of an entry that is not a directory
and whose name ends in `.desktop`. -/
def applications.eventPath : applications.scanEvent → Option String
  | applications.scanEvent.dirFailed _ => none
  | applications.scanEvent.entry dir e =>
    if e.isDir = true ∨ stringsHasSuffix e.name ".desktop" = false then none
    else some (filepathJoin dir e.name)

/-- The application a descriptor path parses to, `none` when the parse returns an error. -/
def applications.parsedApp (resolveIcon : String → String → String)
    (openFile : String → Option String) (path : String) : Option applications.Application :=
  match applications.parseDesktopFile resolveIcon openFile path with
  | Except.ok app => some app
  | Except.error _ => none

/-- A small file system for the examples: the descriptors of one directory. -/
def applications.demoOpenFile (path : String) : Option String :=
  if path = "/usr/share/applications/firefox.desktop" then
    some "[Desktop Entry]\nType=Application\nName=Firefox\nExec=firefox %u\n"
  else if path = "/usr/share/applications/files.desktop" then
    some "[Desktop Entry]\nType=Application\nName=Files\nExec=nautilus\n"
  else if path = "/usr/share/applications/hidden.desktop" then
    some "[Desktop Entry]\nType=Application\nName=Hidden\nExec=hidden\nHidden=true\n"
  else none

/-- A small file system for the examples: one directory of descriptors, reachable under two
spellings, one directory that cannot be read, and nothing else. -/
def applications.demoReadDir (dir : String) : applications.readDirResult :=
  if dir = "/usr/share/applications" ∨ dir = "/usr/share/applications/" then
    applications.readDirResult.entries
      [⟨"firefox.desktop", false⟩, ⟨"icons", true⟩, ⟨"files.desktop", false⟩,
        ⟨"hidden.desktop", false⟩, ⟨"gone.desktop", false⟩, ⟨"README", false⟩]
  else if dir = "/root/locked" then applications.readDirResult.failed
  else applications.readDirResult.notExist

/-- A call of the walk offers a candidate for the key `k`: a regular file, visited without
error, with one of the three icon extensions, whose name has the non-empty key `k`. -/
def applications.isCandidate (caseTable : Char → Char) (k : String)
    (v : applications.walkVisit) : Bool :=
  !v.err && !v.isDir
    && (stringsToLower caseTable (filepathExt v.name) == ".png"
      || stringsToLower caseTable (filepathExt v.name) == ".svg"
      || stringsToLower caseTable (filepathExt v.name) == ".xpm")
    && applications.iconKey caseTable v.name == k && !(k == "")

/-- The candidate paths a walk offers for the key `k`, in the order of the walk. -/
def applications.candidatesFor (caseTable : Char → Char) (walk : List applications.walkVisit)
    (k : String) : List String :=
  (walk.filter (applications.isCandidate caseTable k)).map (fun v => v.path)

/-- The name of the directory that directly contains the file at `path`: the element before
the last of the path cut at its separators, empty when there is none. -/
def parentDirName (path : String) : String :=
  match (path.data.splitOn '/').reverse with
  | _ :: d :: _ => String.mk d
  | _ => ""

/-- The icon score as the specification words it: 2 when the directory that directly
contains the file is named `apps`, plus 2 for `.png`, 1 for `.svg`. -/
def applications.iconScoreSpec (caseTable : Char → Char) (path : String) : Int :=
  (if parentDirName path = "apps" then 2 else 0)
    + (if stringsToLower caseTable (filepathExt path) = ".png" then 2
      else if stringsToLower caseTable (filepathExt path) = ".svg" then 1 else 0)

/-- The whitespace-separated tokens of a string, as the specification words the first step
of the Exec sanitization: the string cut at every white-space character, empty pieces left
out. -/
def whitespaceTokens (s : String) : List String :=
  ((s.data.splitOnP unicodeIsSpace).filter (fun w => decide (w ≠ []))).map String.mk

namespace search

open applications

/-- The sort key the specification names: score descending, then lowercased name, then exact
name, compared lexicographically. -/
def orderKey (caseTable : Char → Char) (a : scoredApp) : Int ×ₗ (String ×ₗ String) :=
  toLex (-a.score, toLex (stringsToLower caseTable a.app.Name, a.app.Name))

/-- The final ordering of the specification between two result entries, `a` then `b`, with
the scores taken for the lowercased query `q`: score descending, ties by lowercased name
ascending, further ties by exact name ascending. -/
def resultOrder (caseTable : Char → Char) (q : String) (a b : Application) : Prop :=
  (scoreApplication caseTable a q).1 > (scoreApplication caseTable b q).1 ∨
    ((scoreApplication caseTable a q).1 = (scoreApplication caseTable b q).1 ∧
      stringsToLower caseTable a.Name < stringsToLower caseTable b.Name) ∨
    ((scoreApplication caseTable a q).1 = (scoreApplication caseTable b q).1 ∧
      stringsToLower caseTable a.Name = stringsToLower caseTable b.Name ∧ a.Name ≤ b.Name)

/-- The positions at which the characters of the query match when the candidate is scanned
left to right from index `ci` and each next query character is matched at its leftmost
possible position; `none` when the scan ends with query characters left over. -/
def leftmostMatch : List Char → List Char → Nat → Option (List Nat)
  | [], _, _ => some []
  | _ :: _, [], _ => none
  | x :: qs, r :: rest, ci =>
    if r = x then (leftmostMatch qs rest (ci + 1)).map (fun ps => ci :: ps)
    else leftmostMatch (x :: qs) rest (ci + 1)

/-- The number of matches whose position is immediately after the position of the previous
match. The first match has no previous match. -/
def adjacentMatches : List Nat → Nat
  | p :: p' :: ps => (if p' = p + 1 then 1 else 0) + adjacentMatches (p' :: ps)
  | _ => 0

/-- What the first of the matches at positions `ps` earns beyond its 5 points in a scan that
starts with the loop variables `lastMatchIndex` and `qi`: the adjacency bonus when it is
next to `lastMatchIndex`, and the start bonus when it matches the first query character. -/
def firstMatchExtra (lastMatchIndex : Int) (qi : Nat) : List Nat → Int
  | [] => 0
  | p :: _ => (if lastMatchIndex = (p : Int) - 1 then 10 else 0)
      + (if qi = 0 then Max.max (15 - 2 * (p : Int)) 0 else 0)

/-- The subsequence score as the specification words it: 5 points a matched character, 10
more for each match adjacent to the previous match, `max(15 - 2p, 0)` for the position `p`
of the first match, minus the length of the candidate. -/
def subsequenceScoreSpec (q c : String) : Option Int :=
  (leftmostMatch q.data c.data 0).map (fun ps =>
    5 * (ps.length : Int) + 10 * (adjacentMatches ps : Int)
      + Max.max (15 - 2 * (ps.headD 0 : Int)) 0 - (c.data.length : Int))

end search

/-- The key and the value the loop of `parseDesktopFile` reads from a line that is neither
blank, nor a comment, nor a section header, and holds an `=`: both trimmed. A plain Name line
is a line whose key is `Name`; a localized one has a key that begins with `Name[`. -/
def applications.lineKeyValue (text : String) : Option (String × String) :=
  let line := stringsTrimSpace text
  if line = "" ∨ stringsHasPrefix line "#" = true then none
  else if stringsHasPrefix line "[" = true ∧ stringsHasSuffix line "]" = true then none
  else
    (splitAtEquals line.data).map (fun p =>
      (stringsTrimSpace (String.mk p.1), stringsTrimSpace (String.mk p.2)))

/-- A section header: a line that, trimmed, is neither blank nor a comment and stands
between `[` and `]`. -/
def applications.isSectionHeader (text : String) : Bool :=
  let line := stringsTrimSpace text
  if line = "" ∨ stringsHasPrefix line "#" = true then false
  else stringsHasPrefix line "[" && stringsHasSuffix line "]"

/-- Whether the line that follows `lines` lies in a section headed `[Desktop Entry]`: the
last header among `lines` is that one. -/
def applications.inMainSection (lines : List String) : Bool :=
  lines.foldl (fun cur l =>
    if applications.isSectionHeader l = true then
      decide (stringsTrimSpace l = "[Desktop Entry]")
    else cur) false

/-- The lines that are left when every line outside a section headed `[Desktop Entry]` is
deleted. The headers `[Desktop Entry]` and the lines of their sections are kept; the lines
before the first header and the bodies of the other sections go, and so do the headers of
the other sections unless `keepHeaders` is set. `inMain` tells whether the lines read so far
end in a main section. -/
def applications.mainSectionLines (keepHeaders : Bool) :
    Bool → List (List Char) → List (List Char)
  | _, [] => []
  | inMain, raw :: rest =>
    if applications.isSectionHeader (String.mk (dropCR raw)) = true then
      let main : Bool := decide (stringsTrimSpace (String.mk (dropCR raw)) = "[Desktop Entry]")
      if main = true ∨ keepHeaders = true then
        raw :: applications.mainSectionLines keepHeaders main rest
      else applications.mainSectionLines keepHeaders main rest
    else if inMain = true then raw :: applications.mainSectionLines keepHeaders inMain rest
    else applications.mainSectionLines keepHeaders inMain rest

/-- The content of the descriptor with every line outside the main section deleted: the
lines kept, each ended by a line feed. -/
def applications.deleteOutside (keepHeaders : Bool) (content : String) : String :=
  String.mk ((applications.mainSectionLines keepHeaders false
    (rawLinesLoop content.data [])).flatMap (fun l => l ++ ['\n']))

/-- The key and value pairs of the lines of the main section, in file order: a line
contributes the pair read from it when the lines before it, `before` and those already
passed, end in a section headed `[Desktop Entry]`. -/
def applications.mainPairsFrom (before : List String) : List String → List (String × String)
  | [] => []
  | l :: rest =>
    (if applications.inMainSection before = true then (applications.lineKeyValue l).toList
      else []) ++ applications.mainPairsFrom (before ++ [l]) rest

/-- The key and value pairs of the main section of a descriptor. -/
def applications.mainPairs (content : String) : List (String × String) :=
  applications.mainPairsFrom [] (scanLines content)

/-- The value of the last pair with the given key; empty when no pair has that key. -/
def applications.lastValue (key : String) (pairs : List (String × String)) : String :=
  match (pairs.filter (fun p => decide (p.1 = key))).getLast? with
  | some p => p.2
  | none => ""

/-- The resolved Name of a list of pairs: the value of the last plain `Name` pair when that
is not empty; otherwise the first non-empty value of a localized pair, one whose key begins
with `Name[`, among the pairs after the last plain `Name` pair (among all pairs when there
is none); empty when there is no such value. -/
def applications.resolvedNameOf (pairs : List (String × String)) : String :=
  if applications.lastValue "Name" pairs ≠ "" then applications.lastValue "Name" pairs
  else
    match ((pairs.reverse.takeWhile (fun p => decide (p.1 ≠ "Name"))).reverse).find?
        (fun p => stringsHasPrefix p.1 "Name[" && decide (p.2 ≠ "")) with
    | some p => p.2
    | none => ""

/-- The resolved Name of a descriptor. -/
def applications.resolvedName (content : String) : String :=
  applications.resolvedNameOf (applications.mainPairs content)

/-- The resolved Type of a descriptor: the value of the last `Type` line of the main
section. -/
def applications.resolvedType (content : String) : String :=
  applications.lastValue "Type" (applications.mainPairs content)

/-- The sanitized Exec of a descriptor: the value of the last `Exec` line of the main
section, sanitized. -/
def applications.resolvedExec (content : String) : String :=
  applications.sanitiseExec (applications.lastValue "Exec" (applications.mainPairs content))

/-- The icon identifier of a descriptor: the value of the last `Icon` line of the main
section. -/
def applications.resolvedIcon (content : String) : String :=
  applications.lastValue "Icon" (applications.mainPairs content)

/-- The resolved Hidden of a descriptor: the value of the last `Hidden` line of the main
section is `true`, in any case of the letters. -/
def applications.resolvedHidden (content : String) : Bool :=
  stringsEqualFold (applications.lastValue "Hidden" (applications.mainPairs content)) "true"

/-- The resolved NoDisplay of a descriptor: the value of the last `NoDisplay` line of the
main section is `true`, in any case of the letters. -/
def applications.resolvedNoDisplay (content : String) : Bool :=
  stringsEqualFold (applications.lastValue "NoDisplay" (applications.mainPairs content)) "true"

/-! ## Properties -/

section StandardLibrary

theorem stringsTrimSpace_of_blank (s : String) (h : ∀ c ∈ s.data, unicodeIsSpace c = true) :
    stringsTrimSpace s = "" := by
  have h1 : s.data.dropWhile unicodeIsSpace = [] := List.dropWhile_eq_nil_iff.mpr h
  simp [stringsTrimSpace, h1]

/-! ### `strings.Index` -/

theorem goLen_cons (c : Char) (cs : List Char) :
    goLen (String.mk (c :: cs)) = goLen (String.mk cs) + c.utf8Size := rfl

theorem indexFrom_of_not_infix (sub l : List Char) (off : Nat) (h : ¬ sub <:+: l) :
    indexFrom sub l off = -1 := by
  induction l generalizing off with
  | nil =>
    have hne : sub ≠ [] := fun he => h (he ▸ List.infix_refl _)
    simp [indexFrom, hne]
  | cons c cs ih =>
    rw [List.infix_cons_iff, not_or] at h
    have hp : sub.isPrefixOf (c :: cs) = false := by
      rw [Bool.eq_false_iff, Ne, List.isPrefixOf_iff_prefix]
      exact h.1
    simp only [indexFrom, hp]
    exact ih _ h.2

theorem indexFrom_of_occursFirstAt (sub l : List Char) (off i : Nat)
    (h : occursFirstAt sub l i) : indexFrom sub l off = ((off + i : Nat) : Int) := by
  induction l generalizing off i with
  | nil =>
    obtain ⟨pre, post, heq, hlen, -⟩ := h
    have h1 : pre = [] ∧ sub = [] := by
      have := congrArg List.length heq
      simp at this
      exact ⟨List.length_eq_zero.mp (by omega), List.length_eq_zero.mp (by omega)⟩
    rw [h1.1] at hlen
    have hi : i = 0 := hlen.symm
    simp [indexFrom, h1.2, hi]
  | cons c cs ih =>
    obtain ⟨pre, post, heq, hlen, hmin⟩ := h
    by_cases hp : sub.isPrefixOf (c :: cs) = true
    · obtain ⟨t, ht⟩ := List.isPrefixOf_iff_prefix.mp hp
      have h0 := hmin [] t (by simpa using ht.symm)
      have hpre : pre = [] := List.length_eq_zero.mp (by simpa using h0)
      rw [hpre] at hlen
      have hi : i = 0 := hlen.symm
      simp [indexFrom, hp, hi]
    · cases pre with
      | nil =>
        exfalso
        apply hp
        rw [List.isPrefixOf_iff_prefix]
        exact ⟨post, by simpa using heq.symm⟩
      | cons d pre2 =>
        simp only [List.cons_append, List.cons.injEq] at heq
        obtain ⟨hcd, hcs⟩ := heq
        subst hcd
        rw [goLen_cons] at hlen
        have hocc : occursFirstAt sub cs (goLen (String.mk pre2)) := by
          refine ⟨pre2, post, hcs, rfl, ?_⟩
          intro pre' post' h'
          have := hmin (c :: pre') post' (by simp [h'])
          simpa using this
        have hfalse : sub.isPrefixOf (c :: cs) = false := Bool.eq_false_iff.mpr hp
        have hstep : indexFrom sub (c :: cs) off = indexFrom sub cs (off + c.utf8Size) := by
          simp only [indexFrom, hfalse]
          rfl
        rw [hstep, ih _ _ hocc]
        congr 1
        omega

theorem occursFirstAt_of_infix (sub l : List Char) (h : sub <:+: l) :
    ∃ i, occursFirstAt sub l i := by
  induction l with
  | nil =>
    have hs : sub = [] := List.infix_nil.mp h
    exact ⟨0, [], [], by simp [hs], rfl, fun _ _ _ => Nat.zero_le _⟩
  | cons c cs ih =>
    by_cases hp : sub <+: c :: cs
    · obtain ⟨t, ht⟩ := hp
      exact ⟨0, [], t, by simpa using ht.symm, rfl, fun _ _ _ => Nat.zero_le _⟩
    · have hin : sub <:+: cs := by
        rcases List.infix_cons_iff.mp h with h1 | h1
        · exact absurd h1 hp
        · exact h1
      obtain ⟨i, pre, post, heq, hlen, hmin⟩ := ih hin
      refine ⟨goLen (String.mk (c :: pre)), c :: pre, post, by simp [heq], rfl, ?_⟩
      intro pre' post' h'
      cases pre' with
      | nil =>
        exfalso
        exact hp ⟨post', by simpa using h'.symm⟩
      | cons d pre2 =>
        simp only [List.cons_append, List.cons.injEq] at h'
        have := hmin pre2 post' h'.2
        simpa using this

theorem infix_of_occursFirstAt (sub l : List Char) (i : Nat) (h : occursFirstAt sub l i) :
    sub <:+: l := by
  obtain ⟨pre, post, heq, -, -⟩ := h
  exact ⟨pre, post, heq.symm⟩

theorem stringsIndex_of_firstOccurrence (s sub : String) (i : Nat)
    (h : firstOccurrence s sub i) : stringsIndex s sub = (i : Int) := by
  unfold stringsIndex
  rw [indexFrom_of_occursFirstAt sub.data s.data 0 i h]
  simp

theorem stringsIndex_of_not_infix (s sub : String) (h : ¬ sub.data <:+: s.data) :
    stringsIndex s sub = -1 :=
  indexFrom_of_not_infix sub.data s.data 0 h

/-! ### `strings.Fields` and `strings.Join` -/

theorem fieldsLoop_tokens (l cur : List Char) (hcur : ∀ c ∈ cur, unicodeIsSpace c = false) :
    ∀ t ∈ fieldsLoop l cur, t.data ≠ [] ∧ ∀ c ∈ t.data, unicodeIsSpace c = false := by
  induction l generalizing cur with
  | nil =>
    intro t ht
    unfold fieldsLoop at ht
    by_cases hc : cur = []
    · simp [hc] at ht
    · simp only [hc, if_false, List.mem_singleton] at ht
      subst ht
      exact ⟨by simpa using hc, fun c h => hcur c (List.mem_reverse.mp h)⟩
  | cons d ds ih =>
    intro t ht
    unfold fieldsLoop at ht
    by_cases hd : unicodeIsSpace d = true
    · simp only [hd, if_true] at ht
      by_cases hc : cur = []
      · simp only [hc, if_true] at ht
        exact ih [] (by simp) t ht
      · simp only [hc, if_false, List.mem_cons] at ht
        rcases ht with ht | ht
        · subst ht
          exact ⟨by simpa using hc, fun c h => hcur c (List.mem_reverse.mp h)⟩
        · exact ih [] (by simp) t ht
    · simp only [hd] at ht
      refine ih (d :: cur) ?_ t ht
      intro c hc
      rcases List.mem_cons.mp hc with rfl | h
      · simpa using hd
      · exact hcur c h

theorem fieldsLoop_word (w rest cur : List Char) (hw : ∀ c ∈ w, unicodeIsSpace c = false) :
    fieldsLoop (w ++ rest) cur = fieldsLoop rest (w.reverse ++ cur) := by
  induction w generalizing cur with
  | nil => rfl
  | cons c cs ih =>
    have hc : unicodeIsSpace c = false := hw c (List.mem_cons_self _ _)
    have hstep : fieldsLoop (c :: (cs ++ rest)) cur = fieldsLoop (cs ++ rest) (c :: cur) := by
      simp [fieldsLoop, hc]
    rw [List.cons_append, hstep, ih (c :: cur) (fun x hx => hw x (List.mem_cons_of_mem _ hx))]
    simp

/-- Cutting into fields what `strings.Join` made of fields, with one space between them,
gives the fields back. -/
theorem stringsFields_stringsJoin (toks : List String)
    (h : ∀ t ∈ toks, t.data ≠ [] ∧ ∀ c ∈ t.data, unicodeIsSpace c = false) :
    stringsFields (stringsJoin toks " ") = toks := by
  unfold stringsFields
  induction toks with
  | nil => rfl
  | cons a rest ih =>
    have ha := h a (List.mem_cons_self _ _)
    cases rest with
    | nil =>
      have h1 := fieldsLoop_word a.data [] [] ha.2
      simp only [List.append_nil] at h1
      simp only [stringsJoin, h1]
      simp [fieldsLoop, ha.1]
    | cons b rest2 =>
      have ih2 := ih (fun t ht => h t (List.mem_cons_of_mem _ ht))
      have hdata : (stringsJoin (a :: b :: rest2) " ").data =
          a.data ++ (' ' :: (stringsJoin (b :: rest2) " ").data) := by
        simp [stringsJoin]
      rw [hdata, fieldsLoop_word a.data _ [] ha.2]
      have hsp : unicodeIsSpace ' ' = true := by decide
      simp only [List.append_nil, fieldsLoop, hsp, if_true]
      simp [ha.1, ih2]

theorem fieldsLoop_eq_splitOnP (l cur : List Char) :
    fieldsLoop l cur =
      ((List.splitOnP.go unicodeIsSpace l cur).filter (fun w => decide (w ≠ []))).map
        String.mk := by
  induction l generalizing cur with
  | nil =>
    by_cases hc : cur = []
    · simp [fieldsLoop, List.splitOnP.go, hc]
    · simp [fieldsLoop, List.splitOnP.go, hc]
  | cons c cs ih =>
    by_cases hsp : unicodeIsSpace c = true
    · by_cases hc : cur = []
      · simp [fieldsLoop, List.splitOnP.go, hsp, hc, ih]
      · simp [fieldsLoop, List.splitOnP.go, hsp, hc, ih]
    · simp [fieldsLoop, List.splitOnP.go, hsp, ih]

/-- `strings.Fields` yields the whitespace-separated tokens of the specification. -/
theorem stringsFields_eq_whitespaceTokens (s : String) :
    stringsFields s = whitespaceTokens s :=
  fieldsLoop_eq_splitOnP s.data []

theorem intercalate_go_eq (sep acc b : String) (rest : List String) :
    String.intercalate.go acc sep (b :: rest) = acc ++ sep ++ stringsJoin (b :: rest) sep := by
  induction rest generalizing acc b with
  | nil => simp [String.intercalate.go, stringsJoin]
  | cons c r ih =>
    rw [String.intercalate.go, ih]
    simp [stringsJoin, String.append_assoc]

/-- `strings.Join` is the intercalation of the separator. -/
theorem stringsJoin_eq_intercalate (l : List String) (sep : String) :
    stringsJoin l sep = sep.intercalate l := by
  cases l with
  | nil => rfl
  | cons a rest =>
    cases rest with
    | nil => rfl
    | cons b r =>
      rw [String.intercalate, intercalate_go_eq]
      simp [stringsJoin, String.append_assoc]

theorem stringsContains_iff_occurs (s sub : String) :
    stringsContains s sub = true ↔ sub.data <:+: s.data := by
  unfold stringsContains
  rw [decide_eq_true_iff]
  constructor
  · intro h
    by_contra hn
    have := indexFrom_of_not_infix sub.data s.data 0 hn
    unfold stringsIndex at h
    omega
  · intro h
    obtain ⟨i, hocc⟩ := occursFirstAt_of_infix _ _ h
    rw [stringsIndex_of_firstOccurrence s sub i hocc]
    exact Int.natCast_nonneg i

theorem stringsContains_percent_iff (t : String) :
    stringsContains t "%" = true ↔ '%' ∈ t.data := by
  unfold stringsContains
  rw [decide_eq_true_iff]
  constructor
  · intro h
    by_contra hn
    have hni : ¬ "%".data <:+: t.data := by
      intro hi
      exact hn (List.singleton_sublist.mp hi.sublist)
    have := indexFrom_of_not_infix "%".data t.data 0 hni
    unfold stringsIndex at h
    omega
  · intro h
    obtain ⟨pre, post, hsplit⟩ := List.append_of_mem h
    have hi : "%".data <:+: t.data := ⟨pre, post, by simp [hsplit]⟩
    obtain ⟨i, hocc⟩ := occursFirstAt_of_infix _ _ hi
    rw [stringsIndex_of_firstOccurrence t "%" i hocc]
    exact Int.natCast_nonneg i

theorem stringsJoin_mem (toks : List String) (c : Char)
    (h : c ∈ (stringsJoin toks " ").data) : c = ' ' ∨ ∃ t ∈ toks, c ∈ t.data := by
  induction toks with
  | nil => simp [stringsJoin] at h
  | cons a rest ih =>
    cases rest with
    | nil => exact Or.inr ⟨a, List.mem_singleton.mpr rfl, by simpa [stringsJoin] using h⟩
    | cons b r =>
      simp only [stringsJoin, String.data_append, List.mem_append] at h
      rcases h with (h | h) | h
      · exact Or.inr ⟨a, List.mem_cons_self _ _, h⟩
      · left
        simpa using h
      · rcases ih h with h1 | ⟨t, ht, hc⟩
        · exact Or.inl h1
        · exact Or.inr ⟨t, List.mem_cons_of_mem _ ht, hc⟩

theorem stringsJoin_head (a : String) (rest : List String) (ha : a.data ≠ []) :
    (stringsJoin (a :: rest) " ").data.head? = a.data.head? := by
  cases rest with
  | nil => rfl
  | cons b r =>
    simp only [stringsJoin, String.data_append]
    cases hd : a.data with
    | nil => exact absurd hd ha
    | cons x xs => rfl

theorem stringsJoin_getLast (toks : List String) (hne : toks ≠ [])
    (h : ∀ t ∈ toks, t.data ≠ []) :
    ∃ t ∈ toks, (stringsJoin toks " ").data.getLast? = t.data.getLast? ∧ t.data ≠ [] := by
  induction toks with
  | nil => exact absurd rfl hne
  | cons a rest ih =>
    cases rest with
    | nil => exact ⟨a, List.mem_singleton.mpr rfl, rfl, h a (List.mem_singleton.mpr rfl)⟩
    | cons b r =>
      obtain ⟨t, ht, hlast, htne⟩ := ih (List.cons_ne_nil _ _)
        (fun t ht => h t (List.mem_cons_of_mem _ ht))
      refine ⟨t, List.mem_cons_of_mem _ ht, ?_, htne⟩
      rw [← hlast]
      have hj : (stringsJoin (b :: r) " ").data ≠ [] := by
        intro he
        rw [he] at hlast
        cases hd : t.data with
        | nil => exact htne hd
        | cons x xs =>
          rw [hd, List.getLast?_nil, eq_comm, List.getLast?_eq_none_iff] at hlast
          exact List.cons_ne_nil _ _ hlast
      simp only [stringsJoin, String.data_append]
      rw [List.getLast?_append_of_ne_nil _ hj]

/-! ### `filepath.Ext` and the case mappings -/

theorem extLoop_suffix (r acc : List Char) : extLoop r acc <:+ r.reverse ++ acc := by
  induction r generalizing acc with
  | nil => exact List.nil_suffix
  | cons c rest ih =>
    unfold extLoop
    split
    · exact List.nil_suffix
    · split
      · rename_i hdot
        rw [hdot, List.reverse_cons, List.append_assoc]
        exact List.suffix_append _ _
      · have := ih (c :: acc)
        rw [List.reverse_cons, List.append_assoc]
        exact this

theorem filepathExt_suffix (s : String) : (filepathExt s).data <:+ s.data := by
  have := extLoop_suffix s.data.reverse []
  simpa [filepathExt] using this

theorem extLoop_map (f : Char → Char) (l acc : List Char)
    (h : ∀ c ∈ l, (f c = '.' ↔ c = '.') ∧ (f c = '/' ↔ c = '/')) :
    extLoop (l.map f) (acc.map f) = (extLoop l acc).map f := by
  induction l generalizing acc with
  | nil => rfl
  | cons c rest ih =>
    have hc := h c (List.mem_cons_self _ _)
    have hrest : ∀ d ∈ rest, (f d = '.' ↔ d = '.') ∧ (f d = '/' ↔ d = '/') :=
      fun d hd => h d (List.mem_cons_of_mem _ hd)
    simp only [List.map_cons, extLoop]
    by_cases h1 : c = '/'
    · have h1f : f c = '/' := hc.2.mpr h1
      rw [if_pos h1f, if_pos h1]
      rfl
    · have h1f : ¬ f c = '/' := fun hf => h1 (hc.2.mp hf)
      rw [if_neg h1f, if_neg h1]
      by_cases h2 : c = '.'
      · have h2f : f c = '.' := hc.1.mpr h2
        rw [if_pos h2f, if_pos h2, List.map_cons]
        congr 1
        rw [← h2, h2f]
        exact h2
      · have h2f : ¬ f c = '.' := fun hf => h2 (hc.1.mp hf)
        rw [if_neg h2f, if_neg h2]
        exact ih (c :: acc) hrest

theorem filepathExt_map (f : Char → Char) (s : String)
    (h : ∀ c ∈ s.data, (f c = '.' ↔ c = '.') ∧ (f c = '/' ↔ c = '/')) :
    filepathExt (String.mk (s.data.map f)) = String.mk ((filepathExt s).data.map f) := by
  have := extLoop_map f s.data.reverse [] (fun c hc => h c (List.mem_reverse.mp hc))
  simp only [filepathExt, List.map_reverse, List.map_nil] at this ⊢
  rw [this]

theorem stringsTrimSuffix_ext (s : String) :
    stringsTrimSuffix s (filepathExt s) =
      String.mk (s.data.take (s.data.length - (filepathExt s).data.length)) := by
  have hs : stringsHasSuffix s (filepathExt s) = true := by
    unfold stringsHasSuffix
    exact List.isSuffixOf_iff_suffix.mpr (filepathExt_suffix s)
  simp only [stringsTrimSuffix, hs, if_true]

theorem stringsToLower_map (caseTable : Char → Char) (f : Char → Char) (l : List Char)
    (h : ∀ c ∈ l, unicodeToLower caseTable (f c) = unicodeToLower caseTable c) :
    stringsToLower caseTable (String.mk (l.map f)) = stringsToLower caseTable (String.mk l) := by
  simp only [stringsToLower, List.map_map]
  congr 1
  apply List.map_congr_left
  intro c hc
  exact h c hc

theorem unicodeToLower_ascii_idem (caseTable : Char → Char) (c : Char)
    (h : c.toNat ≤ 0x7F) :
    unicodeToLower caseTable (unicodeToLower caseTable c) = unicodeToLower caseTable c ∧
      (unicodeToLower caseTable c = '.' → c = '.') ∧
      (unicodeToLower caseTable c = '/' → c = '/') := by
  have key : ∀ n : Fin 128,
      unicodeToLower id (unicodeToLower id (Char.ofNat n)) = unicodeToLower id (Char.ofNat n) ∧
        (unicodeToLower id (Char.ofNat n) = '.' → Char.ofNat n = '.') ∧
        (unicodeToLower id (Char.ofNat n) = '/' → Char.ofNat n = '/') := by
    decide
  have hn := key ⟨c.toNat, by omega⟩
  simp only [Char.ofNat_toNat] at hn
  have hfree : ∀ d : Char, d.toNat ≤ 0x7F →
      unicodeToLower caseTable d = unicodeToLower id d := by
    intro d hd
    simp only [unicodeToLower, hd, if_true]
  have hlow : (unicodeToLower id c).toNat ≤ 0x7F := by
    have k2 : ∀ n : Fin 128, (unicodeToLower id (Char.ofNat n)).toNat ≤ 0x7F := by decide
    have := k2 ⟨c.toNat, by omega⟩
    simpa only [Char.ofNat_toNat] using this
  rw [hfree c h, hfree _ hlow]
  exact hn

theorem unicodeToUpper_ascii_round (lowerTable upperTable : Char → Char) (c : Char)
    (h : c.toNat ≤ 0x7F) :
    unicodeToLower lowerTable (unicodeToUpper upperTable c) = unicodeToLower lowerTable c := by
  have key : ∀ n : Fin 128,
      unicodeToLower id (unicodeToUpper id (Char.ofNat n)) = unicodeToLower id (Char.ofNat n) ∧
        (unicodeToUpper id (Char.ofNat n)).toNat ≤ 0x7F := by
    decide
  have hn := key ⟨c.toNat, by omega⟩
  simp only [Char.ofNat_toNat] at hn
  have hup : unicodeToUpper upperTable c = unicodeToUpper id c := by
    simp only [unicodeToUpper, h, if_true]
  have hfree : ∀ d : Char, d.toNat ≤ 0x7F →
      unicodeToLower lowerTable d = unicodeToLower id d := by
    intro d hd
    simp only [unicodeToLower, hd, if_true]
  rw [hup, hfree c h, hfree _ hn.2]
  exact hn.1

theorem unicodeCase_id (c : Char) :
    unicodeToLower id (unicodeToLower id c) = unicodeToLower id c ∧
      (unicodeToLower id c = '.' → c = '.') ∧ (unicodeToLower id c = '/' → c = '/') ∧
      unicodeToLower id (unicodeToUpper id c) = unicodeToLower id c := by
  by_cases h : c.toNat ≤ 0x7F
  · have h1 := unicodeToLower_ascii_idem id c h
    exact ⟨h1.1, h1.2.1, h1.2.2, unicodeToUpper_ascii_round id id c h⟩
  · have hl : unicodeToLower id c = c := by simp only [unicodeToLower, h, if_false, id]
    have hu : unicodeToUpper id c = c := by simp only [unicodeToUpper, h, if_false, id]
    rw [hu, hl]
    exact ⟨hl, fun x => x, fun x => x, rfl⟩

/-! ### `filepath.Clean` -/

theorem splitOnP_go_no_sep (p : Char → Bool) (l acc : List Char)
    (hacc : ∀ c ∈ acc, p c = false) :
    ∀ e ∈ List.splitOnP.go p l acc, ∀ c ∈ e, p c = false := by
  induction l generalizing acc with
  | nil =>
    intro e he c hc
    simp only [List.splitOnP.go, List.mem_singleton] at he
    subst he
    exact hacc c (List.mem_reverse.mp hc)
  | cons x xs ih =>
    intro e he c hc
    unfold List.splitOnP.go at he
    by_cases hx : p x = true
    · simp only [hx, if_true, List.mem_cons] at he
      rcases he with he | he
      · subst he
        exact hacc c (List.mem_reverse.mp hc)
      · exact ih [] (by simp) e he c hc
    · simp only [hx] at he
      refine ih (x :: acc) ?_ e he c hc
      intro d hd
      rcases List.mem_cons.mp hd with rfl | hd
      · simpa using hx
      · exact hacc d hd

theorem splitOn_no_sep (l : List Char) : ∀ e ∈ l.splitOn '/', '/' ∉ e := by
  intro e he hmem
  have := splitOnP_go_no_sep (fun c => c == '/') l [] (by simp) e he '/' hmem
  simp at this

theorem cleanedElements_snoc (rooted : Bool) (l : List (List Char)) (e : List Char)
    (hl : cleanedElements rooted l) (he : e ≠ [] ∧ e ≠ ['.'] ∧ '/' ∉ e)
    (hdd : e = ['.', '.'] → rooted = false ∧ ∀ x ∈ l, x = ['.', '.']) :
    cleanedElements rooted (l ++ [e]) := by
  obtain ⟨h1, h2, h3⟩ := hl
  refine ⟨?_, ?_, ?_⟩
  · intro x hx
    rcases List.mem_append.mp hx with hx | hx
    · exact h1 x hx
    · rw [List.mem_singleton.mp hx]
      exact he
  · intro hr hmem
    rcases List.mem_append.mp hmem with hx | hx
    · exact h2 hr hx
    · have := (hdd (List.mem_singleton.mp hx).symm).1
      rw [hr] at this
      exact absurd this (by decide)
  · intro pre post hsplit x hx
    rcases List.append_eq_append_iff.mp hsplit with ⟨a', ha1, ha2⟩ | ⟨c', hc1, hc2⟩
    · cases a' with
      | nil =>
        simp only [List.append_nil] at ha1
        simp only [List.nil_append, List.cons.injEq] at ha2
        rw [ha1] at hx
        exact (hdd ha2.1).2 x hx
      | cons y ys =>
        simp only [List.cons_append, List.cons.injEq] at ha2
        have := congrArg List.length ha2.2
        simp only [List.length_nil, List.length_append, List.length_cons] at this
        omega
    · cases c' with
      | nil =>
        simp only [List.append_nil] at hc1
        simp only [List.nil_append, List.cons.injEq] at hc2
        rw [← hc1] at hx
        exact (hdd hc2.1.symm).2 x hx
      | cons z zs =>
        simp only [List.cons_append, List.cons.injEq] at hc2
        rw [← hc2.1] at hc1
        exact h3 pre zs hc1 x hx

theorem cleanedElements_dropLast (rooted : Bool) (l : List (List Char)) (e : List Char)
    (hl : cleanedElements rooted (l ++ [e])) : cleanedElements rooted l := by
  obtain ⟨h1, h2, h3⟩ := hl
  refine ⟨fun x hx => h1 x (List.mem_append_left _ hx),
    fun hr hmem => h2 hr (List.mem_append_left _ hmem), ?_⟩
  intro pre post hsplit x hx
  exact h3 pre (post ++ [e]) (by rw [hsplit]; simp) x hx

theorem cleanElements_cleaned (rooted : Bool) (es out : List (List Char))
    (hes : ∀ e ∈ es, '/' ∉ e) (hout : cleanedElements rooted out.reverse) :
    cleanedElements rooted (cleanElements rooted es out) := by
  induction es generalizing out with
  | nil => exact hout
  | cons e rest ih =>
    have hrest : ∀ x ∈ rest, '/' ∉ x := fun x hx => hes x (List.mem_cons_of_mem _ hx)
    have hesep : '/' ∉ e := hes e (List.mem_cons_self _ _)
    unfold cleanElements
    by_cases h1 : e = [] ∨ e = ['.']
    · rw [if_pos h1]
      exact ih out hrest hout
    · rw [if_neg h1]
      have hne : e ≠ [] ∧ e ≠ ['.'] ∧ '/' ∉ e :=
        ⟨fun h => h1 (Or.inl h), fun h => h1 (Or.inr h), hesep⟩
      by_cases h2 : e = ['.', '.']
      · rw [if_pos h2]
        cases out with
        | nil =>
          dsimp only
          by_cases hr : rooted = true
          · rw [if_pos hr]
            exact ih [] hrest hout
          · rw [if_neg hr]
            apply ih [e] hrest
            have := cleanedElements_snoc rooted [] e hout hne
              (fun _ => ⟨by simpa using hr, by simp⟩)
            simpa using this
        | cons top below =>
          dsimp only
          by_cases ht : top = ['.', '.']
          · rw [if_pos ht]
            by_cases hr : rooted = true
            · rw [if_pos hr]
              exact ih (top :: below) hrest hout
            · rw [if_neg hr, ht]
              apply ih (e :: ['.', '.'] :: below) hrest
              rw [ht] at hout
              have hall : ∀ x ∈ (['.', '.'] :: below).reverse, x = ['.', '.'] := by
                intro x hx
                rw [List.reverse_cons] at hx
                rcases List.mem_append.mp hx with hx | hx
                · exact hout.2.2 below.reverse [] (by simp) x hx
                · exact List.mem_singleton.mp hx
              have := cleanedElements_snoc rooted _ e hout hne
                (fun _ => ⟨by simpa using hr, hall⟩)
              simpa using this
          · rw [if_neg ht]
            apply ih below hrest
            rw [List.reverse_cons] at hout
            exact cleanedElements_dropLast rooted _ top hout
      · rw [if_neg h2]
        apply ih (e :: out) hrest
        have := cleanedElements_snoc rooted _ e hout hne (fun h => absurd h h2)
        simpa using this

theorem cleanElements_of_cleaned (rooted : Bool) (l acc : List (List Char))
    (h : cleanedElements rooted (acc.reverse ++ l)) :
    cleanElements rooted l acc = acc.reverse ++ l := by
  induction l generalizing acc with
  | nil => simp [cleanElements]
  | cons e rest ih =>
    have hmem : e ∈ acc.reverse ++ e :: rest := by simp
    have he := h.1 e hmem
    have h1 : ¬ (e = [] ∨ e = ['.']) := fun hh => hh.elim he.1 he.2.1
    have hnext : cleanElements rooted rest (e :: acc) = acc.reverse ++ e :: rest := by
      rw [ih (e :: acc) (by simpa using h)]
      simp
    unfold cleanElements
    rw [if_neg h1]
    by_cases h2 : e = ['.', '.']
    · rw [if_pos h2]
      have hr : ¬ rooted = true := by
        intro hr
        exact h.2.1 hr (h2 ▸ hmem)
      have hall : ∀ x ∈ acc, x = ['.', '.'] := by
        intro x hx
        exact h.2.2 acc.reverse rest (by rw [h2]) x (List.mem_reverse.mpr hx)
      cases acc with
      | nil =>
        dsimp only
        rw [if_neg hr]
        exact hnext
      | cons top below =>
        have ht : top = ['.', '.'] := hall top (List.mem_cons_self _ _)
        dsimp only
        rw [if_pos ht, if_neg hr]
        exact hnext
    · rw [if_neg h2]
      exact hnext

theorem intercalate_cons_eq (sep e : List Char) (rest : List (List Char)) :
    ∃ tail, List.intercalate sep (e :: rest) = e ++ tail := by
  cases rest with
  | nil => exact ⟨[], by simp [List.intercalate]⟩
  | cons y zs => exact ⟨sep ++ List.intercalate sep (y :: zs), by simp [List.intercalate]⟩

theorem cleanElements_path_cleaned (rooted : Bool) (l : List Char) :
    cleanedElements rooted (cleanElements rooted (l.splitOn '/') []) :=
  cleanElements_cleaned rooted _ [] (splitOn_no_sep l)
    ⟨by simp, by simp, by
      intro pre post h
      have := congrArg List.length h
      simp only [List.reverse_nil, List.length_nil, List.length_append, List.length_cons] at this
      omega⟩

theorem filepathClean_cases (path : String) :
    filepathClean path = "." ∨
      ∃ (rooted : Bool) (elems : List (List Char)), cleanedElements rooted elems ∧
        (rooted = false → elems ≠ []) ∧
        filepathClean path =
          String.mk ((if rooted = true then ['/'] else []) ++ List.intercalate ['/'] elems) := by
  unfold filepathClean
  by_cases hp : path = ""
  · left
    rw [if_pos hp]
  · rw [if_neg hp]
    dsimp only
    by_cases hr : (path.data.head? == some '/') = true
    · right
      refine ⟨true, _, cleanElements_path_cleaned true path.data, by simp, ?_⟩
      rw [hr]
      simp
    · have hr2 : (path.data.head? == some '/') = false := by simpa using hr
      rw [hr2]
      by_cases hb : List.intercalate ['/'] (cleanElements false (path.data.splitOn '/') []) = []
      · left
        simp [hb]
      · right
        refine ⟨false, _, cleanElements_path_cleaned false path.data, ?_, ?_⟩
        · intro _ he
          apply hb
          rw [he]
          rfl
        · simp [hb]

theorem filepathClean_of_cleaned (rooted : Bool) (elems : List (List Char))
    (h : cleanedElements rooted elems) (hne : rooted = false → elems ≠ []) :
    filepathClean
        (String.mk ((if rooted = true then ['/'] else []) ++ List.intercalate ['/'] elems)) =
      String.mk ((if rooted = true then ['/'] else []) ++ List.intercalate ['/'] elems) := by
  have hsep : ∀ l ∈ elems, '/' ∉ l := fun l hl => (h.1 l hl).2.2
  have hid := cleanElements_of_cleaned rooted elems [] (by simpa using h)
  simp only [List.reverse_nil, List.nil_append] at hid
  cases rooted with
  | true =>
    simp only [if_true, List.singleton_append]
    have hsplit : ('/' :: List.intercalate ['/'] elems).splitOn '/' =
        [] :: (List.intercalate ['/'] elems).splitOn '/' := by
      simp [List.splitOn, List.splitOnP_cons]
    have hclean : cleanElements true
        (('/' :: List.intercalate ['/'] elems).splitOn '/') [] = elems := by
      rw [hsplit]
      by_cases he : elems = []
      · subst he
        decide
      · rw [List.splitOn_intercalate _ '/' hsep he]
        unfold cleanElements
        simp only [true_or, if_true]
        exact hid
    unfold filepathClean
    have hne2 : String.mk ('/' :: List.intercalate ['/'] elems) ≠ "" := by
      intro hh
      have := congrArg String.data hh
      simp at this
    rw [if_neg hne2]
    simp only [List.head?_cons, beq_self_eq_true, if_true, hclean]
  | false =>
    have he : elems ≠ [] := hne rfl
    simp only [Bool.false_eq_true, if_false, List.nil_append]
    obtain ⟨e, rest, hcons⟩ := List.exists_cons_of_ne_nil he
    obtain ⟨tail, htail⟩ := intercalate_cons_eq ['/'] e rest
    have hee := h.1 e (by rw [hcons]; exact List.mem_cons_self _ _)
    obtain ⟨c, cs, hcs⟩ := List.exists_cons_of_ne_nil hee.1
    have hbody : List.intercalate ['/'] elems = c :: (cs ++ tail) := by
      rw [hcons, htail, hcs]
      rfl
    have hc : c ≠ '/' := by
      intro hc
      apply hee.2.2
      rw [hcs, hc]
      exact List.mem_cons_self _ _
    have hclean : cleanElements false ((List.intercalate ['/'] elems).splitOn '/') [] = elems := by
      rw [List.splitOn_intercalate _ '/' hsep he]
      exact hid
    unfold filepathClean
    have hne2 : String.mk (List.intercalate ['/'] elems) ≠ "" := by
      intro hh
      have := congrArg String.data hh
      rw [hbody] at this
      simp at this
    rw [if_neg hne2]
    have hroot : ((List.intercalate ['/'] elems).head? == some '/') = false := by
      rw [hbody]
      simpa using hc
    simp only [hroot, hclean, Bool.false_eq_true, if_false]
    rw [if_neg (by rw [hbody]; simp)]

/-- `filepath.Clean` is idempotent. -/
theorem filepathClean_idem (path : String) :
    filepathClean (filepathClean path) = filepathClean path := by
  rcases filepathClean_cases path with h | ⟨rooted, elems, hcl, hne, h⟩
  · rw [h]
    decide
  · rw [h]
    exact filepathClean_of_cleaned rooted elems hcl hne

theorem filepathClean_ne_empty (path : String) : filepathClean path ≠ "" := by
  rcases filepathClean_cases path with h | ⟨rooted, elems, hcl, hne, h⟩
  · rw [h]
    decide
  · rw [h]
    intro hh
    have hd := congrArg String.data hh
    cases rooted with
    | true => simp at hd
    | false =>
      obtain ⟨e, rest, hcons⟩ := List.exists_cons_of_ne_nil (hne rfl)
      obtain ⟨tail, htail⟩ := intercalate_cons_eq ['/'] e rest
      have hee := hcl.1 e (by rw [hcons]; exact List.mem_cons_self _ _)
      rw [hcons, htail] at hd
      simp at hd
      exact hee.1 hd.1

theorem string_append_ne_empty (a b : String) (ha : a ≠ "") : a ++ b ≠ "" := by
  intro h
  apply ha
  have := congrArg String.data h
  simp only [String.data_append] at this
  have h2 : a.data = [] := (List.append_eq_nil.mp this).1
  cases a
  simp_all

theorem splitOnP_append_sep (p : Char → Bool) (xs ys : List Char) (sep : Char)
    (hsep : p sep = true) :
    (xs ++ sep :: ys).splitOnP p = xs.splitOnP p ++ ys.splitOnP p := by
  induction xs with
  | nil => simp [List.splitOnP_cons, hsep]
  | cons x rest ih =>
    rw [List.cons_append, List.splitOnP_cons, List.splitOnP_cons, ih]
    by_cases hx : p x = true
    · simp [hx]
    · simp only [hx, Bool.false_eq_true, if_false]
      cases h : List.splitOnP p rest with
      | nil => exact absurd h (List.splitOnP_ne_nil _ _)
      | cons a as => rfl

theorem cleanElements_snoc_name (rooted : Bool) (es out : List (List Char)) (x : List Char)
    (hx : x ≠ [] ∧ x ≠ ['.'] ∧ x ≠ ['.', '.']) :
    ∃ kept, cleanElements rooted (es ++ [x]) out = kept ++ [x] := by
  induction es generalizing out with
  | nil =>
    refine ⟨out.reverse, ?_⟩
    have h1 : ¬ (x = [] ∨ x = ['.']) := fun h => h.elim hx.1 hx.2.1
    simp [cleanElements, h1, hx.2.2]
  | cons e rest ih =>
    rw [List.cons_append]
    unfold cleanElements
    split
    · exact ih out
    · split
      · split
        · split
          · split
            · exact ih _
            · exact ih _
          · exact ih _
        · split
          · exact ih _
          · exact ih _
      · exact ih _

theorem intercalate_snoc (kept : List (List Char)) (x : List Char) :
    ∃ pre, List.intercalate ['/'] (kept ++ [x]) = pre ++ x ∧
      (pre = [] ∨ ∃ q, pre = q ++ ['/']) := by
  induction kept with
  | nil => exact ⟨[], by simp [List.intercalate], Or.inl rfl⟩
  | cons e rest ih =>
    obtain ⟨pre, hpre, hcases⟩ := ih
    obtain ⟨y, zs, hyz⟩ := List.exists_cons_of_ne_nil
      (show rest ++ [x] ≠ [] by simp)
    have hstep : List.intercalate ['/'] (e :: rest ++ [x]) =
        e ++ '/' :: List.intercalate ['/'] (rest ++ [x]) := by
      rw [List.cons_append, hyz]
      simp [List.intercalate]
    refine ⟨e ++ '/' :: pre, ?_, ?_⟩
    · rw [hstep, hpre]
      simp
    · right
      rcases hcases with h | ⟨q, hq⟩
      · exact ⟨e, by rw [h]⟩
      · exact ⟨e ++ '/' :: q, by rw [hq]; simp⟩

theorem extLoop_append (y rest acc : List Char) (hy : '/' ∉ y)
    (hrest : rest = [] ∨ ∃ t, rest = '/' :: t) :
    extLoop (y ++ rest) acc = extLoop y acc := by
  induction y generalizing acc with
  | nil =>
    rcases hrest with h | ⟨t, h⟩
    · rw [h]
      rfl
    · rw [h]
      simp [extLoop]
  | cons c cs ih =>
    have hc : c ≠ '/' := fun h => hy (h ▸ List.mem_cons_self _ _)
    have hcs : '/' ∉ cs := fun h => hy (List.mem_cons_of_mem _ h)
    rw [List.cons_append]
    unfold extLoop
    rw [if_neg hc, if_neg hc]
    split
    · rfl
    · exact ih _ hcs

/-- Joining a directory and a plain file name gives a path with the extension of the file
name. -/
theorem filepathJoin_ext (dir name : String) (hdir : dir ≠ "")
    (hname : name.data ≠ [] ∧ '/' ∉ name.data ∧ name ≠ "." ∧ name ≠ "..") :
    filepathExt (filepathJoin dir name) = filepathExt name := by
  have hx : name.data ≠ [] ∧ name.data ≠ ['.'] ∧ name.data ≠ ['.', '.'] := by
    refine ⟨hname.1, ?_, ?_⟩
    · intro h
      apply hname.2.2.1
      cases name
      simp_all
    · intro h
      apply hname.2.2.2
      cases name
      simp_all
  have hsplit : (dir.data ++ '/' :: name.data).splitOn '/' =
      dir.data.splitOn '/' ++ [name.data] := by
    unfold List.splitOn
    rw [splitOnP_append_sep _ _ _ '/' (by simp)]
    congr 1
    apply List.splitOnP_eq_single
    intro c hc hcs
    have : c = '/' := by simpa using hcs
    exact hname.2.1 (this ▸ hc)
  have hdata : ∃ pre, (filepathJoin dir name).data = pre ++ name.data ∧
      (pre = [] ∨ ∃ q, pre = q ++ ['/']) := by
    unfold filepathJoin
    rw [if_pos hdir]
    unfold filepathClean
    have hne : dir ++ "/" ++ name ≠ "" :=
      string_append_ne_empty _ _ (string_append_ne_empty _ _ hdir)
    rw [if_neg hne]
    have hd : (dir ++ "/" ++ name).data = dir.data ++ '/' :: name.data := by
      simp [String.data_append]
    dsimp only
    rw [hd, hsplit]
    obtain ⟨kept, hkept⟩ := cleanElements_snoc_name
      ((dir.data ++ '/' :: name.data).head? == some '/') (dir.data.splitOn '/') [] name.data hx
    rw [hkept]
    obtain ⟨pre, hpre, hcases⟩ := intercalate_snoc kept name.data
    rw [hpre]
    split
    · refine ⟨'/' :: pre, rfl, Or.inr ?_⟩
      rcases hcases with h | ⟨q, hq⟩
      · exact ⟨[], by rw [h]; rfl⟩
      · exact ⟨'/' :: q, by rw [hq]; rfl⟩
    · have hb : pre ++ name.data ≠ [] := by
        intro h
        exact hname.1 (List.append_eq_nil.mp h).2
      rw [if_neg hb]
      exact ⟨pre, rfl, hcases⟩
  obtain ⟨pre, hpre, hcases⟩ := hdata
  unfold filepathExt
  rw [hpre, List.reverse_append]
  congr 1
  apply extLoop_append
  · intro h
    exact hname.2.1 (List.mem_reverse.mp h)
  · rcases hcases with h | ⟨q, hq⟩
    · left
      rw [h]
      rfl
    · right
      exact ⟨q.reverse, by rw [hq]; simp⟩

theorem filepathDir_ne_empty (path : String) : filepathDir path ≠ "" :=
  filepathClean_ne_empty _

/-! ### `sort.Slice` returns a sorted permutation -/

theorem sinkLeft_perm {α : Type} (less : α → α → Bool) (x : α) (l : List α) :
    (sinkLeft less x l).Perm (x :: l) := by
  induction l with
  | nil => exact List.Perm.refl _
  | cons y ys ih =>
    unfold sinkLeft
    split
    · exact (List.Perm.cons y ih).trans (List.Perm.swap x y ys)
    · exact List.Perm.refl _

theorem foldl_sinkLeft_perm {α : Type} (less : α → α → Bool) (xs acc : List α) :
    (xs.foldl (fun sortedRev x => sinkLeft less x sortedRev) acc).Perm (xs ++ acc) := by
  induction xs generalizing acc with
  | nil => exact List.Perm.refl _
  | cons x rest ih =>
    simp only [List.foldl_cons]
    refine (ih (sinkLeft less x acc)).trans ?_
    refine (List.Perm.append_left rest (sinkLeft_perm less x acc)).trans ?_
    exact List.perm_middle

theorem sortSlice_perm {α : Type} (less : α → α → Bool) (xs : List α) :
    (sortSlice less xs).Perm xs := by
  unfold sortSlice
  refine (List.reverse_perm _).trans ?_
  simpa using foldl_sinkLeft_perm less xs []

theorem sinkLeft_descending {α β : Type} [LinearOrder β] (key : α → β)
    (less : α → α → Bool) (hless : ∀ a b, less a b = true ↔ key a < key b)
    (x : α) (l : List α) (hl : l.Pairwise (fun a b => key b ≤ key a)) :
    (sinkLeft less x l).Pairwise (fun a b => key b ≤ key a) := by
  induction l with
  | nil => simp [sinkLeft]
  | cons y ys ih =>
    have hy := List.pairwise_cons.mp hl
    unfold sinkLeft
    split
    · rename_i hxy
      have hlt : key x < key y := (hless x y).mp hxy
      refine List.pairwise_cons.mpr ⟨?_, ih hy.2⟩
      intro z hz
      rcases List.mem_cons.mp ((List.Perm.mem_iff (sinkLeft_perm less x ys)).mp hz) with
        rfl | hzy
      · exact le_of_lt hlt
      · exact hy.1 z hzy
    · rename_i hxy
      have hge : key y ≤ key x := by
        rw [← not_lt]
        intro h
        exact hxy ((hless x y).mpr h)
      refine List.pairwise_cons.mpr ⟨?_, hl⟩
      intro z hz
      rcases List.mem_cons.mp hz with rfl | hz
      · exact hge
      · exact le_trans (hy.1 z hz) hge

theorem foldl_sinkLeft_descending {α β : Type} [LinearOrder β] (key : α → β)
    (less : α → α → Bool) (hless : ∀ a b, less a b = true ↔ key a < key b)
    (xs acc : List α) (hacc : acc.Pairwise (fun a b => key b ≤ key a)) :
    (xs.foldl (fun sortedRev x => sinkLeft less x sortedRev) acc).Pairwise
      (fun a b => key b ≤ key a) := by
  induction xs generalizing acc with
  | nil => exact hacc
  | cons x rest ih =>
    simp only [List.foldl_cons]
    exact ih _ (sinkLeft_descending key less hless x acc hacc)

/-- When `less` is the strict order of a key, `sort.Slice` leaves the keys ascending. -/
theorem sortSlice_sorted {α β : Type} [LinearOrder β] (key : α → β)
    (less : α → α → Bool) (hless : ∀ a b, less a b = true ↔ key a < key b)
    (xs : List α) : (sortSlice less xs).Pairwise (fun a b => key a ≤ key b) := by
  unfold sortSlice
  rw [List.pairwise_reverse]
  exact foldl_sinkLeft_descending key less hless xs [] List.Pairwise.nil

end StandardLibrary

namespace search

open applications

/-! ### The scan of `fuzzyScore` -/

theorem fuzzyStep_done (qr : List Char) (st : fuzzyState) (ci : Nat) (r : Char)
    (h : st.qi ≥ qr.length) : fuzzyStep qr st ci r = st := by
  simp [fuzzyStep, h]

theorem fuzzyLoop_done (qr cs : List Char) (ci : Nat) (st : fuzzyState)
    (h : st.qi ≥ qr.length) : fuzzyLoop qr cs ci st = st := by
  induction cs generalizing ci with
  | nil => rfl
  | cons r rest ih => simp [fuzzyLoop, fuzzyStep_done qr st ci r h, ih]

theorem fuzzyStep_hit (qr : List Char) (st : fuzzyState) (ci : Nat) (r : Char)
    (hlt : st.qi < qr.length) (hr : qr[st.qi]? = some r) :
    (fuzzyStep qr st ci r).qi = st.qi + 1 := by
  simp [fuzzyStep, Nat.not_le.mpr hlt, hr]

theorem fuzzyStep_miss (qr : List Char) (st : fuzzyState) (ci : Nat) (r : Char)
    (hr : qr[st.qi]? ≠ some r) : fuzzyStep qr st ci r = st := by
  unfold fuzzyStep
  split
  · rfl
  · simp [hr]

/-- The scan matches all of the query from `qi` on exactly when the rest of the query is a
subsequence of the rest of the candidate. -/
theorem fuzzyLoop_complete_iff (qr cs : List Char) (ci : Nat) (st : fuzzyState)
    (h : st.qi ≤ qr.length) :
    (fuzzyLoop qr cs ci st).qi = qr.length ↔ (qr.drop st.qi).Sublist cs := by
  induction cs generalizing ci st with
  | nil =>
    simp only [fuzzyLoop, List.sublist_nil, List.drop_eq_nil_iff]
    omega
  | cons r rest ih =>
    simp only [fuzzyLoop]
    rcases Nat.lt_or_ge st.qi qr.length with hlt | hge
    · have hdrop : qr.drop st.qi = qr[st.qi] :: qr.drop (st.qi + 1) :=
        List.drop_eq_getElem_cons hlt
      by_cases hr : qr[st.qi]? = some r
      · have hq := fuzzyStep_hit qr st ci r hlt hr
        have hx : qr[st.qi] = r := by
          rw [List.getElem?_eq_getElem hlt] at hr
          exact Option.some.inj hr
        rw [ih (ci + 1) (fuzzyStep qr st ci r) (by omega), hq, hdrop, hx]
        exact (List.cons_sublist_cons).symm
      · have hx : qr[st.qi] ≠ r := by
          intro hx
          apply hr
          rw [List.getElem?_eq_getElem hlt, hx]
        rw [fuzzyStep_miss qr st ci r hr, ih (ci + 1) st h, hdrop]
        constructor
        · intro hs
          exact List.Sublist.cons r hs
        · intro hs
          cases hs with
          | cons _ hs => exact hs
          | cons₂ _ hs => exact absurd rfl hx
    · rw [fuzzyStep_done qr st ci r hge, fuzzyLoop_done qr rest (ci + 1) st hge]
      have hnil : qr.drop st.qi = [] := List.drop_eq_nil_iff.mpr hge
      rw [hnil]
      constructor
      · intro _
        exact List.nil_sublist _
      · intro _
        omega

theorem fuzzyScore_matches_iff (query candidate : String) (hq : query ≠ "") :
    (fuzzyScore query candidate).1 = true ↔ query.data.Sublist candidate.data := by
  have hq0 : query.data ≠ [] := by
    intro h
    apply hq
    cases query
    simp_all
  have hlen : query.data.length ≠ 0 := fun h => hq0 (List.length_eq_zero.mp h)
  unfold fuzzyScore
  by_cases hc : candidate.data.length = 0
  · have hc0 : candidate.data = [] := List.length_eq_zero.mp hc
    simp [hc, hc0, hq0]
  · have key := fuzzyLoop_complete_iff query.data candidate.data 0
      { qi := 0, score := 0, lastMatchIndex := -1 } (Nat.zero_le _)
    simp only [List.drop_zero] at key
    simp only [hlen, hc, or_self, if_false]
    rw [← key]
    split <;> simp_all

/-! ### The scan of `fuzzyScore` against the leftmost match of the specification -/

theorem leftmostMatch_nil_query (cs : List Char) (ci : Nat) :
    leftmostMatch [] cs ci = some [] := by
  cases cs <;> rfl

/-- What the loop adds to the score along the leftmost match `ps` of the rest of the query:
5 a match, 10 for each match adjacent to its predecessor, and what the first of them earns
from the loop variables it meets. -/
theorem fuzzyLoop_leftmostMatch (qr cs : List Char) (ci : Nat) (st : fuzzyState)
    (ps : List Nat) (hqi : st.qi ≤ qr.length)
    (hm : leftmostMatch (qr.drop st.qi) cs ci = some ps) :
    (fuzzyLoop qr cs ci st).qi = qr.length ∧
      (fuzzyLoop qr cs ci st).score =
        st.score + 5 * (ps.length : Int) + 10 * (adjacentMatches ps : Int)
          + firstMatchExtra st.lastMatchIndex st.qi ps := by
  induction cs generalizing ci st ps with
  | nil =>
    cases hd : qr.drop st.qi with
    | nil =>
      rw [hd] at hm
      have hps : ps = [] := by
        simpa [leftmostMatch] using hm.symm
      subst hps
      have hge : qr.length ≤ st.qi := List.drop_eq_nil_iff.mp hd
      simp [fuzzyLoop, adjacentMatches, firstMatchExtra]
      omega
    | cons x d =>
      rw [hd] at hm
      simp [leftmostMatch] at hm
  | cons r rest ih =>
    rcases Nat.lt_or_ge st.qi qr.length with hlt | hge
    · have hdrop : qr.drop st.qi = qr[st.qi] :: qr.drop (st.qi + 1) :=
        List.drop_eq_getElem_cons hlt
      rw [hdrop] at hm
      simp only [fuzzyLoop]
      by_cases hr : r = qr[st.qi]
      · simp only [leftmostMatch, hr, if_true, Option.map_eq_some'] at hm
        obtain ⟨ps2, hm2, hps⟩ := hm
        subst hps
        have hget : qr[st.qi]? = some r := by
          rw [List.getElem?_eq_getElem hlt, hr]
        have hstep : ∃ sc : Int, fuzzyStep qr st ci r =
              { qi := st.qi + 1, score := sc, lastMatchIndex := (ci : Int) } ∧
            sc = st.score + 5 + (if st.lastMatchIndex = (ci : Int) - 1 then 10 else 0)
              + (if st.qi = 0 then Max.max (15 - 2 * (ci : Int)) 0 else 0) := by
          refine ⟨_, ?_, rfl⟩
          simp only [fuzzyStep, Nat.not_le.mpr hlt, hget, if_true, if_false, search.max]
          congr 1
          rw [max_def]
          split_ifs <;> omega
        obtain ⟨sc, hst, hsc⟩ := hstep
        rw [hst]
        have hih := ih (ci + 1) { qi := st.qi + 1, score := sc, lastMatchIndex := (ci : Int) }
          ps2 (Nat.succ_le_of_lt hlt) hm2
        refine ⟨hih.1, ?_⟩
        rw [hih.2, hsc]
        cases ps2 with
        | nil =>
          simp only [adjacentMatches, firstMatchExtra, List.length_cons, List.length_nil]
          push_cast
          ring
        | cons p2 ps3 =>
          simp only [adjacentMatches, firstMatchExtra, List.length_cons]
          have hne : ¬ (st.qi + 1 = 0) := Nat.succ_ne_zero _
          simp only [hne, if_false]
          by_cases hp : p2 = ci + 1
          · have hp2 : (ci : Int) = (p2 : Int) - 1 := by omega
            simp only [hp, hp2, if_true]
            push_cast
            ring
          · have hp2 : ¬ (ci : Int) = (p2 : Int) - 1 := by omega
            simp only [hp, hp2, if_false]
            push_cast
            ring
      · have hr2 : ¬ qr[st.qi] = r := fun h => hr h.symm
        simp only [leftmostMatch, hr, if_false] at hm
        have hget : qr[st.qi]? ≠ some r := by
          rw [List.getElem?_eq_getElem hlt]
          intro h
          exact hr2 (Option.some.inj h)
        rw [fuzzyStep_miss qr st ci r hget]
        rw [← hdrop] at hm
        exact ih (ci + 1) st ps hqi hm
    · have hnil : qr.drop st.qi = [] := List.drop_eq_nil_iff.mpr hge
      rw [hnil, leftmostMatch_nil_query] at hm
      have hps : ps = [] := (Option.some.inj hm).symm
      subst hps
      rw [fuzzyLoop_done qr _ ci st hge]
      simp [adjacentMatches, firstMatchExtra]
      omega

theorem leftmostMatch_isSome_iff (q cs : List Char) (ci : Nat) :
    (leftmostMatch q cs ci).isSome = true ↔ q.Sublist cs := by
  induction cs generalizing q ci with
  | nil =>
    cases q with
    | nil => simp [leftmostMatch]
    | cons x qs => simp [leftmostMatch]
  | cons r rest ih =>
    cases q with
    | nil => simp [leftmostMatch]
    | cons x qs =>
      by_cases hr : r = x
      · subst hr
        simp only [leftmostMatch, if_true, Option.isSome_map', List.cons_sublist_cons]
        exact ih qs (ci + 1)
      · simp only [leftmostMatch, hr, if_false]
        rw [ih (x :: qs) (ci + 1)]
        constructor
        · intro hs
          exact List.Sublist.cons r hs
        · intro hs
          cases hs with
          | cons _ hs => exact hs
          | cons₂ _ hs => exact absurd rfl hr

theorem leftmostMatch_length (q cs : List Char) (ci : Nat) (ps : List Nat)
    (h : leftmostMatch q cs ci = some ps) : ps.length = q.length := by
  induction cs generalizing q ci ps with
  | nil =>
    cases q with
    | nil =>
      simp only [leftmostMatch, Option.some.injEq] at h
      subst h
      rfl
    | cons x qs => simp [leftmostMatch] at h
  | cons r rest ih =>
    cases q with
    | nil =>
      simp only [leftmostMatch, Option.some.injEq] at h
      subst h
      rfl
    | cons x qs =>
      by_cases hr : r = x
      · simp only [leftmostMatch, hr, if_true, Option.map_eq_some'] at h
        obtain ⟨ps2, h2, hps⟩ := h
        rw [← hps, List.length_cons, List.length_cons, ih qs (ci + 1) ps2 h2]
      · simp only [leftmostMatch, hr, if_false] at h
        exact ih (x :: qs) (ci + 1) ps h

theorem fuzzyScore_of_no_match (query candidate : String)
    (h : (fuzzyScore query candidate).1 = false) : fuzzyScore query candidate = (false, 0) := by
  unfold fuzzyScore at h ⊢
  dsimp only at h ⊢
  split
  · rfl
  · rename_i h0
    rw [if_neg h0] at h
    split
    · rfl
    · rename_i h1
      rw [if_neg h1] at h
      exact absurd h (by simp)

/-- With a leftmost match at positions `ps`, the code returns the score of the specification,
and 10 more when the first match is at position 0. -/
theorem fuzzyScore_eq_spec_plus (q c : String) (ps : List Nat) (hq : q ≠ "")
    (hm : leftmostMatch q.data c.data 0 = some ps) :
    ∃ s, subsequenceScoreSpec q c = some s ∧
      fuzzyScore q c = (true, s + (if ps.head? = some 0 then 10 else 0)) := by
  have hq0 : q.data ≠ [] := by
    intro h
    apply hq
    cases q
    simp_all
  have hlen := leftmostMatch_length _ _ _ _ hm
  have hc0 : c.data ≠ [] := by
    intro h
    rw [h] at hm
    cases hqd : q.data with
    | nil => exact hq0 hqd
    | cons x qs =>
      rw [hqd] at hm
      simp [leftmostMatch] at hm
  have hloop := fuzzyLoop_leftmostMatch q.data c.data 0
    { qi := 0, score := 0, lastMatchIndex := -1 } ps (Nat.zero_le _) hm
  have hspec : subsequenceScoreSpec q c = some (5 * (ps.length : Int)
      + 10 * (adjacentMatches ps : Int) + Max.max (15 - 2 * (ps.headD 0 : Int)) 0
      - (c.data.length : Int)) := by
    simp only [subsequenceScoreSpec, hm, Option.map_some']
  refine ⟨_, hspec, ?_⟩
  unfold fuzzyScore
  dsimp only
  have h0 : ¬ (q.data.length = 0 ∨ c.data.length = 0) := by
    intro h
    rcases h with h | h
    · exact hq0 (List.length_eq_zero.mp h)
    · exact hc0 (List.length_eq_zero.mp h)
  rw [if_neg h0, if_neg (fun hne => hne hloop.1), hloop.2]
  cases ps with
  | nil =>
    exfalso
    apply hq0
    exact List.length_eq_zero.mp hlen.symm
  | cons p ps2 =>
    simp only [firstMatchExtra, List.headD_cons, List.head?_cons, Option.some.injEq, if_true]
    congr 1
    by_cases hp : p = 0
    · subst hp
      simp
      ring
    · have hp2 : ¬ ((-1 : Int) = (p : Int) - 1) := by omega
      simp only [hp, hp2, if_false]
      ring

/-! ### Bounds on the fuzzy score -/

theorem fuzzyStep_score_le (qr : List Char) (st : fuzzyState) (ci : Nat) (r : Char) :
    st.qi ≤ (fuzzyStep qr st ci r).qi ∧
      (fuzzyStep qr st ci r).score ≤
        st.score + 15 * (((fuzzyStep qr st ci r).qi : Int) - st.qi)
          + (if st.qi = 0 then 15 else 0) - (if (fuzzyStep qr st ci r).qi = 0 then 15 else 0)
      := by
  unfold fuzzyStep
  by_cases h1 : st.qi ≥ qr.length
  · simp only [h1, if_true]
    refine ⟨Nat.le_refl _, ?_⟩
    split <;> omega
  · simp only [h1, if_false]
    by_cases h2 : qr[st.qi]? = some r
    · simp only [h2, if_true]
      refine ⟨Nat.le_succ _, ?_⟩
      unfold search.max
      split <;> split <;> split <;> simp <;> omega
    · simp only [h2, if_false]
      refine ⟨Nat.le_refl _, ?_⟩
      split <;> omega

theorem fuzzyLoop_score_le (qr cs : List Char) (ci : Nat) (st : fuzzyState) :
    st.qi ≤ (fuzzyLoop qr cs ci st).qi ∧
      (fuzzyLoop qr cs ci st).score ≤
        st.score + 15 * (((fuzzyLoop qr cs ci st).qi : Int) - st.qi)
          + (if st.qi = 0 then 15 else 0) - (if (fuzzyLoop qr cs ci st).qi = 0 then 15 else 0)
      := by
  induction cs generalizing ci st with
  | nil =>
    simp only [fuzzyLoop]
    refine ⟨Nat.le_refl _, ?_⟩
    split <;> omega
  | cons r rest ih =>
    simp only [fuzzyLoop]
    have h1 := fuzzyStep_score_le qr st ci r
    have h2 := ih (ci + 1) (fuzzyStep qr st ci r)
    refine ⟨Nat.le_trans h1.1 h2.1, ?_⟩
    omega

/-- A matching candidate scores at most 15 points a query character plus the 15 points of
the start bonus, minus its length. -/
theorem fuzzyScore_le (query candidate : String) (h : (fuzzyScore query candidate).1 = true) :
    (fuzzyScore query candidate).2
      ≤ 15 * (query.data.length : Int) + 15 - (candidate.data.length : Int) := by
  unfold fuzzyScore at h ⊢
  dsimp only at h ⊢
  by_cases h0 : query.data.length = 0 ∨ candidate.data.length = 0
  · rw [if_pos h0] at h
    exact absurd h (by decide)
  · rw [if_neg h0] at h ⊢
    have hb := (fuzzyLoop_score_le query.data candidate.data 0
      { qi := 0, score := 0, lastMatchIndex := -1 }).2
    by_cases h1 : (fuzzyLoop query.data candidate.data 0
        { qi := 0, score := 0, lastMatchIndex := -1 }).qi = query.data.length
    · rw [if_neg (fun hne => hne h1)]
      rw [h1] at hb
      dsimp only at hb ⊢
      rw [if_pos rfl] at hb
      split at hb <;> omega
    · rw [if_pos h1] at h
      exact absurd h (by decide)

/-! ### The comparison and the sort -/

theorem scoredLess_iff_orderKey_lt (caseTable : Char → Char) (a b : scoredApp) :
    scoredLess caseTable a b = true ↔ orderKey caseTable a < orderKey caseTable b := by
  unfold scoredLess orderKey
  rw [Prod.Lex.lt_iff]
  simp only [neg_lt_neg_iff, neg_inj]
  by_cases hs : a.score = b.score
  · simp only [hs, if_true, lt_self_iff_false, false_or, true_and]
    rw [Prod.Lex.lt_iff]
    by_cases hn : stringsToLower caseTable a.app.Name = stringsToLower caseTable b.app.Name
    · simp [hn]
    · simp [hn]
  · have hs2 : ¬ b.score = a.score := fun h => hs h.symm
    simp [hs, hs2]

theorem orderKey_eq_iff (caseTable : Char → Char) (a b : scoredApp) :
    orderKey caseTable a = orderKey caseTable b ↔
      a.score = b.score ∧ a.app.Name = b.app.Name := by
  unfold orderKey
  constructor
  · intro h
    have h1 := congrArg (fun k => (ofLex k).1) h
    have h2 := congrArg (fun k => (ofLex (ofLex k).2).2) h
    simp at h1 h2
    exact ⟨h1, h2⟩
  · rintro ⟨h1, h2⟩
    rw [h1, h2]

theorem orderKey_le_iff (caseTable : Char → Char) (a b : scoredApp) :
    orderKey caseTable a ≤ orderKey caseTable b ↔
      a.score > b.score ∨
        (a.score = b.score ∧
          stringsToLower caseTable a.app.Name < stringsToLower caseTable b.app.Name) ∨
        (a.score = b.score ∧
          stringsToLower caseTable a.app.Name = stringsToLower caseTable b.app.Name ∧
          a.app.Name ≤ b.app.Name) := by
  unfold orderKey
  rw [Prod.Lex.le_iff]
  simp only [neg_lt_neg_iff, neg_inj]
  rw [Prod.Lex.le_iff]
  constructor
  · rintro (h | ⟨h1, h2 | ⟨h2, h3⟩⟩)
    · exact Or.inl h
    · exact Or.inr (Or.inl ⟨h1, h2⟩)
    · exact Or.inr (Or.inr ⟨h1, h2, h3⟩)
  · rintro (h | ⟨h1, h2⟩ | ⟨h1, h2, h3⟩)
    · exact Or.inl h
    · exact Or.inr ⟨h1, Or.inl h2⟩
    · exact Or.inr ⟨h1, Or.inr ⟨h2, h3⟩⟩

theorem scoreApplications_sorted (caseTable : Char → Char) (apps : List Application)
    (q : String) :
    (scoreApplications caseTable apps q).Pairwise
      (fun a b => orderKey caseTable a ≤ orderKey caseTable b) :=
  sortSlice_sorted (orderKey caseTable) (scoredLess caseTable)
    (scoredLess_iff_orderKey_lt caseTable) _

theorem scoreApplications_mem (caseTable : Char → Char) (apps : List Application)
    (q : String) (r : scoredApp) (hr : r ∈ scoreApplications caseTable apps q) :
    r.score = (scoreApplication caseTable r.app q).1 ∧ 0 < r.score ∧ r.app ∈ apps := by
  unfold scoreApplications at hr
  have hr2 := (List.Perm.mem_iff (sortSlice_perm _ _)).mp hr
  rw [List.mem_filterMap] at hr2
  obtain ⟨app, happ, hsome⟩ := hr2
  by_cases hpos : (scoreApplication caseTable app q).1 > 0
  · simp only [hpos, if_true, Option.some.injEq] at hsome
    subst hsome
    exact ⟨rfl, hpos, happ⟩
  · simp [hpos] at hsome

theorem scoreApplications_apps_perm (caseTable : Char → Char) (apps : List Application)
    (q : String) :
    ((scoreApplications caseTable apps q).map (fun res => res.app)).Perm
      (apps.filter (fun a => decide (0 < (scoreApplication caseTable a q).1))) := by
  unfold scoreApplications
  refine (List.Perm.map _ (sortSlice_perm _ _)).trans ?_
  apply List.Perm.of_eq
  induction apps with
  | nil => rfl
  | cons a rest ih =>
    by_cases hpos : (scoreApplication caseTable a q).1 > 0
    · have hpos2 : 0 < (scoreApplication caseTable a q).1 := hpos
      simp only [List.filterMap_cons, hpos, if_true, List.map_cons, ih]
      simp [List.filter_cons, hpos2]
    · have hpos2 : ¬ 0 < (scoreApplication caseTable a q).1 := hpos
      simp only [List.filterMap_cons, hpos, if_false, ih]
      simp [List.filter_cons, hpos2]

theorem Filter_eq_map (caseTable : Char → Char) (apps : List Application) (query : String)
    (hq : stringsTrimSpace query ≠ "") :
    Filter caseTable apps query =
      (scoreApplications caseTable apps
        (stringsToLower caseTable (stringsTrimSpace query))).map (fun res => res.app) := by
  simp only [Filter, hq, if_false]
  split
  · rename_i h
    rw [List.length_eq_zero.mp h]
    rfl
  · rfl

theorem Filter_pairwise (caseTable : Char → Char) (apps : List Application)
    (query : String) :
    (Filter caseTable apps query).Pairwise
      (resultOrder caseTable (stringsToLower caseTable (stringsTrimSpace query))) := by
  by_cases hq : stringsTrimSpace query = ""
  · simp [Filter, hq]
  · rw [Filter_eq_map caseTable apps query hq, List.pairwise_map]
    refine List.Pairwise.imp_of_mem ?_ (scoreApplications_sorted caseTable apps _)
    intro r s hr hs hle
    have h1 := (scoreApplications_mem caseTable apps _ r hr).1
    have h2 := (scoreApplications_mem caseTable apps _ s hs).1
    rw [orderKey_le_iff, h1, h2] at hle
    exact hle

theorem stringsToLower_ne_empty (caseTable : Char → Char) (s : String) (h : s ≠ "") :
    stringsToLower caseTable s ≠ "" := by
  intro he
  apply h
  have h2 := congrArg String.data he
  simp only [stringsToLower] at h2
  have h3 : s.data = [] := List.map_eq_nil_iff.mp h2
  cases s
  simp_all

theorem stringsIndex_nonneg_of_infix (s sub : String) (h : sub.data <:+: s.data) :
    0 ≤ stringsIndex s sub := by
  obtain ⟨i, hi⟩ := occursFirstAt_of_infix _ _ h
  rw [stringsIndex_of_firstOccurrence s sub i hi]
  exact Int.natCast_nonneg i

theorem stringsTrimSpace_ne_empty (query : String)
    (hq : ∃ c ∈ query.data, unicodeIsSpace c = false) : stringsTrimSpace query ≠ "" := by
  obtain ⟨c, hc, hsp⟩ := hq
  have keep : ∀ l : List Char, c ∈ l → c ∈ l.dropWhile unicodeIsSpace := by
    intro l hl
    rw [← List.takeWhile_append_dropWhile unicodeIsSpace l] at hl
    rcases List.mem_append.mp hl with h | h
    · have := List.mem_takeWhile_imp h
      simp [hsp] at this
    · exact h
  have h1 := keep _ (List.mem_reverse.mpr (keep _ hc))
  intro h
  have h2 := congrArg String.data h
  simp only [stringsTrimSpace] at h2
  have h3 : (List.dropWhile unicodeIsSpace (List.dropWhile unicodeIsSpace query.data).reverse)
      = [] := by
    simpa using h2
  rw [h3] at h1
  exact absurd h1 (List.not_mem_nil _)

/-! ### The two catalog scenarios of the specification -/

theorem stringsToLower_firefox (caseTable : Char → Char) :
    stringsToLower caseTable "Firefox" = "firefox" ∧
      stringsToLower caseTable "firefox" = "firefox" ∧
      stringsToLower caseTable "File Manager" = "file manager" ∧
      stringsToLower caseTable "files" = "files" ∧
      stringsToLower caseTable "fm" = "fm" ∧
      stringsToLower caseTable "fire" = "fire" :=
  ⟨rfl, rfl, rfl, rfl, rfl, rfl⟩

theorem scoreApplication_scenario_fm (caseTable : Char → Char) (a b : Application)
    (ha : a.Name = "Firefox" ∧ a.Exec = "firefox")
    (hb : b.Name = "File Manager" ∧ b.Exec = "files") :
    scoreApplication caseTable a "fm" = (0, "") ∧
      scoreApplication caseTable b "fm" = (1023, "name-fuzzy") := by
  obtain ⟨h1, h2, h3, h4, -, -⟩ := stringsToLower_firefox caseTable
  constructor
  · simp only [scoreApplication, ha.1, ha.2, h1, h2]
    decide
  · simp only [scoreApplication, hb.1, hb.2, h3, h4]
    decide

theorem Filter_scenario_fm (caseTable : Char → Char) (a b : Application)
    (ha : a.Name = "Firefox" ∧ a.Exec = "firefox")
    (hb : b.Name = "File Manager" ∧ b.Exec = "files") :
    Filter caseTable [a, b] "fm" = [b] := by
  obtain ⟨h1, h2⟩ := scoreApplication_scenario_fm caseTable a b ha hb
  have ht : stringsTrimSpace "fm" = "fm" := by decide
  have hl := (stringsToLower_firefox caseTable).2.2.2.2.1
  simp [Filter, ht, hl, scoreApplications, h1, h2, sortSlice, sinkLeft]

theorem Filter_scenario_fire (caseTable : Char → Char) (a b : Application)
    (ha : a.Name = "Firefox" ∧ a.Exec = "firefox")
    (hb : b.Name = "File Manager" ∧ b.Exec = "files") :
    Filter caseTable [a, b] "fire" = [a] := by
  obtain ⟨h1, h2, h3, h4, -, hl⟩ := stringsToLower_firefox caseTable
  have hsa : scoreApplication caseTable a "fire" = (1993, "name-substring") := by
    simp only [scoreApplication, ha.1, ha.2, h1, h2]
    decide
  have hsb : scoreApplication caseTable b "fire" = (0, "") := by
    simp only [scoreApplication, hb.1, hb.2, h3, h4]
    decide
  have ht : stringsTrimSpace "fire" = "fire" := by decide
  simp [Filter, ht, hl, scoreApplications, hsa, hsb, sortSlice, sinkLeft]

/-! ### The claims about the search -/

/-- C1, as stated, fails: with the query "ab", the application whose name is fifty times
"x" followed by "ab" is a name-substring match scoring 948, the application named "acb" is
only a name-fuzzy match and scores 1032, and `Filter` lists the fuzzy match first. -/
theorem tier1_below_tier3_counterexample :
    (∃ c ∈ "ab".data, unicodeIsSpace c = false) ∧
      (stringsToLower id (stringsTrimSpace "ab")) = "ab" ∧
      "ab".data <:+: (stringsToLower id
        "xxxxxxxxxxxxxxxxxxxxxxxxxxxxxxxxxxxxxxxxxxxxxxxxxxab").data ∧
      "ab".data.Sublist (stringsToLower id "acb").data ∧
      ¬ "ab".data <:+: (stringsToLower id "acb").data ∧
      ¬ "ab".data <:+: (stringsToLower id "acb-viewer").data ∧
      scoreApplication id
        ⟨"xxxxxxxxxxxxxxxxxxxxxxxxxxxxxxxxxxxxxxxxxxxxxxxxxxab", "xab", "", "", "a.desktop"⟩
        "ab" = (948, "name-substring") ∧
      scoreApplication id ⟨"acb", "acb-viewer", "", "", "b.desktop"⟩ "ab"
        = (1032, "name-fuzzy") ∧
      Filter id
        [⟨"xxxxxxxxxxxxxxxxxxxxxxxxxxxxxxxxxxxxxxxxxxxxxxxxxxab", "xab", "", "", "a.desktop"⟩,
          ⟨"acb", "acb-viewer", "", "", "b.desktop"⟩] "ab" =
        [⟨"acb", "acb-viewer", "", "", "b.desktop"⟩,
          ⟨"xxxxxxxxxxxxxxxxxxxxxxxxxxxxxxxxxxxxxxxxxxxxxxxxxxab", "xab", "", "", "a.desktop"⟩]
      := by
  refine ⟨by decide, by decide, ?_, by decide, by decide, by decide, by decide, by decide,
    by decide⟩
  exact ⟨"xxxxxxxxxxxxxxxxxxxxxxxxxxxxxxxxxxxxxxxxxxxxxxxxxx".data, [], by decide⟩

/-- C1, amended. When the lowercased query `q` is a substring of the lowercased name of `A`
at first index `i`, while `B` only fuzzy-matches `q` by name, and
`20*i + len(lowercased A.Name) + 15*|q| + 15 < 1000 + |lowercased B.Name|` (lengths after
`len` in bytes, between bars in characters), then `A` scores strictly higher than `B`, and
wherever both stand in the result of `Filter`, `A` stands before `B`. -/
theorem tier1_above_tier3_of_bound (caseTable : Char → Char) (apps : List Application)
    (query q : String) (A B : Application)
    (hq : ∃ c ∈ query.data, unicodeIsSpace c = false)
    (hqdef : q = stringsToLower caseTable (stringsTrimSpace query))
    (hA : q.data <:+: (stringsToLower caseTable A.Name).data)
    (hB : q.data.Sublist (stringsToLower caseTable B.Name).data ∧
      ¬ q.data <:+: (stringsToLower caseTable B.Name).data ∧
      ¬ q.data <:+: (stringsToLower caseTable B.Exec).data)
    (hbound : stringsIndex (stringsToLower caseTable A.Name) q * 20
        + (goLen (stringsToLower caseTable A.Name) : Int) + 15 * (q.data.length : Int) + 15
      < 1000 + ((stringsToLower caseTable B.Name).data.length : Int)) :
    (scoreApplication caseTable A q).1 > (scoreApplication caseTable B q).1 ∧
      ∀ (i j : Nat) (hi : i < (Filter caseTable apps query).length)
        (hj : j < (Filter caseTable apps query).length),
        (Filter caseTable apps query)[i] = A → (Filter caseTable apps query)[j] = B →
          i < j := by
  have hqne : q ≠ "" := by
    rw [hqdef]
    exact stringsToLower_ne_empty caseTable _ (stringsTrimSpace_ne_empty query hq)
  have hsA : (scoreApplication caseTable A q).1 =
      2000 - stringsIndex (stringsToLower caseTable A.Name) q * 20
        - (goLen (stringsToLower caseTable A.Name) : Int) := by
    have h0 := stringsIndex_nonneg_of_infix _ _ hA
    simp [scoreApplication, h0]
  have hm : (fuzzyScore q (stringsToLower caseTable B.Name)).1 = true :=
    (fuzzyScore_matches_iff q _ hqne).mpr hB.1
  have hsB : (scoreApplication caseTable B q).1 =
      1000 + (fuzzyScore q (stringsToLower caseTable B.Name)).2 := by
    have h1 := stringsIndex_of_not_infix _ _ hB.2.1
    have h2 := stringsIndex_of_not_infix _ _ hB.2.2
    simp [scoreApplication, h1, h2, hm]
  have hle := fuzzyScore_le q _ hm
  have hgt : (scoreApplication caseTable A q).1 > (scoreApplication caseTable B q).1 := by
    rw [hsA, hsB]
    omega
  refine ⟨hgt, ?_⟩
  intro i j hi hj hiA hjB
  have hpw := Filter_pairwise caseTable apps query
  rw [← hqdef, List.pairwise_iff_getElem] at hpw
  by_contra hij
  rcases Nat.lt_or_ge j i with hlt | hge
  · have hr := hpw j i hj hi hlt
    rw [hiA, hjB] at hr
    unfold resultOrder at hr
    omega
  · have hji : i = j := by omega
    subst hji
    rw [hiA] at hjB
    rw [hjB] at hgt
    exact lt_irrefl _ hgt

theorem tier1_above_tier3_of_bound_witness :
    (scoreApplication id ⟨"Firefox", "firefox", "", "", "a.desktop"⟩ "fo").1 >
        (scoreApplication id ⟨"File Commander", "files", "", "", "b.desktop"⟩ "fo").1 ∧
      ∀ (i j : Nat)
        (hi : i < (Filter id [⟨"File Commander", "files", "", "", "b.desktop"⟩,
          ⟨"Firefox", "firefox", "", "", "a.desktop"⟩] " Fo").length)
        (hj : j < (Filter id [⟨"File Commander", "files", "", "", "b.desktop"⟩,
          ⟨"Firefox", "firefox", "", "", "a.desktop"⟩] " Fo").length),
        (Filter id [⟨"File Commander", "files", "", "", "b.desktop"⟩,
          ⟨"Firefox", "firefox", "", "", "a.desktop"⟩] " Fo")[i]
            = ⟨"Firefox", "firefox", "", "", "a.desktop"⟩ →
        (Filter id [⟨"File Commander", "files", "", "", "b.desktop"⟩,
          ⟨"Firefox", "firefox", "", "", "a.desktop"⟩] " Fo")[j]
            = ⟨"File Commander", "files", "", "", "b.desktop"⟩ →
          i < j :=
  tier1_above_tier3_of_bound id _ " Fo" "fo" ⟨"Firefox", "firefox", "", "", "a.desktop"⟩
    ⟨"File Commander", "files", "", "", "b.desktop"⟩ ⟨'F', by decide, by decide⟩
    (by decide) ⟨"fire".data, "x".data, by decide⟩ ⟨by decide, by decide, by decide⟩
    (by decide)

/-- C2. An empty or whitespace-only query makes `Filter` return the empty result, whatever
the catalog holds. -/
theorem Filter_blank_query (caseTable : Char → Char) (apps : List Application)
    (query : String) (hblank : ∀ c ∈ query.data, unicodeIsSpace c = true) :
    Filter caseTable apps query = [] := by
  simp [Filter, stringsTrimSpace_of_blank query hblank]

theorem Filter_blank_query_witness :
    (∀ c ∈ " \t\n ".data, unicodeIsSpace c = true) ∧
      Filter id [⟨"Firefox", "firefox", "", "", "a.desktop"⟩] " \t\n " = [] :=
  ⟨by decide, Filter_blank_query id _ " \t\n " (by decide)⟩

/-- C3. `scoreApplication` evaluates the four tiers in strict priority and the first that
matches decides: the name-substring tier gives `2000 - 20*i - len(name)` for the first index
`i` of the query in the lowercased name, the exec-substring tier `1500 - 20*j - len(exec)`,
the name-fuzzy tier `1000 + s`, the exec-fuzzy tier `800 + s`, and no match gives `0` with
an empty tag. -/
theorem scoreApplication_tiers (caseTable : Char → Char) (app : Application) (q : String)
    (_hq : q ≠ "") :
    (∀ i, firstOccurrence (stringsToLower caseTable app.Name) q i →
        scoreApplication caseTable app q =
          (2000 - 20 * (i : Int) - (goLen (stringsToLower caseTable app.Name) : Int),
            "name-substring")) ∧
      (¬ q.data <:+: (stringsToLower caseTable app.Name).data →
        ∀ j, firstOccurrence (stringsToLower caseTable app.Exec) q j →
          scoreApplication caseTable app q =
            (1500 - 20 * (j : Int) - (goLen (stringsToLower caseTable app.Exec) : Int),
              "exec-substring")) ∧
      (¬ q.data <:+: (stringsToLower caseTable app.Name).data →
        ¬ q.data <:+: (stringsToLower caseTable app.Exec).data →
        ∀ s, fuzzyScore q (stringsToLower caseTable app.Name) = (true, s) →
          scoreApplication caseTable app q = (1000 + s, "name-fuzzy")) ∧
      (¬ q.data <:+: (stringsToLower caseTable app.Name).data →
        ¬ q.data <:+: (stringsToLower caseTable app.Exec).data →
        (fuzzyScore q (stringsToLower caseTable app.Name)).1 = false →
        ∀ s, fuzzyScore q (stringsToLower caseTable app.Exec) = (true, s) →
          scoreApplication caseTable app q = (800 + s, "exec-fuzzy")) ∧
      (¬ q.data <:+: (stringsToLower caseTable app.Name).data →
        ¬ q.data <:+: (stringsToLower caseTable app.Exec).data →
        (fuzzyScore q (stringsToLower caseTable app.Name)).1 = false →
        (fuzzyScore q (stringsToLower caseTable app.Exec)).1 = false →
          scoreApplication caseTable app q = (0, "")) ∧
      (∀ s : String, q.data <:+: s.data ↔ ∃ i, firstOccurrence s q i) := by
  refine ⟨?_, ?_, ?_, ?_, ?_, ?_⟩
  · intro i hi
    have h := stringsIndex_of_firstOccurrence _ _ i hi
    simp only [scoreApplication, h]
    simp
    ring
  · intro hn j hj
    have h1 := stringsIndex_of_not_infix _ _ hn
    have h2 := stringsIndex_of_firstOccurrence _ _ j hj
    simp only [scoreApplication, h1, h2]
    simp
    ring
  · intro hn he s hs
    have h1 := stringsIndex_of_not_infix _ _ hn
    have h2 := stringsIndex_of_not_infix _ _ he
    simp [scoreApplication, h1, h2, hs]
  · intro hn he hf s hs
    have h1 := stringsIndex_of_not_infix _ _ hn
    have h2 := stringsIndex_of_not_infix _ _ he
    simp [scoreApplication, h1, h2, hs, hf]
  · intro hn he hf hg
    have h1 := stringsIndex_of_not_infix _ _ hn
    have h2 := stringsIndex_of_not_infix _ _ he
    simp [scoreApplication, h1, h2, hf, hg]
  · intro s
    exact ⟨fun h => occursFirstAt_of_infix _ _ h,
      fun ⟨i, h⟩ => infix_of_occursFirstAt _ _ i h⟩

theorem scoreApplication_tiers_witness :
    scoreApplication id ⟨"Firefox", "firefox", "", "", "a.desktop"⟩ "fire" =
      (2000 - 20 * ((0 : Nat) : Int) - (goLen (stringsToLower id "Firefox") : Int),
        "name-substring") :=
  (scoreApplication_tiers id ⟨"Firefox", "firefox", "", "", "a.desktop"⟩ "fire"
    (by decide)).1 0 ⟨[], "fox".data, by decide, rfl, fun _ _ _ => Nat.zero_le _⟩

/-- C4. On query "ac" and candidate "abc" the code returns 32 where the specification's
subsequence score is 22: the first query character, matched at position 0, receives the
10-point adjacency bonus although it has no previous match (`lastMatchIndex` starts at
`-1`, which equals `ci - 1` at `ci = 0`). In general the code returns the specification's
score when the first match is not at position 0, and 10 more when it is. -/
theorem fuzzyScore_first_match_adjacency_bonus :
    (fuzzyScore "ac" "abc" = (true, 32) ∧ subsequenceScoreSpec "ac" "abc" = some 22) ∧
      scoreApplication id ⟨"Abc", "abc-viewer", "", "", "abc.desktop"⟩ "ac"
        = (1032, "name-fuzzy") ∧
      (fuzzyScore "a" "ba" = (true, 16) ∧ subsequenceScoreSpec "a" "ba" = some 16) ∧
      (∀ (q c : String) (ps : List Nat), q ≠ "" → leftmostMatch q.data c.data 0 = some ps →
        ∃ s, subsequenceScoreSpec q c = some s ∧
          fuzzyScore q c = (true, s + (if ps.head? = some 0 then 10 else 0))) ∧
      (∀ q c : String, q ≠ "" → leftmostMatch q.data c.data 0 = none →
        subsequenceScoreSpec q c = none ∧ fuzzyScore q c = (false, 0)) := by
  refine ⟨by decide, by decide, by decide,
    fun q c ps hq hm => fuzzyScore_eq_spec_plus q c ps hq hm, ?_⟩
  intro q c hq hm
  refine ⟨by simp only [subsequenceScoreSpec, hm, Option.map_none'], ?_⟩
  apply fuzzyScore_of_no_match
  rw [Bool.eq_false_iff, Ne, fuzzyScore_matches_iff q c hq, ← leftmostMatch_isSome_iff _ _ 0, hm]
  simp

/-- C5. For a non-empty query and a non-empty candidate, `fuzzyScore` reports a match exactly
when the query's characters are an in-order subsequence of the candidate's; "fm" matches
"file manager" and not "firefox", and on the catalog [Firefox/firefox, File Manager/files]
the query "fm" returns exactly [File Manager]. -/
theorem fuzzyScore_matches_iff_subsequence (caseTable : Char → Char)
    (query candidate : String) (a b : Application)
    (hq : query ≠ "") (_hc : candidate ≠ "")
    (ha : a.Name = "Firefox" ∧ a.Exec = "firefox")
    (hb : b.Name = "File Manager" ∧ b.Exec = "files") :
    ((fuzzyScore query candidate).1 = true ↔ query.data.Sublist candidate.data) ∧
      (fuzzyScore "fm" "file manager").1 = true ∧
      (fuzzyScore "fm" "firefox").1 = false ∧
      Filter caseTable [a, b] "fm" = [b] :=
  ⟨fuzzyScore_matches_iff query candidate hq, by decide, by decide,
    Filter_scenario_fm caseTable a b ha hb⟩

theorem fuzzyScore_matches_iff_subsequence_witness :
    ((fuzzyScore "fm" "file manager").1 = true ↔
        "fm".data.Sublist "file manager".data) ∧
      (fuzzyScore "fm" "file manager").1 = true ∧
      (fuzzyScore "fm" "firefox").1 = false ∧
      Filter id [⟨"Firefox", "firefox", "firefox", "", "/usr/share/applications/a.desktop"⟩,
          ⟨"File Manager", "files", "", "", "/usr/share/applications/b.desktop"⟩] "fm" =
        [⟨"File Manager", "files", "", "", "/usr/share/applications/b.desktop"⟩] :=
  fuzzyScore_matches_iff_subsequence id "fm" "file manager" _ _ (by decide) (by decide)
    ⟨rfl, rfl⟩ ⟨rfl, rfl⟩

/-- C6. The result of `Filter` is in the final ordering: of two consecutive result entries
`a` then `b`, either `a` scores higher, or the scores are equal and the lowercased name of
`a` is smaller, or scores and lowercased names are equal and `a.Name <= b.Name`. -/
theorem Filter_ordered (caseTable : Char → Char) (apps : List Application)
    (query : String) :
    List.Chain' (resultOrder caseTable (stringsToLower caseTable (stringsTrimSpace query)))
      (Filter caseTable apps query) := by
  exact (Filter_pairwise caseTable apps query).chain'

theorem Filter_ordered_witness :
    Filter id [⟨"File Manager", "files", "", "", "b.desktop"⟩,
        ⟨"Firefox", "firefox", "", "", "a.desktop"⟩] "F" =
        [⟨"Firefox", "firefox", "", "", "a.desktop"⟩,
          ⟨"File Manager", "files", "", "", "b.desktop"⟩] ∧
      List.Chain' (resultOrder id (stringsToLower id (stringsTrimSpace "F")))
        (Filter id [⟨"File Manager", "files", "", "", "b.desktop"⟩,
          ⟨"Firefox", "firefox", "", "", "a.desktop"⟩] "F") :=
  ⟨by decide, Filter_ordered id _ "F"⟩

/-- C7. The comparison that orders the search results is a strict total order over the keys
(score, lowercased name, exact name): irreflexive, asymmetric, transitive, and of two scored
entries whose score or name differ exactly one is ordered before the other. -/
theorem scoredLess_strict_total_order (caseTable : Char → Char) :
    (∀ a, scoredLess caseTable a a = false) ∧
      (∀ a b, scoredLess caseTable a b = true → scoredLess caseTable b a = false) ∧
      (∀ a b c, scoredLess caseTable a b = true → scoredLess caseTable b c = true →
        scoredLess caseTable a c = true) ∧
      (∀ a b, a.score ≠ b.score ∨ a.app.Name ≠ b.app.Name →
        (scoredLess caseTable a b = true ∧ scoredLess caseTable b a = false) ∨
          (scoredLess caseTable b a = true ∧ scoredLess caseTable a b = false)) := by
  have hasymm : ∀ a b, scoredLess caseTable a b = true → scoredLess caseTable b a = false := by
    intro a b hab
    rw [scoredLess_iff_orderKey_lt] at hab
    rw [Bool.eq_false_iff, Ne, scoredLess_iff_orderKey_lt]
    exact lt_asymm hab
  refine ⟨?_, hasymm, ?_, ?_⟩
  · intro a
    rw [Bool.eq_false_iff, Ne, scoredLess_iff_orderKey_lt]
    exact lt_irrefl _
  · intro a b c hab hbc
    rw [scoredLess_iff_orderKey_lt] at *
    exact lt_trans hab hbc
  · intro a b hne
    have hk : orderKey caseTable a ≠ orderKey caseTable b := by
      rw [Ne, orderKey_eq_iff]
      intro h
      rcases hne with h1 | h2
      · exact h1 h.1
      · exact h2 h.2
    rcases lt_or_gt_of_ne hk with hlt | hgt
    · have h1 := (scoredLess_iff_orderKey_lt caseTable a b).mpr hlt
      exact Or.inl ⟨h1, hasymm a b h1⟩
    · have h1 := (scoredLess_iff_orderKey_lt caseTable b a).mpr hgt
      exact Or.inr ⟨h1, hasymm b a h1⟩

theorem scoredLess_strict_total_order_witness :
    scoredLess id ⟨⟨"Firefox", "firefox", "", "", ""⟩, 1993, "name-substring"⟩
        ⟨⟨"File Manager", "files", "", "", ""⟩, 1988, "name-substring"⟩ = true ∧
      scoredLess id ⟨⟨"File Manager", "files", "", "", ""⟩, 1988, "name-substring"⟩
        ⟨⟨"Firefox", "firefox", "", "", ""⟩, 1993, "name-substring"⟩ = false :=
  ((scoredLess_strict_total_order id).2.2.2 _ _ (Or.inl (by decide))).resolve_right
    (by decide)

/-- C8. For a non-blank query the result of `Filter` is, as a multiset, the catalog entries
with a strictly positive score: no entry of score 0 appears, and on the catalog
[Firefox/firefox, File Manager/files] the query "fire" returns exactly [Firefox]. -/
theorem Filter_perm_positive (caseTable : Char → Char) (apps : List Application)
    (query : String) (a b : Application)
    (hq : ∃ c ∈ query.data, unicodeIsSpace c = false)
    (ha : a.Name = "Firefox" ∧ a.Exec = "firefox")
    (hb : b.Name = "File Manager" ∧ b.Exec = "files") :
    (Filter caseTable apps query).Perm
        (apps.filter (fun x => decide (0 <
          (scoreApplication caseTable x
            (stringsToLower caseTable (stringsTrimSpace query))).1))) ∧
      (∀ x ∈ Filter caseTable apps query,
        (scoreApplication caseTable x
          (stringsToLower caseTable (stringsTrimSpace query))).1 ≠ 0) ∧
      Filter caseTable [a, b] "fire" = [a] := by
  have hperm : (Filter caseTable apps query).Perm
      (apps.filter (fun x => decide (0 <
        (scoreApplication caseTable x
          (stringsToLower caseTable (stringsTrimSpace query))).1))) := by
    rw [Filter_eq_map caseTable apps query (stringsTrimSpace_ne_empty query hq)]
    exact scoreApplications_apps_perm caseTable apps _
  refine ⟨hperm, ?_, Filter_scenario_fire caseTable a b ha hb⟩
  intro x hx
  have hx2 := (List.Perm.mem_iff hperm).mp hx
  rw [List.mem_filter] at hx2
  have hpos := of_decide_eq_true hx2.2
  omega

theorem Filter_perm_positive_witness :
    (Filter id [⟨"Firefox", "firefox", "", "", "a.desktop"⟩,
        ⟨"File Manager", "files", "", "", "b.desktop"⟩,
        ⟨"Fire Alarm", "alarm", "", "", "c.desktop"⟩] " Fire ").Perm
      ([⟨"Firefox", "firefox", "", "", "a.desktop"⟩,
        ⟨"File Manager", "files", "", "", "b.desktop"⟩,
        ⟨"Fire Alarm", "alarm", "", "", "c.desktop"⟩].filter (fun x => decide (0 <
          (scoreApplication id x (stringsToLower id (stringsTrimSpace " Fire "))).1))) :=
  (Filter_perm_positive id _ " Fire " ⟨"Firefox", "firefox", "", "", "a.desktop"⟩
    ⟨"File Manager", "files", "", "", "b.desktop"⟩ ⟨'F', by decide, by decide⟩
    ⟨rfl, rfl⟩ ⟨rfl, rfl⟩).1

end search

namespace applications

/-! ### The claims about the descriptor parser -/

/-- C10. Exec sanitization is idempotent: `sanitiseExec (sanitiseExec s) = sanitiseExec s`
for every string `s`. -/
theorem sanitiseExec_idempotent (s : String) :
    sanitiseExec (sanitiseExec s) = sanitiseExec s := by
  have htok : ∀ t ∈ (stringsFields s).filter (fun field => !stringsContains field "%"),
      t.data ≠ [] ∧ ∀ c ∈ t.data, unicodeIsSpace c = false := by
    intro t ht
    exact fieldsLoop_tokens s.data [] (by simp) t (List.mem_of_mem_filter ht)
  have hfields := stringsFields_stringsJoin _ htok
  unfold sanitiseExec
  simp only [hfields, List.filter_filter, Bool.and_self]

/-! ### The icon key -/

/-- A character map that keeps dots and separators where they are, and that lowercasing
absorbs, does not change the icon key. -/
theorem iconKey_map (caseTable : Char → Char) (f : Char → Char) (s : String)
    (h1 : ∀ c ∈ s.data, (f c = '.' ↔ c = '.') ∧ (f c = '/' ↔ c = '/'))
    (h2 : ∀ c ∈ s.data, unicodeToLower caseTable (f c) = unicodeToLower caseTable c) :
    iconKey caseTable (String.mk (s.data.map f)) = iconKey caseTable s := by
  by_cases hs : s = ""
  · subst hs
    rfl
  · have hs2 : String.mk (s.data.map f) ≠ "" := by
      intro he
      apply hs
      have := congrArg String.data he
      simp only [List.map_eq_nil_iff] at this
      cases s
      simp_all
    have hext := filepathExt_map f s h1
    have hlow : stringsToLower caseTable (filepathExt (String.mk (s.data.map f))) =
        stringsToLower caseTable (filepathExt s) := by
      rw [hext]
      exact stringsToLower_map caseTable f _
        (fun c hc => h2 c ((filepathExt_suffix s).mem hc))
    have htrim : stringsToLower caseTable
          (stringsTrimSuffix (String.mk (s.data.map f))
            (filepathExt (String.mk (s.data.map f)))) =
        stringsToLower caseTable (stringsTrimSuffix s (filepathExt s)) := by
      rw [stringsTrimSuffix_ext, stringsTrimSuffix_ext s, hext]
      simp only [List.length_map, ← List.map_take]
      exact stringsToLower_map caseTable f _
        (fun c hc => h2 c (List.mem_of_mem_take hc))
    have hplain : stringsToLower caseTable (String.mk (s.data.map f)) =
        stringsToLower caseTable s :=
      stringsToLower_map caseTable f s.data h2
    unfold iconKey
    simp only [hs, hs2, if_false, hlow]
    split
    · exact htrim
    · exact hplain

theorem iconKey_eq_lowered (caseTable : Char → Char) (s : String) :
    ∃ b, iconKey caseTable s = stringsToLower caseTable b := by
  unfold iconKey
  by_cases hs : s = ""
  · exact ⟨"", by simp only [hs, if_true]; rfl⟩
  · simp only [hs, if_false]
    exact ⟨_, rfl⟩

/-! ### The icon index -/

theorem visitIconFile_apply (caseTable : Char → Char) (iconIndex : String → Option String)
    (v : walkVisit) (k : String) :
    visitIconFile caseTable iconIndex v k =
      if isCandidate caseTable k v = true then
        (match iconIndex k with
          | none => some v.path
          | some existing =>
            if betterIconCandidate caseTable v.path existing = true then some v.path
            else some existing)
      else iconIndex k := by
  unfold visitIconFile isCandidate
  by_cases herr : v.err = true
  · simp [herr]
  · by_cases hdir : v.isDir = true
    · simp [herr, hdir]
    · by_cases hext : stringsToLower caseTable (filepathExt v.name) ≠ ".png" ∧
          stringsToLower caseTable (filepathExt v.name) ≠ ".svg" ∧
          stringsToLower caseTable (filepathExt v.name) ≠ ".xpm"
      · simp [herr, hdir, hext]
      · have hext2 : (stringsToLower caseTable (filepathExt v.name) == ".png"
            || stringsToLower caseTable (filepathExt v.name) == ".svg"
            || stringsToLower caseTable (filepathExt v.name) == ".xpm") = true := by
          simp only [Bool.or_eq_true, beq_iff_eq]
          by_contra hn
          simp only [not_or] at hn
          exact hext ⟨hn.1.1, hn.1.2, hn.2⟩
        simp only [herr, hdir, hext, hext2, if_false, Bool.not_false, Bool.and_self,
          Bool.true_and, Bool.and_eq_true, beq_iff_eq, Bool.not_eq_true', beq_eq_false_iff_ne,
          ne_eq, Bool.false_eq_true]
        by_cases hkey : iconKey caseTable v.name = ""
        · have : ¬ ("" = k ∧ ¬ k = "") := by
            rintro ⟨h1, h2⟩
            exact h2 h1.symm
          simp only [hkey, if_true, this, if_false]
        · simp only [hkey, if_false]
          by_cases hk : iconKey caseTable v.name = k
          · have hk0 : ¬ k = "" := fun h => hkey (hk.trans h)
            subst hk
            simp only [true_and, hk0, not_false_eq_true, if_true]
            cases hidx : iconIndex (iconKey caseTable v.name) with
            | none => simp
            | some existing =>
              by_cases hb : betterIconCandidate caseTable v.path existing = true
              · simp [hb]
              · simp [hb, hidx]
          · have hk2 : ¬ k = iconKey caseTable v.name := fun h => hk h.symm
            simp only [hk, false_and, if_false]
            cases hidx : iconIndex (iconKey caseTable v.name) with
            | none => simp [hk2]
            | some existing =>
              by_cases hb : betterIconCandidate caseTable v.path existing = true
              · simp [hb, hk2]
              · simp [hb]

theorem loadIconIndex_append (caseTable : Char → Char) (w : List walkVisit) (v : walkVisit) :
    loadIconIndex caseTable (w ++ [v]) =
      visitIconFile caseTable (loadIconIndex caseTable w) v := by
  simp [loadIconIndex, List.foldl_append]

theorem candidatesFor_append (caseTable : Char → Char) (w : List walkVisit) (v : walkVisit)
    (k : String) :
    candidatesFor caseTable (w ++ [v]) k =
      candidatesFor caseTable w k ++ (if isCandidate caseTable k v = true then [v.path] else [])
    := by
  unfold candidatesFor
  by_cases h : isCandidate caseTable k v = true
  · simp [List.filter_append, h]
  · simp [List.filter_append, h]

theorem betterIconCandidate_iff (caseTable : Char → Char) (p q : String) :
    betterIconCandidate caseTable p q = true ↔
      iconScore caseTable q < iconScore caseTable p ∨
        (iconScore caseTable p = iconScore caseTable q ∧ goLen p < goLen q) := by
  unfold betterIconCandidate
  by_cases h : iconScore caseTable p = iconScore caseTable q
  · simp [h]
  · simp only [h, if_false, decide_eq_true_eq, false_and, or_false]

/-- The stored path is a candidate that no candidate beats: none scores higher, and none of
equal score is shorter. -/
theorem loadIconIndex_best (caseTable : Char → Char) (walk : List walkVisit) (k : String) :
    (loadIconIndex caseTable walk k = none ↔ candidatesFor caseTable walk k = []) ∧
      ∀ p, loadIconIndex caseTable walk k = some p →
        p ∈ candidatesFor caseTable walk k ∧
          ∀ c ∈ candidatesFor caseTable walk k,
            iconScore caseTable c ≤ iconScore caseTable p ∧
              (iconScore caseTable c = iconScore caseTable p → goLen p ≤ goLen c) := by
  induction walk using List.reverseRecOn with
  | nil =>
    refine ⟨⟨fun _ => rfl, fun _ => rfl⟩, ?_⟩
    intro p hp
    simp [loadIconIndex] at hp
  | append_singleton w v ih =>
    rw [loadIconIndex_append, candidatesFor_append, visitIconFile_apply]
    by_cases hc : isCandidate caseTable k v = true
    · simp only [hc, if_true]
      cases hidx : loadIconIndex caseTable w k with
      | none =>
        have hnil := ih.1.mp hidx
        simp only [hnil, List.nil_append]
        refine ⟨⟨fun h => by simp at h, fun h => by simp at h⟩, ?_⟩
        intro p hp
        simp only [Option.some.injEq] at hp
        subst hp
        simp
      | some old =>
        have hold := ih.2 old hidx
        by_cases hb : betterIconCandidate caseTable v.path old = true
        · simp only [hb, if_true]
          refine ⟨⟨fun h => by simp at h, fun h => by simp at h⟩, ?_⟩
          intro p hp
          simp only [Option.some.injEq] at hp
          subst hp
          refine ⟨by simp, ?_⟩
          intro c hcmem
          rw [betterIconCandidate_iff] at hb
          rcases List.mem_append.mp hcmem with h1 | h1
          · have := hold.2 c h1
            omega
          · simp only [List.mem_singleton] at h1
            subst h1
            exact ⟨le_refl _, fun _ => le_refl _⟩
        · simp only [hb]
          refine ⟨⟨fun h => by simp at h, fun h => by simp at h⟩, ?_⟩
          intro p hp
          simp only [Bool.false_eq_true, if_false, Option.some.injEq] at hp
          subst hp
          refine ⟨List.mem_append_left _ hold.1, ?_⟩
          intro c hcmem
          rw [betterIconCandidate_iff] at hb
          rcases List.mem_append.mp hcmem with h1 | h1
          · exact hold.2 c h1
          · simp only [List.mem_singleton] at h1
            subst h1
            omega
    · simp only [hc, Bool.false_eq_true, if_false, List.append_nil]
      exact ih

theorem loadIconIndex_pair (caseTable : Char → Char) (k : String) (x y : walkVisit)
    (short : walkVisit) (hxy : (x = short ∧ goLen short.path < goLen y.path) ∨
      (y = short ∧ goLen short.path < goLen x.path))
    (hx : isCandidate caseTable k x = true) (hy : isCandidate caseTable k y = true)
    (hscore : iconScore caseTable x.path = iconScore caseTable y.path) :
    loadIconIndex caseTable [x, y] k = some short.path := by
  have hbest := loadIconIndex_best caseTable [x, y] k
  have hc : candidatesFor caseTable [x, y] k = [x.path, y.path] := by
    simp [candidatesFor, List.filter_cons, hx, hy]
  rw [hc] at hbest
  cases hl : loadIconIndex caseTable [x, y] k with
  | none =>
    have := hbest.1.mp hl
    simp at this
  | some p =>
    obtain ⟨hmem, hdom⟩ := hbest.2 p hl
    have h1 := hdom x.path (by simp)
    have h2 := hdom y.path (by simp)
    simp only [List.mem_cons, List.mem_singleton, List.not_mem_nil, or_false] at hmem
    rcases hxy with ⟨hs, hlt⟩ | ⟨hs, hlt⟩
    · subst hs
      rcases hmem with hp | hp
      · rw [hp]
      · subst hp
        have := h1.2 hscore
        omega
    · subst hs
      rcases hmem with hp | hp
      · subst hp
        have := h2.2 hscore.symm
        omega
      · rw [hp]

/-! ### The icon resolver -/

theorem findIconWithExtensions_eq (fileExists : String → Bool) (base : String) :
    findIconWithExtensions fileExists base =
      ((iconCandidates base).find? fileExists).getD "" := by
  unfold findIconWithExtensions iconCandidates
  by_cases h0 : fileExists base = true
  · simp [h0]
  · by_cases he : filepathExt base = ""
    · simp only [h0, he, if_true, List.find?]
      cases h1 : fileExists (base ++ ".png") <;> cases h2 : fileExists (base ++ ".svg") <;>
        cases h3 : fileExists (base ++ ".xpm") <;> simp_all
    · simp [h0, he]

theorem iconCandidates_ne_empty (base : String) (hb : base ≠ "") :
    ∀ p ∈ iconCandidates base, p ≠ "" := by
  intro p hp
  unfold iconCandidates at hp
  rcases List.mem_cons.mp hp with rfl | hp
  · exact hb
  · split at hp
    · simp only [List.mem_cons, List.mem_singleton, List.not_mem_nil, or_false] at hp
      rcases hp with rfl | rfl | rfl <;> exact string_append_ne_empty _ _ hb
    · exact absurd hp (List.not_mem_nil _)

theorem filepathJoin_props (a b : String) (hb : b ≠ "") :
    filepathJoin a b ≠ "" ∧ filepathClean (filepathJoin a b) = filepathJoin a b := by
  unfold filepathJoin
  by_cases ha : a ≠ ""
  · rw [if_pos ha]
    exact ⟨filepathClean_ne_empty _, filepathClean_idem _⟩
  · rw [if_neg ha, if_pos hb]
    exact ⟨filepathClean_ne_empty _, filepathClean_idem _⟩

theorem loadIconIndex_empty_key (caseTable : Char → Char) (walk : List walkVisit) :
    loadIconIndex caseTable walk "" = none := by
  rw [(loadIconIndex_best caseTable walk "").1]
  simp [candidatesFor, isCandidate]

theorem resolveIcon_relative_eq (caseTable : Char → Char) (fileExists : String → Bool)
    (iconIndex : String → Option String) (iconValue desktopPath : String)
    (hidx : iconIndex "" = none) (hne : iconValue ≠ "")
    (hrel : filepathIsAbs iconValue = false) :
    resolveIcon caseTable fileExists iconIndex iconValue desktopPath =
      ((iconCandidates (filepathJoin (filepathDir desktopPath) iconValue)).find?
          fileExists).getD
        ((iconIndex (iconKey caseTable iconValue)).getD "") := by
  obtain ⟨hj, hclean⟩ := filepathJoin_props (filepathDir desktopPath) iconValue hne
  unfold resolveIcon
  rw [if_neg hne, hrel]
  simp only [Bool.false_eq_true, if_false, hclean, findIconWithExtensions_eq]
  cases hf : (iconCandidates (filepathJoin (filepathDir desktopPath) iconValue)).find?
      fileExists with
  | some p =>
    have hp : p ≠ "" := iconCandidates_ne_empty _ hj p (List.mem_of_find?_eq_some hf)
    simp [hp]
  | none =>
    simp only [Option.getD_none, ne_eq, not_true_eq_false, if_false, ite_self]
    by_cases hk : iconKey caseTable iconValue = ""
    · simp [hk, hidx]
    · simp only [hk, if_false]
      cases iconIndex (iconKey caseTable iconValue) <;> rfl

theorem sanitiseExec_tokens (s : String) :
    ∀ t ∈ (stringsFields s).filter (fun field => !stringsContains field "%"),
      t.data ≠ [] ∧ (∀ c ∈ t.data, unicodeIsSpace c = false) ∧ '%' ∉ t.data := by
  intro t ht
  have h1 := fieldsLoop_tokens s.data [] (by simp) t (List.mem_of_mem_filter ht)
  have h2 := (List.mem_filter.mp ht).2
  refine ⟨h1.1, h1.2, ?_⟩
  intro hp
  have := (stringsContains_percent_iff t).mpr hp
  simp [this] at h2

/-- C11. `sanitiseExec s` is the whitespace-separated tokens of `s` that contain no `%`, in
their order, joined by one space; so the result contains no `%`, neither starts nor ends
with white space, and is empty exactly when every token of `s` contains `%`. -/
theorem sanitiseExec_spec (s : String) :
    sanitiseExec s =
        " ".intercalate ((whitespaceTokens s).filter (fun t => decide ('%' ∉ t.data))) ∧
      '%' ∉ (sanitiseExec s).data ∧
      (∀ c, (sanitiseExec s).data.head? = some c → unicodeIsSpace c = false) ∧
      (∀ c, (sanitiseExec s).data.getLast? = some c → unicodeIsSpace c = false) ∧
      (sanitiseExec s = "" ↔ ∀ t ∈ whitespaceTokens s, '%' ∈ t.data) := by
  have htok := sanitiseExec_tokens s
  have hfilter : (stringsFields s).filter (fun field => !stringsContains field "%") =
      (whitespaceTokens s).filter (fun t => decide ('%' ∉ t.data)) := by
    rw [stringsFields_eq_whitespaceTokens]
    apply List.filter_congr
    intro t _
    by_cases hp : '%' ∈ t.data
    · simp [hp, (stringsContains_percent_iff t).mpr hp]
    · have : stringsContains t "%" = false := by
        rw [Bool.eq_false_iff, Ne, stringsContains_percent_iff]
        exact hp
      simp [hp, this]
  have hdef : sanitiseExec s =
      stringsJoin ((stringsFields s).filter (fun field => !stringsContains field "%")) " " :=
    rfl
  refine ⟨?_, ?_, ?_, ?_, ?_⟩
  · rw [hdef, stringsJoin_eq_intercalate, hfilter]
  · intro hp
    rw [hdef] at hp
    rcases stringsJoin_mem _ _ hp with h | ⟨t, ht, hc⟩
    · exact absurd h (by decide)
    · exact (htok t ht).2.2 hc
  · intro c hc
    rw [hdef] at hc
    cases hl : (stringsFields s).filter (fun field => !stringsContains field "%") with
    | nil =>
      rw [hl] at hc
      simp [stringsJoin] at hc
    | cons a rest =>
      have ha := htok a (by rw [hl]; exact List.mem_cons_self _ _)
      rw [hl, stringsJoin_head a rest ha.1] at hc
      exact ha.2.1 c (List.mem_of_mem_head? hc)
  · intro c hc
    rw [hdef] at hc
    by_cases hl : (stringsFields s).filter (fun field => !stringsContains field "%") = []
    · rw [hl] at hc
      simp [stringsJoin] at hc
    · obtain ⟨t, ht, hlast, -⟩ := stringsJoin_getLast _ hl (fun t ht => (htok t ht).1)
      rw [hlast] at hc
      exact (htok t ht).2.1 c (List.mem_of_mem_getLast? hc)
  · rw [hdef]
    constructor
    · intro he t ht
      by_contra hp
      have hmem : t ∈ (stringsFields s).filter (fun field => !stringsContains field "%") := by
        rw [hfilter]
        exact List.mem_filter.mpr ⟨ht, by simpa using hp⟩
      cases hl : (stringsFields s).filter (fun field => !stringsContains field "%") with
      | nil =>
        rw [hl] at hmem
        exact absurd hmem (List.not_mem_nil _)
      | cons a rest =>
        have ha := htok a (by rw [hl]; exact List.mem_cons_self _ _)
        have hh := stringsJoin_head a rest ha.1
        rw [← hl, he] at hh
        cases hd : a.data with
        | nil => exact ha.1 hd
        | cons x xs =>
          rw [hd] at hh
          simp at hh
    · intro hall
      have hnil : (stringsFields s).filter (fun field => !stringsContains field "%") = [] := by
        rw [hfilter, List.filter_eq_nil_iff]
        intro t ht
        simpa using hall t ht
      rw [hnil]
      rfl

theorem sanitiseExec_spec_witness :
    sanitiseExec "  env  FOO=1 firefox %u\t--new-window  %F " = "env FOO=1 firefox --new-window" ∧
      '%' ∉ (sanitiseExec "  env  FOO=1 firefox %u\t--new-window  %F ").data ∧
      sanitiseExec " %u  %F " = "" :=
  ⟨by decide, (sanitiseExec_spec _).2.1, by decide⟩

/-- C12, as stated, fails: the key of "foo.png.png" is "foo.png", and the key of that key
is "foo"; `iconKey` strips one extension only. -/
theorem iconKey_idempotent_counterexample :
    iconKey id "foo.png.png" = "foo.png" ∧ iconKey id (iconKey id "foo.png.png") = "foo" ∧
      iconKey id (iconKey id "foo.png.png") ≠ iconKey id "foo.png.png" := by
  decide

/-- C12, amended. `iconKey (iconKey s) = iconKey s` for every name `s` whose key does not
itself end in `.png`, `.svg` or `.xpm`, for a lower-case mapping that is idempotent. -/
theorem iconKey_idempotent_of_plain_key (caseTable : Char → Char) (s : String)
    (hidem : ∀ c, unicodeToLower caseTable (unicodeToLower caseTable c)
      = unicodeToLower caseTable c)
    (hplain : ¬ (stringsToLower caseTable (filepathExt (iconKey caseTable s)) = ".png"
      ∨ stringsToLower caseTable (filepathExt (iconKey caseTable s)) = ".svg"
      ∨ stringsToLower caseTable (filepathExt (iconKey caseTable s)) = ".xpm")) :
    iconKey caseTable (iconKey caseTable s) = iconKey caseTable s := by
  obtain ⟨b, hb⟩ := iconKey_eq_lowered caseTable s
  generalize iconKey caseTable s = k at hplain hb ⊢
  unfold iconKey
  by_cases hk : k = ""
  · simp only [hk, if_true]
  · simp only [hk, if_false, hplain]
    rw [hb]
    simp only [stringsToLower, List.map_map]
    congr 1
    apply List.map_congr_left
    intro c _
    exact hidem c

theorem iconKey_idempotent_of_plain_key_witness :
    iconKey id (iconKey id "Foo.PNG") = iconKey id "Foo.PNG" :=
  iconKey_idempotent_of_plain_key id "Foo.PNG" (fun c => (unicodeCase_id c).1) (by decide)

/-- C13, as stated, fails on upper-casing: the upper case of the dotless i (U+0131) is `I`,
whose key is "i", while the key of the dotless i is the dotless i itself. -/
theorem iconKey_uppercase_counterexample :
    stringsToUpper dotlessUpperTable (String.mk [Char.ofNat 0x131]) = "I" ∧
      iconKey dotlessLowerTable (stringsToUpper dotlessUpperTable (String.mk [Char.ofNat 0x131]))
        = "i" ∧
      iconKey dotlessLowerTable (String.mk [Char.ofNat 0x131]) = String.mk [Char.ofNat 0x131] ∧
      iconKey dotlessLowerTable (stringsToUpper dotlessUpperTable (String.mk [Char.ofNat 0x131]))
        ≠ iconKey dotlessLowerTable (String.mk [Char.ofNat 0x131]) := by
  decide

/-- C13, amended. For a lower-case mapping that is idempotent and sends no other character
to a dot or a separator, `iconKey s = iconKey (lowercase s)` for every name `s`, and
`iconKey s = iconKey (uppercase s)` for every name whose characters `c` all satisfy
`lower (upper c) = lower c`; in particular `iconKey "Foo.PNG" = iconKey "foo" = "foo"`. -/
theorem iconKey_case_insensitive (lowerTable upperTable : Char → Char) (s : String)
    (hidem : ∀ c ∈ s.data, unicodeToLower lowerTable (unicodeToLower lowerTable c)
      = unicodeToLower lowerTable c)
    (hsep : ∀ c ∈ s.data, (unicodeToLower lowerTable c = '.' → c = '.') ∧
      (unicodeToLower lowerTable c = '/' → c = '/')) :
    iconKey lowerTable (stringsToLower lowerTable s) = iconKey lowerTable s ∧
      ((∀ c ∈ s.data, unicodeToLower lowerTable (unicodeToUpper upperTable c)
          = unicodeToLower lowerTable c) →
        iconKey lowerTable (stringsToUpper upperTable s) = iconKey lowerTable s) ∧
      iconKey lowerTable "Foo.PNG" = "foo" ∧ iconKey lowerTable "foo" = "foo" := by
  have hdot : unicodeToLower lowerTable '.' = '.' := rfl
  have hslash : unicodeToLower lowerTable '/' = '/' := rfl
  refine ⟨?_, ?_, rfl, rfl⟩
  · apply iconKey_map lowerTable (unicodeToLower lowerTable) s
    · intro c hc
      exact ⟨⟨(hsep c hc).1, fun h => by rw [h]; exact hdot⟩,
        ⟨(hsep c hc).2, fun h => by rw [h]; exact hslash⟩⟩
    · exact hidem
  · intro hround
    apply iconKey_map lowerTable (unicodeToUpper upperTable) s
    · intro c hc
      have hr := hround c hc
      refine ⟨⟨fun h => ?_, fun h => by rw [h]; rfl⟩, ⟨fun h => ?_, fun h => by rw [h]; rfl⟩⟩
      · rw [h, hdot] at hr
        exact (hsep c hc).1 hr.symm
      · rw [h, hslash] at hr
        exact (hsep c hc).2 hr.symm
    · exact hround

theorem iconKey_case_insensitive_witness :
    iconKey id (stringsToLower id "Foo.PNG") = iconKey id "Foo.PNG" ∧
      iconKey id (stringsToUpper id "Foo.PNG") = iconKey id "Foo.PNG" :=
  ⟨(iconKey_case_insensitive id id "Foo.PNG" (fun c _ => (unicodeCase_id c).1)
      (fun c _ => ⟨(unicodeCase_id c).2.1, (unicodeCase_id c).2.2.1⟩)).1,
    (iconKey_case_insensitive id id "Foo.PNG" (fun c _ => (unicodeCase_id c).1)
      (fun c _ => ⟨(unicodeCase_id c).2.1, (unicodeCase_id c).2.2.1⟩)).2.1
      (fun c _ => (unicodeCase_id c).2.2.2)⟩

/-- C14. Tie-break determinism of the icon index. Of two candidates `a` and `b` for one key
with equal `iconScore`, `a` shorter, the index holds `a` whichever is visited first. After
any walk the path stored for a key is one of its candidates, none of which scores higher
and none of which, at equal score, is shorter; so every order of the visits stores a path
of the same score and the same length. -/
theorem loadIconIndex_tie_break (caseTable : Char → Char) (walk walk' : List walkVisit)
    (k : String) (a b : walkVisit) (hperm : walk'.Perm walk)
    (ha : isCandidate caseTable k a = true) (hb : isCandidate caseTable k b = true)
    (hscore : iconScore caseTable a.path = iconScore caseTable b.path)
    (hlen : goLen a.path < goLen b.path) :
    (loadIconIndex caseTable [a, b] k = some a.path ∧
        loadIconIndex caseTable [b, a] k = some a.path) ∧
      (loadIconIndex caseTable walk k = none ↔ candidatesFor caseTable walk k = []) ∧
      (∀ p, loadIconIndex caseTable walk k = some p →
        p ∈ candidatesFor caseTable walk k ∧
          ∀ c ∈ candidatesFor caseTable walk k,
            iconScore caseTable c ≤ iconScore caseTable p ∧
              (iconScore caseTable c = iconScore caseTable p → goLen p ≤ goLen c)) ∧
      (loadIconIndex caseTable walk' k = none ↔ loadIconIndex caseTable walk k = none) ∧
      (∀ p p', loadIconIndex caseTable walk k = some p →
        loadIconIndex caseTable walk' k = some p' →
          iconScore caseTable p' = iconScore caseTable p ∧ goLen p' = goLen p) := by
  have h1 := loadIconIndex_best caseTable walk k
  have h2 := loadIconIndex_best caseTable walk' k
  have hcperm : (candidatesFor caseTable walk' k).Perm (candidatesFor caseTable walk k) :=
    List.Perm.map _ (List.Perm.filter _ hperm)
  refine ⟨⟨loadIconIndex_pair caseTable k a b a (Or.inl ⟨rfl, hlen⟩) ha hb hscore,
    loadIconIndex_pair caseTable k b a a (Or.inr ⟨rfl, hlen⟩) hb ha hscore.symm⟩,
    h1.1, h1.2, ?_, ?_⟩
  · rw [h1.1, h2.1]
    constructor
    · intro h
      rw [h] at hcperm
      exact List.Perm.eq_nil hcperm.symm
    · intro h
      rw [h] at hcperm
      exact List.Perm.eq_nil hcperm
  · intro p p' hp hp'
    obtain ⟨hm, hd⟩ := h1.2 p hp
    obtain ⟨hm', hd'⟩ := h2.2 p' hp'
    have e1 := hd p' ((List.Perm.mem_iff hcperm).mp hm')
    have e2 := hd' p ((List.Perm.mem_iff hcperm).mpr hm)
    omega

theorem loadIconIndex_tie_break_witness :
    loadIconIndex id
        [⟨"/usr/share/icons/a/apps/foo.png", "foo.png", false, false⟩,
          ⟨"/usr/share/icons/bb/apps/foo.png", "foo.png", false, false⟩] "foo"
        = some "/usr/share/icons/a/apps/foo.png" ∧
      loadIconIndex id
        [⟨"/usr/share/icons/bb/apps/foo.png", "foo.png", false, false⟩,
          ⟨"/usr/share/icons/a/apps/foo.png", "foo.png", false, false⟩] "foo"
        = some "/usr/share/icons/a/apps/foo.png" :=
  (loadIconIndex_tie_break id [] [] "foo"
    ⟨"/usr/share/icons/a/apps/foo.png", "foo.png", false, false⟩
    ⟨"/usr/share/icons/bb/apps/foo.png", "foo.png", false, false⟩
    (List.Perm.refl _) (by decide) (by decide) (by decide) (by decide)).1

/-- C15, as stated, fails: for "/opt/apps/icons/foo.png" the code scores 4, although the
directory that directly contains the file is named "icons"; the code looks for "/apps/"
anywhere in the path. -/
theorem iconScore_apps_anywhere_counterexample :
    iconScore id "/opt/apps/icons/foo.png" = 4 ∧
      parentDirName "/opt/apps/icons/foo.png" = "icons" ∧
      iconScoreSpec id "/opt/apps/icons/foo.png" = 2 := by
  decide

/-- C15, amended. `iconScore path` is 2 when the path contains "/apps/" (some directory on
the path, below a separator, is literally named "apps"), else 0, plus 2 when the lowercased
extension is ".png", 1 when it is ".svg", 0 otherwise; a file directly inside a directory
"apps" that follows a separator gets the 2 points. -/
theorem iconScore_eq (caseTable : Char → Char) (path : String) :
    iconScore caseTable path =
        (if "/apps/".data <:+: path.data then 2 else 0)
          + (if stringsToLower caseTable (filepathExt path) = ".png" then 2
            else if stringsToLower caseTable (filepathExt path) = ".svg" then 1 else 0) ∧
      (∀ dir file : String, path = dir ++ "/apps/" ++ file →
        iconScore caseTable path =
          2 + (if stringsToLower caseTable (filepathExt path) = ".png" then 2
            else if stringsToLower caseTable (filepathExt path) = ".svg" then 1 else 0)) := by
  have hfirst : iconScore caseTable path =
      (if "/apps/".data <:+: path.data then 2 else 0)
        + (if stringsToLower caseTable (filepathExt path) = ".png" then 2
          else if stringsToLower caseTable (filepathExt path) = ".svg" then 1 else 0) := by
    unfold iconScore
    by_cases hc : stringsContains path "/apps/" = true
    · have hi := (stringsContains_iff_occurs path "/apps/").mp hc
      simp only [hc, hi, if_true]
      split_ifs <;> first | contradiction | omega
    · have hi : ¬ "/apps/".data <:+: path.data :=
        fun h => hc ((stringsContains_iff_occurs path "/apps/").mpr h)
      simp only [hc, hi, if_false]
      split_ifs <;> first | contradiction | omega
  refine ⟨hfirst, ?_⟩
  intro dir file hpath
  have hi : "/apps/".data <:+: path.data :=
    ⟨dir.data, file.data, by rw [hpath]; simp⟩
  rw [hfirst, if_pos hi]

theorem iconScore_eq_witness :
    iconScore id "/usr/share/icons/hicolor/48x48/apps/firefox.PNG" = 2 + 2 :=
  (iconScore_eq id "/usr/share/icons/hicolor/48x48/apps/firefox.PNG").2
    "/usr/share/icons/hicolor/48x48" "firefox.PNG" (by decide)

/-- C16, as stated, fails at two identifiers. For the empty identifier the code returns the
empty string although "/a/b.png" exists beside the directory "/a/b"; and for ".." (whose
extension, as Go reads it, is ".") the code tries "/a.png", because it asks whether the
joined path "/a" has an extension, not whether the identifier has one. -/
theorem resolveIcon_relative_counterexample :
    (filepathIsAbs "" = false ∧
      resolveIcon id (fun p => p == "/a/b.png") (loadIconIndex id []) "" "/a/b/x.desktop" = "" ∧
      resolveIconSpec id (fun p => p == "/a/b.png") (loadIconIndex id []) "" "/a/b/x.desktop"
        = "/a/b.png") ∧
      (filepathIsAbs ".." = false ∧ filepathExt ".." = "." ∧
        filepathJoin (filepathDir "/a/b/x.desktop") ".." = "/a" ∧
        resolveIcon id (fun p => p == "/a.png") (loadIconIndex id []) ".." "/a/b/x.desktop"
          = "/a.png" ∧
        resolveIconSpec id (fun p => p == "/a.png") (loadIconIndex id []) ".." "/a/b/x.desktop"
          = "") := by
  decide

/-- C16, amended. For a non-empty, non-absolute identifier `resolveIcon` returns the first
existing file among the joined path `<descriptor dir>/id` and, only when that joined path has
no extension, the joined path with `.png`, `.svg`, `.xpm`, in that order; if none exists,
the index entry under `iconKey id`, or the empty string. For a plain file name (no
separator, not `.` or `..`) the joined path has the extension of the identifier, and the
result is the one the specification words. With `Icon=myapp`, no local file and an index
entry for `myapp`, the result is the indexed file. -/
theorem resolveIcon_relative (caseTable : Char → Char) (fileExists : String → Bool)
    (walk : List walkVisit) (iconValue desktopPath : String)
    (hne : iconValue ≠ "") (hrel : filepathIsAbs iconValue = false) :
    resolveIcon caseTable fileExists (loadIconIndex caseTable walk) iconValue desktopPath =
        ((iconCandidates (filepathJoin (filepathDir desktopPath) iconValue)).find?
            fileExists).getD
          ((loadIconIndex caseTable walk (iconKey caseTable iconValue)).getD "") ∧
      ('/' ∉ iconValue.data ∧ iconValue ≠ "." ∧ iconValue ≠ ".." →
        filepathExt (filepathJoin (filepathDir desktopPath) iconValue) = filepathExt iconValue ∧
          resolveIcon caseTable fileExists (loadIconIndex caseTable walk) iconValue desktopPath =
            resolveIconSpec caseTable fileExists (loadIconIndex caseTable walk) iconValue
              desktopPath) ∧
      (∀ indexed,
        (∀ c ∈ iconCandidates (filepathJoin (filepathDir desktopPath) "myapp"),
          fileExists c = false) →
        loadIconIndex caseTable walk "myapp" = some indexed →
        resolveIcon caseTable fileExists (loadIconIndex caseTable walk) "myapp" desktopPath
          = indexed) := by
  have hmain := resolveIcon_relative_eq caseTable fileExists (loadIconIndex caseTable walk)
    iconValue desktopPath (loadIconIndex_empty_key caseTable walk) hne hrel
  refine ⟨hmain, ?_, ?_⟩
  · intro hplain
    have hd : iconValue.data ≠ [] := by
      intro h
      apply hne
      cases iconValue
      simp_all
    have hext := filepathJoin_ext (filepathDir desktopPath) iconValue
      (filepathDir_ne_empty desktopPath) ⟨hd, hplain⟩
    refine ⟨hext, ?_⟩
    rw [hmain]
    unfold resolveIconSpec iconCandidates
    rw [hext]
  · intro indexed hnone hidx
    have h := resolveIcon_relative_eq caseTable fileExists (loadIconIndex caseTable walk)
      "myapp" desktopPath (loadIconIndex_empty_key caseTable walk) (by decide) (by decide)
    have hkey : iconKey caseTable "myapp" = "myapp" := rfl
    have hfind : (iconCandidates (filepathJoin (filepathDir desktopPath) "myapp")).find?
        fileExists = none := by
      rw [List.find?_eq_none]
      intro c hc
      simp [hnone c hc]
    rw [h, hfind, hkey, hidx]
    rfl

theorem resolveIcon_relative_witness :
    resolveIcon id (fun p => p == "/usr/share/icons/hicolor/48x48/apps/myapp.png")
        (loadIconIndex id
          [⟨"/usr/share/icons/hicolor/48x48/apps/myapp.png", "myapp.png", false, false⟩])
        "myapp" "/usr/share/applications/myapp.desktop"
      = "/usr/share/icons/hicolor/48x48/apps/myapp.png" :=
  (resolveIcon_relative id (fun p => p == "/usr/share/icons/hicolor/48x48/apps/myapp.png")
    [⟨"/usr/share/icons/hicolor/48x48/apps/myapp.png", "myapp.png", false, false⟩]
    "myapp" "/usr/share/applications/myapp.desktop" (by decide) (by decide)).2.2
    "/usr/share/icons/hicolor/48x48/apps/myapp.png" (by decide) (by decide)

/-- C17. For an identifier that is an absolute path `resolveIcon` returns the identifier when
it names an existing file that is not a directory and the empty string otherwise, whatever
the descriptor's directory and the icon index hold; for the empty identifier it returns the
empty string, with no index lookup. -/
theorem resolveIcon_absolute (caseTable : Char → Char) (fileExists fileExists' : String → Bool)
    (iconIndex iconIndex' : String → Option String)
    (iconValue desktopPath desktopPath' : String) (habs : filepathIsAbs iconValue = true) :
    resolveIcon caseTable fileExists iconIndex iconValue desktopPath =
        (if fileExists iconValue = true then iconValue else "") ∧
      (fileExists' iconValue = fileExists iconValue →
        resolveIcon caseTable fileExists' iconIndex' iconValue desktopPath' =
          resolveIcon caseTable fileExists iconIndex iconValue desktopPath) ∧
      resolveIcon caseTable fileExists iconIndex "" desktopPath = "" := by
  have hne : iconValue ≠ "" := by
    intro h
    rw [h] at habs
    exact absurd habs (by decide)
  have hform : ∀ (fe : String → Bool) (idx : String → Option String) (dp : String),
      resolveIcon caseTable fe idx iconValue dp = (if fe iconValue = true then iconValue else "")
      := by
    intro fe idx dp
    unfold resolveIcon
    rw [if_neg hne, if_pos habs]
  refine ⟨hform _ _ _, ?_, ?_⟩
  · intro hsame
    rw [hform, hform, hsame]
  · unfold resolveIcon
    rw [if_pos rfl]

theorem resolveIcon_absolute_witness :
    resolveIcon id (fun p => p == "/opt/app/icon.png") (fun _ => some "/elsewhere.png")
        "/opt/app/icon.png" "/usr/share/applications/app.desktop" = "/opt/app/icon.png" ∧
      resolveIcon id (fun _ => false) (fun _ => some "/elsewhere.png")
        "/opt/app/icon.png" "/usr/share/applications/app.desktop" = "" :=
  ⟨((resolveIcon_absolute id (fun p => p == "/opt/app/icon.png") (fun _ => false)
      (fun _ => some "/elsewhere.png") (fun _ => none) "/opt/app/icon.png"
      "/usr/share/applications/app.desktop" "" (by decide)).1).trans (by decide),
    by decide⟩

/-! ### The catalog order -/

theorem appLess_iff_appKey_lt (caseTable : Char → Char) (a b : Application) :
    appLess caseTable a b = true ↔ appKey caseTable a < appKey caseTable b := by
  unfold appLess appKey
  rw [Prod.Lex.lt_iff]
  by_cases hn : stringsToLower caseTable a.Name = stringsToLower caseTable b.Name
  · simp [hn]
  · simp [hn]

theorem appKey_le_iff (caseTable : Char → Char) (a b : Application) :
    appKey caseTable a ≤ appKey caseTable b ↔ catalogOrder caseTable a b := by
  unfold appKey catalogOrder
  rw [Prod.Lex.le_iff]

theorem sortSlice_appLess (caseTable : Char → Char) (apps : List Application) :
    (sortSlice (appLess caseTable) apps).Perm apps ∧
      List.Chain' (catalogOrder caseTable) (sortSlice (appLess caseTable) apps) := by
  refine ⟨sortSlice_perm _ _, ?_⟩
  apply List.Pairwise.chain'
  have := sortSlice_sorted (appKey caseTable) (appLess caseTable)
    (appLess_iff_appKey_lt caseTable) apps
  exact this.imp (fun h => (appKey_le_iff caseTable _ _).mp h)

theorem ListApplications_fst (caseTable : Char → Char)
    (resolveIcon : String → String → String) (openFile : String → Option String)
    (readDir : String → readDirResult) (dirs : List String) :
    (ListApplications caseTable resolveIcon openFile readDir dirs).1 =
      sortSlice (appLess caseTable) (scanDirs resolveIcon openFile readDir dirs).apps := by
  unfold ListApplications
  dsimp only
  split <;> rfl

/-- C19. The scanner output and the merged catalog are each a permutation of the entries
collected that is sorted: of two consecutive entries `a` then `b`, the lowercased name of
`a` is smaller, or the lowercased names are equal and `a.Exec <= b.Exec`. This holds of the
sort the two scanners and `Run` share, for every list of entries. -/
theorem catalog_sorted_perm (caseTable : Char → Char)
    (resolveIcon : String → String → String) (openFile : String → Option String)
    (readDir : String → readDirResult) (dirs : List String)
    (collected plugins : List Application) :
    ((sortSlice (appLess caseTable) collected).Perm collected ∧
        List.Chain' (catalogOrder caseTable) (sortSlice (appLess caseTable) collected)) ∧
      ((ListApplications caseTable resolveIcon openFile readDir dirs).1.Perm
          (scanDirs resolveIcon openFile readDir dirs).apps ∧
        List.Chain' (catalogOrder caseTable)
          (ListApplications caseTable resolveIcon openFile readDir dirs).1) ∧
      ((launcher.runCatalog caseTable
            (ListApplications caseTable resolveIcon openFile readDir dirs).1 plugins).Perm
          ((ListApplications caseTable resolveIcon openFile readDir dirs).1 ++ plugins) ∧
        List.Chain' (catalogOrder caseTable)
          (launcher.runCatalog caseTable
            (ListApplications caseTable resolveIcon openFile readDir dirs).1 plugins)) := by
  refine ⟨sortSlice_appLess caseTable collected, ?_, sortSlice_appLess caseTable _⟩
  rw [ListApplications_fst]
  exact sortSlice_appLess caseTable _

theorem catalog_sorted_perm_witness :
    (sortSlice (appLess id)
        [⟨"Firefox", "firefox", "", "", "a.desktop"⟩, ⟨"files", "nautilus", "", "", "b.desktop"⟩,
          ⟨"Chat", "plugin:chat", "", "", ""⟩, ⟨"Files", "dolphin", "", "", ""⟩]).Perm
        [⟨"Firefox", "firefox", "", "", "a.desktop"⟩, ⟨"files", "nautilus", "", "", "b.desktop"⟩,
          ⟨"Chat", "plugin:chat", "", "", ""⟩, ⟨"Files", "dolphin", "", "", ""⟩] ∧
      List.Chain' (catalogOrder id)
        (sortSlice (appLess id)
          [⟨"Firefox", "firefox", "", "", "a.desktop"⟩,
            ⟨"files", "nautilus", "", "", "b.desktop"⟩,
            ⟨"Chat", "plugin:chat", "", "", ""⟩, ⟨"Files", "dolphin", "", "", ""⟩]) :=
  (catalog_sorted_perm id (fun _ _ => "") (fun _ => none) (fun _ => readDirResult.notExist)
    [] [⟨"Firefox", "firefox", "", "", "a.desktop"⟩, ⟨"files", "nautilus", "", "", "b.desktop"⟩,
      ⟨"Chat", "plugin:chat", "", "", ""⟩, ⟨"Files", "dolphin", "", "", ""⟩] []).1

/-! ### The scan of `List` -/

theorem scanDirs_eq_events (resolveIcon : String → String → String)
    (openFile : String → Option String) (readDir : String → readDirResult)
    (dirs : List String) (st : scanState) :
    dirs.foldl (visitDir resolveIcon openFile readDir) st =
      (scanEvents readDir dirs).foldl (stepEvent resolveIcon openFile) st := by
  induction dirs generalizing st with
  | nil => rfl
  | cons dir rest ih =>
    simp only [List.foldl_cons, scanEvents, List.flatMap_cons, List.foldl_append]
    rw [ih]
    congr 1
    unfold visitDir
    cases readDir dir with
    | notExist => rfl
    | failed => rfl
    | entries es =>
      simp only [List.foldl_map]
      rfl

theorem parseDesktopFile_ok_path (resolveIcon : String → String → String)
    (openFile : String → Option String) (path : String) (app : Application)
    (h : parseDesktopFile resolveIcon openFile path = Except.ok app) : app.Path = path := by
  unfold parseDesktopFile at h
  split at h
  · cases h
  · split at h
    · cases h
    · dsimp only at h
      split at h
      · cases h
      · cases h
        rfl

/-- The invariant of the scan after the events `evs`. -/
theorem scan_invariant (resolveIcon : String → String → String)
    (openFile : String → Option String) (evs : List scanEvent) :
    ((evs.foldl (stepEvent resolveIcon openFile)
          { seenPaths := [], apps := [], errs := [], parsed := [] }).seenPaths =
        (evs.foldl (stepEvent resolveIcon openFile)
          { seenPaths := [], apps := [], errs := [], parsed := [] }).parsed) ∧
      (evs.foldl (stepEvent resolveIcon openFile)
        { seenPaths := [], apps := [], errs := [], parsed := [] }).parsed.Nodup ∧
      (∀ p, p ∈ (evs.foldl (stepEvent resolveIcon openFile)
          { seenPaths := [], apps := [], errs := [], parsed := [] }).parsed ↔
        ∃ ev ∈ evs, eventPath ev = some p) ∧
      ((evs.foldl (stepEvent resolveIcon openFile)
          { seenPaths := [], apps := [], errs := [], parsed := [] }).apps =
        (evs.foldl (stepEvent resolveIcon openFile)
          { seenPaths := [], apps := [], errs := [], parsed := [] }).parsed.filterMap
          (parsedApp resolveIcon openFile)) ∧
      (∀ e, e ∈ (evs.foldl (stepEvent resolveIcon openFile)
          { seenPaths := [], apps := [], errs := [], parsed := [] }).errs ↔
        (∃ dir, scanEvent.dirFailed dir ∈ evs ∧ e = listError.readDir dir) ∨
          (∃ p ∈ (evs.foldl (stepEvent resolveIcon openFile)
              { seenPaths := [], apps := [], errs := [], parsed := [] }).parsed,
            ∃ err, parseDesktopFile resolveIcon openFile p = Except.error err ∧
              err ≠ parseError.errSkipApplication ∧ e = listError.parse p err)) := by
  induction evs using List.reverseRecOn with
  | nil =>
    refine ⟨rfl, List.nodup_nil, by simp, rfl, ?_⟩
    intro e
    simp
  | append_singleton evs ev ih =>
    rw [List.foldl_append, List.foldl_cons, List.foldl_nil]
    generalize evs.foldl (stepEvent resolveIcon openFile)
      { seenPaths := [], apps := [], errs := [], parsed := [] } = st at ih ⊢
    obtain ⟨j1, j2, j3, j4, j5⟩ := ih
    cases ev with
    | dirFailed dir =>
      simp only [stepEvent]
      refine ⟨j1, j2, ?_, j4, ?_⟩
      · intro p
        rw [j3 p]
        constructor
        · rintro ⟨ev, hev, hp⟩
          exact ⟨ev, List.mem_append_left _ hev, hp⟩
        · rintro ⟨ev, hev, hp⟩
          rcases List.mem_append.mp hev with h | h
          · exact ⟨ev, h, hp⟩
          · rw [List.mem_singleton.mp h] at hp
            simp [eventPath] at hp
      · intro e
        rw [List.mem_append, j5 e]
        constructor
        · rintro ((⟨d, hd, he⟩ | h) | h)
          · exact Or.inl ⟨d, List.mem_append_left _ hd, he⟩
          · exact Or.inr h
          · exact Or.inl ⟨dir, by simp, List.mem_singleton.mp h⟩
        · rintro (⟨d, hd, he⟩ | h)
          · rcases List.mem_append.mp hd with h1 | h1
            · exact Or.inl (Or.inl ⟨d, h1, he⟩)
            · right
              have : d = dir := by
                have := List.mem_singleton.mp h1
                cases this
                rfl
              rw [he, this]
              exact List.mem_singleton.mpr rfl
          · exact Or.inl (Or.inr h)
    | entry dir en =>
      simp only [stepEvent]
      have hold : ∀ d, scanEvent.dirFailed d ∈ evs ++ [scanEvent.entry dir en] ↔
          scanEvent.dirFailed d ∈ evs := by
        intro d
        simp
      unfold visitEntry
      by_cases hc : en.isDir = true ∨ stringsHasSuffix en.name ".desktop" = false
      · rw [if_pos hc]
        refine ⟨j1, j2, ?_, j4, ?_⟩
        · intro p
          rw [j3 p]
          constructor
          · rintro ⟨ev, hev, hp⟩
            exact ⟨ev, List.mem_append_left _ hev, hp⟩
          · rintro ⟨ev, hev, hp⟩
            rcases List.mem_append.mp hev with h | h
            · exact ⟨ev, h, hp⟩
            · rw [List.mem_singleton.mp h] at hp
              simp [eventPath, hc] at hp
        · intro e
          rw [j5 e]
          simp only [hold]
      · rw [if_neg hc]
        dsimp only
        have hpath : eventPath (scanEvent.entry dir en) = some (filepathJoin dir en.name) := by
          simp only [eventPath, hc, if_false]
        have j3' : ∀ (parsed' : List String),
            (∀ p, p ∈ parsed' ↔ p ∈ st.parsed ∨ p = filepathJoin dir en.name) →
            ∀ p, p ∈ parsed' ↔ ∃ ev ∈ evs ++ [scanEvent.entry dir en], eventPath ev = some p := by
          intro parsed' hp' p
          rw [hp' p, j3 p]
          constructor
          · rintro (⟨ev, hev, hp⟩ | hp)
            · exact ⟨ev, List.mem_append_left _ hev, hp⟩
            · exact ⟨scanEvent.entry dir en, by simp, by rw [hpath, hp]⟩
          · rintro ⟨ev, hev, hp⟩
            rcases List.mem_append.mp hev with h | h
            · exact Or.inl ⟨ev, h, hp⟩
            · rw [List.mem_singleton.mp h, hpath] at hp
              exact Or.inr (Option.some.inj hp).symm
        by_cases hseen : filepathJoin dir en.name ∈ st.seenPaths
        · rw [if_pos hseen]
          refine ⟨j1, j2, ?_, j4, ?_⟩
          · apply j3'
            intro p
            constructor
            · exact Or.inl
            · rintro (h | h)
              · exact h
              · rw [h, ← j1]
                exact hseen
          · intro e
            rw [j5 e]
            simp only [hold]
        · rw [if_neg hseen]
          have hnew : filepathJoin dir en.name ∉ st.parsed := by
            rw [← j1]
            exact hseen
          have hnodup : (st.parsed ++ [filepathJoin dir en.name]).Nodup := by
            rw [List.nodup_append]
            refine ⟨j2, List.nodup_singleton _, ?_⟩
            intro a ha hb
            rw [List.mem_singleton.mp hb] at ha
            exact hnew ha
          have hmem : ∀ p, p ∈ st.parsed ++ [filepathJoin dir en.name] ↔
              p ∈ st.parsed ∨ p = filepathJoin dir en.name := by
            intro p
            simp
          cases hparse : parseDesktopFile resolveIcon openFile (filepathJoin dir en.name) with
          | error err =>
            have hnone : parsedApp resolveIcon openFile (filepathJoin dir en.name) = none := by
              simp only [parsedApp, hparse]
            by_cases hskip : err = parseError.errSkipApplication
            · simp only [hskip, if_true]
              refine ⟨by rw [j1], hnodup, j3' _ hmem, ?_, ?_⟩
              · simp only [List.filterMap_append, List.filterMap_cons, hnone,
                  List.filterMap_nil, List.append_nil]
                exact j4
              · intro e
                rw [j5 e]
                simp only [hold]
                constructor
                · rintro (h | ⟨p, hp, err2, h1, h2, h3⟩)
                  · exact Or.inl h
                  · exact Or.inr ⟨p, List.mem_append_left _ hp, err2, h1, h2, h3⟩
                · rintro (h | ⟨p, hp, err2, h1, h2, h3⟩)
                  · exact Or.inl h
                  · rcases (hmem p).mp hp with hp | hp
                    · exact Or.inr ⟨p, hp, err2, h1, h2, h3⟩
                    · rw [hp, hparse] at h1
                      cases h1
                      exact absurd hskip h2
            · simp only [hskip, if_false]
              refine ⟨by rw [j1], hnodup, j3' _ hmem, ?_, ?_⟩
              · simp only [List.filterMap_append, List.filterMap_cons, hnone,
                  List.filterMap_nil, List.append_nil]
                exact j4
              · intro e
                rw [List.mem_append, j5 e]
                simp only [hold]
                constructor
                · rintro ((h | ⟨p, hp, err2, h1, h2, h3⟩) | h)
                  · exact Or.inl h
                  · exact Or.inr ⟨p, List.mem_append_left _ hp, err2, h1, h2, h3⟩
                  · exact Or.inr ⟨_, by simp, err, hparse, hskip, List.mem_singleton.mp h⟩
                · rintro (h | ⟨p, hp, err2, h1, h2, h3⟩)
                  · exact Or.inl (Or.inl h)
                  · rcases (hmem p).mp hp with hp | hp
                    · exact Or.inl (Or.inr ⟨p, hp, err2, h1, h2, h3⟩)
                    · right
                      rw [hp, hparse] at h1
                      cases h1
                      rw [h3, hp]
                      exact List.mem_singleton.mpr rfl
          | ok app =>
            have hsome : parsedApp resolveIcon openFile (filepathJoin dir en.name) = some app := by
              simp only [parsedApp, hparse]
            refine ⟨by rw [j1], hnodup, j3' _ hmem, ?_, ?_⟩
            · simp only [List.filterMap_append, List.filterMap_cons, hsome,
                List.filterMap_nil]
              rw [j4]
            · intro e
              rw [j5 e]
              simp only [hold]
              constructor
              · rintro (h | ⟨p, hp, err2, h1, h2, h3⟩)
                · exact Or.inl h
                · exact Or.inr ⟨p, List.mem_append_left _ hp, err2, h1, h2, h3⟩
              · rintro (h | ⟨p, hp, err2, h1, h2, h3⟩)
                · exact Or.inl h
                · rcases (hmem p).mp hp with hp | hp
                  · exact Or.inr ⟨p, hp, err2, h1, h2, h3⟩
                  · rw [hp, hparse] at h1
                    cases h1

theorem mem_scanEvents_dirFailed (readDir : String → readDirResult) (dirs : List String)
    (d : String) :
    scanEvent.dirFailed d ∈ scanEvents readDir dirs ↔
      d ∈ dirs ∧ readDir d = readDirResult.failed := by
  unfold scanEvents
  rw [List.mem_flatMap]
  constructor
  · rintro ⟨dir, hdir, hmem⟩
    cases hr : readDir dir with
    | notExist => simp [hr] at hmem
    | failed =>
      simp only [hr, List.mem_singleton, scanEvent.dirFailed.injEq] at hmem
      rw [hmem]
      exact ⟨hdir, hr⟩
    | entries es => simp [hr] at hmem
  · rintro ⟨hdir, hr⟩
    exact ⟨d, hdir, by simp [hr]⟩

theorem mem_scanEvents_entry (readDir : String → readDirResult) (dirs : List String)
    (d : String) (e : dirEntry) (es : List dirEntry) (hd : d ∈ dirs)
    (hr : readDir d = readDirResult.entries es) (he : e ∈ es) :
    scanEvent.entry d e ∈ scanEvents readDir dirs := by
  unfold scanEvents
  rw [List.mem_flatMap]
  exact ⟨d, hd, by simp [hr, he]⟩

theorem scanDirs_invariant (resolveIcon : String → String → String)
    (openFile : String → Option String) (readDir : String → readDirResult)
    (dirs : List String) :
    (scanDirs resolveIcon openFile readDir dirs).parsed.Nodup ∧
      (∀ p, p ∈ (scanDirs resolveIcon openFile readDir dirs).parsed ↔
        ∃ ev ∈ scanEvents readDir dirs, eventPath ev = some p) ∧
      ((scanDirs resolveIcon openFile readDir dirs).apps =
        (scanDirs resolveIcon openFile readDir dirs).parsed.filterMap
          (parsedApp resolveIcon openFile)) ∧
      (∀ e, e ∈ (scanDirs resolveIcon openFile readDir dirs).errs ↔
        (∃ dir, scanEvent.dirFailed dir ∈ scanEvents readDir dirs ∧ e = listError.readDir dir) ∨
          (∃ p ∈ (scanDirs resolveIcon openFile readDir dirs).parsed,
            ∃ err, parseDesktopFile resolveIcon openFile p = Except.error err ∧
              err ≠ parseError.errSkipApplication ∧ e = listError.parse p err)) := by
  have h := scan_invariant resolveIcon openFile (scanEvents readDir dirs)
  unfold scanDirs
  rw [scanDirs_eq_events]
  exact ⟨h.2.1, h.2.2.1, h.2.2.2.1, h.2.2.2.2⟩

theorem filterMap_paths_sublist (resolveIcon : String → String → String)
    (openFile : String → Option String) (paths : List String) :
    ((paths.filterMap (parsedApp resolveIcon openFile)).map (fun a => a.Path)).Sublist paths := by
  induction paths with
  | nil => exact List.Sublist.slnil
  | cons p rest ih =>
    rw [List.filterMap_cons]
    cases hp : parsedApp resolveIcon openFile p with
    | none => exact List.Sublist.cons p ih
    | some app =>
      have hpath : app.Path = p := by
        unfold parsedApp at hp
        split at hp
        · rename_i a ha
          cases hp
          exact parseDesktopFile_ok_path resolveIcon openFile p _ ha
        · cases hp
      simp only [List.map_cons, hpath]
      exact List.Sublist.cons₂ p ih

/-- C18. Path-based dedup: during a scan `parseDesktopFile` is called at most once on any
path, whatever the directories (which may repeat) and their contents, and no two
applications `List` returns have the same `Path`. -/
theorem List_paths_nodup (caseTable : Char → Char) (resolveIcon : String → String → String)
    (openFile : String → Option String) (readDir : String → readDirResult)
    (dirs : List String) :
    (scanDirs resolveIcon openFile readDir dirs).parsed.Nodup ∧
      ((ListApplications caseTable resolveIcon openFile readDir dirs).1.map
        (fun a => a.Path)).Nodup ∧
      (∀ a ∈ (ListApplications caseTable resolveIcon openFile readDir dirs).1,
        a.Path ∈ (scanDirs resolveIcon openFile readDir dirs).parsed) := by
  obtain ⟨h1, -, h3, -⟩ := scanDirs_invariant resolveIcon openFile readDir dirs
  have hsub := filterMap_paths_sublist resolveIcon openFile
    (scanDirs resolveIcon openFile readDir dirs).parsed
  rw [← h3] at hsub
  have hperm : ((ListApplications caseTable resolveIcon openFile readDir dirs).1.map
      (fun a => a.Path)).Perm
      ((scanDirs resolveIcon openFile readDir dirs).apps.map (fun a => a.Path)) := by
    rw [ListApplications_fst]
    exact List.Perm.map _ (sortSlice_perm _ _)
  refine ⟨h1, (List.Perm.nodup_iff hperm).mpr (hsub.nodup h1), ?_⟩
  intro a ha
  have : a.Path ∈ (scanDirs resolveIcon openFile readDir dirs).apps.map (fun a => a.Path) :=
    (List.Perm.mem_iff hperm).mp (List.mem_map_of_mem _ ha)
  exact hsub.subset this

theorem List_paths_nodup_witness :
    (scanDirs (fun _ _ => "") demoOpenFile demoReadDir
        ["/usr/share/applications", "/nowhere", "/usr/share/applications/",
          "/usr/share/applications"]).parsed =
        ["/usr/share/applications/firefox.desktop", "/usr/share/applications/files.desktop",
          "/usr/share/applications/hidden.desktop", "/usr/share/applications/gone.desktop"] ∧
      ((ListApplications id (fun _ _ => "") demoOpenFile demoReadDir
        ["/usr/share/applications", "/nowhere", "/usr/share/applications/",
          "/usr/share/applications"]).1.map (fun a => a.Path)).Nodup :=
  ⟨by decide, (List_paths_nodup id (fun _ _ => "") demoOpenFile demoReadDir _).2.1⟩

/-- C20. `List` returns a non-nil error exactly when some directory read failed with an
error other than not-exist or some descriptor parse failed with an error other than the
skip signal. A directory that does not exist and a skipped descriptor add no error and do
not stop the scan: every descriptor of every directory that was read is parsed; and the
returned catalog holds every descriptor that parsed successfully, and nothing else. -/
theorem List_error_iff (caseTable : Char → Char) (resolveIcon : String → String → String)
    (openFile : String → Option String) (readDir : String → readDirResult)
    (dirs : List String) :
    ((ListApplications caseTable resolveIcon openFile readDir dirs).2 ≠ none ↔
        (∃ dir ∈ dirs, readDir dir = readDirResult.failed) ∨
          (∃ p ∈ (scanDirs resolveIcon openFile readDir dirs).parsed,
            ∃ err, parseDesktopFile resolveIcon openFile p = Except.error err ∧
              err ≠ parseError.errSkipApplication)) ∧
      (∀ dir ∈ dirs, ∀ es, readDir dir = readDirResult.entries es →
        ∀ e ∈ es, e.isDir = false → stringsHasSuffix e.name ".desktop" = true →
          filepathJoin dir e.name ∈ (scanDirs resolveIcon openFile readDir dirs).parsed) ∧
      (∀ p ∈ (scanDirs resolveIcon openFile readDir dirs).parsed,
        ∀ app, parseDesktopFile resolveIcon openFile p = Except.ok app →
          app ∈ (ListApplications caseTable resolveIcon openFile readDir dirs).1) ∧
      (∀ app ∈ (ListApplications caseTable resolveIcon openFile readDir dirs).1,
        ∃ p ∈ (scanDirs resolveIcon openFile readDir dirs).parsed,
          parseDesktopFile resolveIcon openFile p = Except.ok app) := by
  obtain ⟨-, h2, h3, h4⟩ := scanDirs_invariant resolveIcon openFile readDir dirs
  have hmemapps : ∀ app, app ∈ (ListApplications caseTable resolveIcon openFile readDir dirs).1 ↔
      ∃ p ∈ (scanDirs resolveIcon openFile readDir dirs).parsed,
        parseDesktopFile resolveIcon openFile p = Except.ok app := by
    intro app
    rw [ListApplications_fst, List.Perm.mem_iff (sortSlice_perm _ _), h3, List.mem_filterMap]
    constructor
    · rintro ⟨p, hp, hsome⟩
      refine ⟨p, hp, ?_⟩
      unfold parsedApp at hsome
      split at hsome
      · rename_i a ha
        cases hsome
        exact ha
      · cases hsome
    · rintro ⟨p, hp, hok⟩
      exact ⟨p, hp, by simp only [parsedApp, hok]⟩
  refine ⟨?_, ?_, fun p hp app hok => (hmemapps app).mpr ⟨p, hp, hok⟩,
    fun app ha => (hmemapps app).mp ha⟩
  · have hsnd : (ListApplications caseTable resolveIcon openFile readDir dirs).2 ≠ none ↔
        (scanDirs resolveIcon openFile readDir dirs).errs ≠ [] := by
      unfold ListApplications
      dsimp only
      cases herrs : (scanDirs resolveIcon openFile readDir dirs).errs with
      | nil => simp
      | cons e rest => simp
    rw [hsnd]
    constructor
    · intro hne
      obtain ⟨e, rest, hcons⟩ := List.exists_cons_of_ne_nil hne
      have he : e ∈ (scanDirs resolveIcon openFile readDir dirs).errs := by
        rw [hcons]
        exact List.mem_cons_self _ _
      rcases (h4 e).mp he with ⟨dir, hdir, -⟩ | ⟨p, hp, err, h1, h2', -⟩
      · exact Or.inl ⟨dir, (mem_scanEvents_dirFailed readDir dirs dir).mp hdir⟩
      · exact Or.inr ⟨p, hp, err, h1, h2'⟩
    · rintro (⟨dir, hdir, hfail⟩ | ⟨p, hp, err, h1, h2'⟩)
      · have := (h4 (listError.readDir dir)).mpr
          (Or.inl ⟨dir, (mem_scanEvents_dirFailed readDir dirs dir).mpr ⟨hdir, hfail⟩, rfl⟩)
        exact List.ne_nil_of_mem this
      · have := (h4 (listError.parse p err)).mpr (Or.inr ⟨p, hp, err, h1, h2', rfl⟩)
        exact List.ne_nil_of_mem this
  · intro dir hdir es hr e he hnd hsuf
    rw [h2]
    refine ⟨scanEvent.entry dir e, mem_scanEvents_entry readDir dirs dir e es hdir hr he, ?_⟩
    simp [eventPath, hnd, hsuf]

theorem List_error_iff_witness :
    (scanDirs (fun _ _ => "") demoOpenFile demoReadDir
        ["/nowhere", "/usr/share/applications"]).errs =
        [listError.parse "/usr/share/applications/gone.desktop" parseError.openFailed] ∧
      (scanDirs (fun _ _ => "") demoOpenFile demoReadDir
        ["/nowhere", "/root/locked", "/usr/share/applications"]).apps.map (fun a => a.Name) =
        ["Firefox", "Files"] ∧
      ((ListApplications id (fun _ _ => "") demoOpenFile demoReadDir
          ["/nowhere", "/root/locked", "/usr/share/applications"]).2 ≠ none) :=
  ⟨by decide, by decide,
    (List_error_iff id (fun _ _ => "") demoOpenFile demoReadDir
      ["/nowhere", "/root/locked", "/usr/share/applications"]).1.mpr
      (Or.inl ⟨"/root/locked", by decide, by decide⟩)⟩

end applications

/-! ### Byte lengths around an occurrence -/

theorem goLen_append (a b : List Char) :
    goLen (String.mk (a ++ b)) = goLen (String.mk a) + goLen (String.mk b) := by
  induction a with
  | nil =>
    have h0 : goLen (String.mk []) = 0 := rfl
    simp [h0]
  | cons c cs ih =>
    rw [List.cons_append, goLen_cons, goLen_cons, ih]
    omega

theorem goLen_eq_zero (l : List Char) (h : goLen (String.mk l) = 0) : l = [] := by
  cases l with
  | nil => rfl
  | cons c cs =>
    rw [goLen_cons] at h
    have := Char.utf8Size_pos c
    omega

/-- An occurrence at byte offset `i` is followed by the whole substring, and an occurrence at
offset 0 that fills the string is the string itself. -/
theorem occursFirstAt_len (sub l : List Char) (i : Nat) (h : occursFirstAt sub l i) :
    i + goLen (String.mk sub) ≤ goLen (String.mk l) ∧
      (i + goLen (String.mk sub) = goLen (String.mk l) → i = 0 → l = sub) := by
  obtain ⟨pre, post, heq, hlen, -⟩ := h
  have hl : goLen (String.mk l) = i + goLen (String.mk sub) + goLen (String.mk post) := by
    rw [heq, goLen_append, goLen_append, hlen]
  refine ⟨by omega, ?_⟩
  intro h1 h0
  have hpost : post = [] := goLen_eq_zero post (by omega)
  have hpre : pre = [] := goLen_eq_zero pre (by omega)
  simp [heq, hpost, hpre]

theorem stringsIndex_self (q : String) : stringsIndex q q = 0 := by
  have h : firstOccurrence q q 0 :=
    ⟨[], [], by simp, rfl, fun _ _ _ => Nat.zero_le _⟩
  simpa using stringsIndex_of_firstOccurrence q q 0 h

theorem stringsIndex_cases (s q : String) :
    stringsIndex s q = -1 ∨
      ∃ i : Nat, stringsIndex s q = (i : Int) ∧ occursFirstAt q.data s.data i := by
  by_cases h : q.data <:+: s.data
  · obtain ⟨i, hi⟩ := occursFirstAt_of_infix _ _ h
    exact Or.inr ⟨i, stringsIndex_of_firstOccurrence s q i hi, hi⟩
  · exact Or.inl <| stringsIndex_of_not_infix s q h

namespace search

open applications

/-! ### Which entries pass the score gate -/

theorem Filter_mem_of_positive (caseTable : Char → Char) (apps : List Application)
    (query : String) (A : Application) (hq : stringsTrimSpace query ≠ "") (hA : A ∈ apps)
    (hpos : 0 < (scoreApplication caseTable A
      (stringsToLower caseTable (stringsTrimSpace query))).1) :
    A ∈ Filter caseTable apps query := by
  rw [Filter_eq_map caseTable apps query hq]
  rw [(scoreApplications_apps_perm caseTable apps _).mem_iff]
  simp [hA, hpos]

theorem Filter_mem_positive (caseTable : Char → Char) (apps : List Application)
    (query : String) (A : Application) (hA : A ∈ Filter caseTable apps query) :
    0 < (scoreApplication caseTable A
      (stringsToLower caseTable (stringsTrimSpace query))).1 := by
  by_cases hq : stringsTrimSpace query = ""
  · simp [Filter, hq] at hA
  · rw [Filter_eq_map caseTable apps query hq,
      (scoreApplications_apps_perm caseTable apps _).mem_iff] at hA
    simpa using (List.mem_filter.mp hA).2

/-- C21. An entry whose lowercased Name contains the query, but so late in so long a name
that the tier-1 score `2000 - 20*i - len` is not positive, is left out of the result: with
the single entry named by 99 letters `x` followed by `ab` and the query "ab" the name
contains the query at byte offset 99, the score is `2000 - 1980 - 101 = -81`, and `Filter`
returns the empty list. In general a tier-1 entry is in the result exactly when
`20*i + len < 2000`. -/
theorem Filter_drops_name_match_of_nonpositive_score :
    ("ab".data <:+: (stringsToLower id
        "xxxxxxxxxxxxxxxxxxxxxxxxxxxxxxxxxxxxxxxxxxxxxxxxxxxxxxxxxxxxxxxxxxxxxxxxxxxxxxxxxxxxxxxxxxxxxxxxxxxab").data) ∧
      scoreApplication id
        ⟨"xxxxxxxxxxxxxxxxxxxxxxxxxxxxxxxxxxxxxxxxxxxxxxxxxxxxxxxxxxxxxxxxxxxxxxxxxxxxxxxxxxxxxxxxxxxxxxxxxxxab",
          "x", "", "", "x.desktop"⟩ "ab" = (-81, "name-substring") ∧
      Filter id
        [⟨"xxxxxxxxxxxxxxxxxxxxxxxxxxxxxxxxxxxxxxxxxxxxxxxxxxxxxxxxxxxxxxxxxxxxxxxxxxxxxxxxxxxxxxxxxxxxxxxxxxxab",
          "x", "", "", "x.desktop"⟩] "ab" = [] ∧
      (∀ (caseTable : Char → Char) (apps : List Application) (query : String)
          (A : Application) (i : Nat),
        stringsTrimSpace query ≠ "" → A ∈ apps →
        firstOccurrence (stringsToLower caseTable A.Name)
          (stringsToLower caseTable (stringsTrimSpace query)) i →
        (A ∈ Filter caseTable apps query ↔
          20 * i + goLen (stringsToLower caseTable A.Name) < 2000)) := by
  refine ⟨⟨List.replicate 99 'x', [], by decide⟩, by decide, by decide, ?_⟩
  intro caseTable apps query A i hq hA hocc
  have hidx := stringsIndex_of_firstOccurrence _ _ i hocc
  have hs : (scoreApplication caseTable A
      (stringsToLower caseTable (stringsTrimSpace query))).1 =
      2000 - (i : Int) * 20 - (goLen (stringsToLower caseTable A.Name) : Int) := by
    unfold scoreApplication
    dsimp only
    rw [hidx, if_pos (Int.natCast_nonneg i)]
  constructor
  · intro hmem
    have := Filter_mem_positive caseTable apps query A hmem
    rw [hs] at this
    omega
  · intro hlt
    apply Filter_mem_of_positive caseTable apps query A hq hA
    rw [hs]
    omega

end search

namespace applications

/-! ### The lines of a descriptor and its sections -/

theorem parseLine_header (st : entryVars) (text : String) (h : isSectionHeader text = true) :
    parseLine st text =
      { st with inDesktopEntry := decide (stringsTrimSpace text = "[Desktop Entry]") } := by
  unfold isSectionHeader at h
  unfold parseLine
  dsimp only at h ⊢
  by_cases hb : stringsTrimSpace text = "" ∨ stringsHasPrefix (stringsTrimSpace text) "#" = true
  · rw [if_pos hb] at h
    exact absurd h (by decide)
  · rw [if_neg hb] at h
    rw [if_neg hb]
    rw [Bool.and_eq_true] at h
    rw [if_pos h]

theorem parseLine_outside (st : entryVars) (text : String) (h : isSectionHeader text = false)
    (hout : st.inDesktopEntry = false) : parseLine st text = st := by
  unfold isSectionHeader at h
  unfold parseLine
  dsimp only at h ⊢
  by_cases hb : stringsTrimSpace text = "" ∨ stringsHasPrefix (stringsTrimSpace text) "#" = true
  · rw [if_pos hb]
  · rw [if_neg hb] at h
    rw [if_neg hb]
    have hh : ¬ (stringsHasPrefix (stringsTrimSpace text) "[" = true ∧
        stringsHasSuffix (stringsTrimSpace text) "]" = true) := by
      rw [← Bool.and_eq_true, h]
      decide
    rw [if_neg hh, if_pos hout]

/-- What the loop does with a line of the main section that is no header: the switch on the
key of the line. -/
theorem parseLine_body (st : entryVars) (text : String) (h : isSectionHeader text = false)
    (hin : st.inDesktopEntry = true) :
    parseLine st text =
      match lineKeyValue text with
      | none => st
      | some (key, value) =>
        if key = "Type" then { st with appType := value }
        else if key = "Name" then { st with name := value }
        else if stringsHasPrefix key "Name[" = true ∧ st.name = "" then { st with name := value }
        else if key = "Exec" then { st with exec := sanitiseExec value }
        else if key = "Icon" then { st with iconName := value }
        else if key = "Hidden" then { st with hidden := stringsEqualFold value "true" }
        else if key = "NoDisplay" then { st with noDisplay := stringsEqualFold value "true" }
        else st := by
  unfold isSectionHeader at h
  unfold parseLine lineKeyValue
  dsimp only at h ⊢
  by_cases hb : stringsTrimSpace text = "" ∨ stringsHasPrefix (stringsTrimSpace text) "#" = true
  · rw [if_pos hb, if_pos hb]
  · rw [if_neg hb] at h
    rw [if_neg hb, if_neg hb]
    have hh : ¬ (stringsHasPrefix (stringsTrimSpace text) "[" = true ∧
        stringsHasSuffix (stringsTrimSpace text) "]" = true) := by
      rw [← Bool.and_eq_true, h]
      decide
    have hin2 : ¬ st.inDesktopEntry = false := by simp [hin]
    rw [if_neg hh, if_neg hh, if_neg hin2]
    cases splitAtEquals (stringsTrimSpace text).data with
    | none => rfl
    | some p => rfl

theorem lineKeyValue_not_header (text : String) (kv : String × String)
    (h : lineKeyValue text = some kv) : isSectionHeader text = false := by
  unfold lineKeyValue at h
  unfold isSectionHeader
  dsimp only at h ⊢
  by_cases hb : stringsTrimSpace text = "" ∨ stringsHasPrefix (stringsTrimSpace text) "#" = true
  · rw [if_pos hb]
  · rw [if_neg hb] at h ⊢
    by_cases hh : stringsHasPrefix (stringsTrimSpace text) "[" = true ∧
        stringsHasSuffix (stringsTrimSpace text) "]" = true
    · rw [if_pos hh] at h
      exact absurd h (by simp)
    · rw [← Bool.and_eq_true] at hh
      exact Bool.eq_false_iff.mpr hh

theorem parseLine_flag (st : entryVars) (text : String) :
    (parseLine st text).inDesktopEntry =
      if isSectionHeader text = true then decide (stringsTrimSpace text = "[Desktop Entry]")
      else st.inDesktopEntry := by
  by_cases h : isSectionHeader text = true
  · rw [if_pos h, parseLine_header st text h]
  · rw [if_neg h]
    have h2 : isSectionHeader text = false := Bool.eq_false_iff.mpr h
    cases hin : st.inDesktopEntry with
    | false => rw [parseLine_outside st text h2 hin, hin]
    | true =>
      rw [parseLine_body st text h2 hin]
      cases lineKeyValue text with
      | none => exact hin
      | some p =>
        obtain ⟨key, value⟩ := p
        dsimp only
        split_ifs <;> exact hin

theorem foldl_parseLine_flag (lines : List String) (st : entryVars)
    (h : st.inDesktopEntry = false) :
    (lines.foldl parseLine st).inDesktopEntry = inMainSection lines := by
  unfold inMainSection
  rw [← h]
  clear h
  induction lines generalizing st with
  | nil => rfl
  | cons l rest ih =>
    rw [List.foldl_cons, List.foldl_cons, ih, parseLine_flag]

theorem parseLine_name_ne_empty (st : entryVars) (text : String)
    (hl : lineKeyValue text ≠ some ("Name", "")) (hn : st.name ≠ "") :
    (parseLine st text).name ≠ "" := by
  by_cases h : isSectionHeader text = true
  · rw [parseLine_header st text h]
    exact hn
  · have h2 : isSectionHeader text = false := Bool.eq_false_iff.mpr h
    cases hin : st.inDesktopEntry with
    | false => rw [parseLine_outside st text h2 hin]; exact hn
    | true =>
      rw [parseLine_body st text h2 hin]
      cases hkv : lineKeyValue text with
      | none => exact hn
      | some p =>
        obtain ⟨key, value⟩ := p
        dsimp only
        split_ifs with h1 h2 h3
        · exact hn
        · intro hv
          apply hl
          rw [hkv, h2]
          exact congrArg (fun v => some ("Name", v)) hv
        · exact absurd h3.2 hn
        all_goals exact hn

theorem foldl_parseLine_name_ne_empty (lines : List String) (st : entryVars)
    (hl : ∀ l ∈ lines, lineKeyValue l ≠ some ("Name", "")) (hn : st.name ≠ "") :
    (lines.foldl parseLine st).name ≠ "" := by
  induction lines generalizing st with
  | nil => exact hn
  | cons l rest ih =>
    rw [List.foldl_cons]
    exact ih _ (fun x hx => hl x (List.mem_cons_of_mem _ hx))
      (parseLine_name_ne_empty st l (hl l (List.mem_cons_self _ _)) hn)

/-- What the loop does with a localized Name line of the main section: it sets the name
when the name is still empty, and nothing else. -/
theorem parseLine_localized (st : entryVars) (text key value : String)
    (hkv : lineKeyValue text = some (key, value)) (hk : stringsHasPrefix key "Name[" = true)
    (hin : st.inDesktopEntry = true) :
    parseLine st text = if st.name = "" then { st with name := value } else st := by
  have h2 := lineKeyValue_not_header text _ hkv
  rw [parseLine_body st text h2 hin, hkv]
  dsimp only
  have hne : ∀ w : String, stringsHasPrefix w "Name[" = false → key ≠ w := by
    intro w hw he
    rw [he, hw] at hk
    exact absurd hk (by decide)
  rw [if_neg (hne "Type" (by decide)), if_neg (hne "Name" (by decide))]
  by_cases hn : st.name = ""
  · rw [if_pos ⟨hk, hn⟩, if_pos hn]
  · rw [if_neg (fun h => hn h.2), if_neg (hne "Exec" (by decide)),
      if_neg (hne "Icon" (by decide)), if_neg (hne "Hidden" (by decide)),
      if_neg (hne "NoDisplay" (by decide)), if_neg hn]

theorem parseLine_localized_of_name (st : entryVars) (text key value : String)
    (hkv : lineKeyValue text = some (key, value)) (hk : stringsHasPrefix key "Name[" = true)
    (hn : st.name ≠ "") : parseLine st text = st := by
  cases hin : st.inDesktopEntry with
  | false => exact parseLine_outside st text (lineKeyValue_not_header text _ hkv) hin
  | true => rw [parseLine_localized st text key value hkv hk hin, if_neg hn]

theorem parseLine_plain_name (st : entryVars) (text value : String)
    (hkv : lineKeyValue text = some ("Name", value)) (hin : st.inDesktopEntry = true) :
    (parseLine st text).name = value := by
  rw [parseLine_body st text (lineKeyValue_not_header text _ hkv) hin, hkv]
  rfl

/-- C22. A localized `Name[...]` line of the main section sets the name exactly when the
name resolved so far is empty. So when a plain Name line with a non-empty value stands in
the main section, and a localized line follows it with no plain Name line of empty value in
between, the localized line changes nothing: the entry resolved from the content is the one
resolved from its lines with the localized line left out. -/
theorem localized_name_ignored_after_plain_name (content : String)
    (before between after : List String) (plain localized value key localValue : String)
    (hlines : scanLines content = before ++ plain :: (between ++ localized :: after))
    (hmain : inMainSection before = true)
    (hplain : lineKeyValue plain = some ("Name", value)) (hvalue : value ≠ "")
    (hbetween : ∀ l ∈ between, lineKeyValue l ≠ some ("Name", ""))
    (hlocalized : lineKeyValue localized = some (key, localValue))
    (hkey : stringsHasPrefix key "Name[" = true) :
    resolveEntry content =
        (before ++ plain :: (between ++ after)).foldl parseLine
          { inDesktopEntry := false, name := "", exec := "", iconName := "", appType := "",
            hidden := false, noDisplay := false } ∧
      (∀ st : entryVars, st.inDesktopEntry = true →
        parseLine st localized = if st.name = "" then { st with name := localValue } else st)
    := by
  refine ⟨?_, fun st hin => parseLine_localized st localized key localValue hlocalized hkey hin⟩
  unfold resolveEntry
  rw [hlines]
  simp only [List.foldl_append, List.foldl_cons]
  congr 1
  apply parseLine_localized_of_name _ localized key localValue hlocalized hkey
  apply foldl_parseLine_name_ne_empty _ _ hbetween
  rw [parseLine_plain_name _ plain value hplain]
  · exact hvalue
  · rw [foldl_parseLine_flag _ _ rfl]
    exact hmain

/-- The descriptor of Firefox with a German name after the plain one. -/
theorem localized_name_ignored_after_plain_name_witness :
    resolveEntry "[Desktop Entry]\nName=Firefox\nName[de]=Feuerfuchs\nExec=firefox\n" =
      (["[Desktop Entry]"] ++ "Name=Firefox" :: ([] ++ ["Exec=firefox"])).foldl parseLine
        { inDesktopEntry := false, name := "", exec := "", iconName := "", appType := "",
          hidden := false, noDisplay := false } :=
  (localized_name_ignored_after_plain_name
    "[Desktop Entry]\nName=Firefox\nName[de]=Feuerfuchs\nExec=firefox\n"
    ["[Desktop Entry]"] [] ["Exec=firefox"] "Name=Firefox" "Name[de]=Feuerfuchs" "Firefox"
    "Name[de]" "Feuerfuchs" (by decide) (by decide) (by decide) (by decide)
    (by simp) (by decide) (by decide)).1

/-- A plain `Name=` line with an empty value leaves the name empty, so the localized line
after it sets the resolved name. -/
theorem localized_name_after_empty_plain_name_counterexample :
    scanLines "[Desktop Entry]\nType=Application\nName=\nName[de]=Feuerfuchs\nExec=firefox\n"
        = ["[Desktop Entry]", "Type=Application", "Name=", "Name[de]=Feuerfuchs",
            "Exec=firefox"] ∧
      lineKeyValue "Name=" = some ("Name", "") ∧
      lineKeyValue "Name[de]=Feuerfuchs" = some ("Name[de]", "Feuerfuchs") ∧
      (resolveEntry
        "[Desktop Entry]\nType=Application\nName=\nName[de]=Feuerfuchs\nExec=firefox\n").name
          = "Feuerfuchs" ∧
      parseDesktopFile (fun _ _ => "")
        (fun _ => some
          "[Desktop Entry]\nType=Application\nName=\nName[de]=Feuerfuchs\nExec=firefox\n")
        "/usr/share/applications/firefox.desktop" =
        Except.ok { Name := "Feuerfuchs", Exec := "firefox", IconName := "", IconPath := "",
                    Path := "/usr/share/applications/firefox.desktop" } :=
  ⟨by decide, by decide, by decide, by decide, by rfl⟩

theorem rawLinesLoop_append_line (l cur rest : List Char) (h : '\n' ∉ l) :
    rawLinesLoop (l ++ '\n' :: rest) cur = (cur.reverse ++ l) :: rawLinesLoop rest [] := by
  induction l generalizing cur with
  | nil => simp [rawLinesLoop]
  | cons c cs ih =>
    have hc : c ≠ '\n' := fun he => h (he ▸ List.mem_cons_self _ _)
    have hcs : '\n' ∉ cs := fun hm => h (List.mem_cons_of_mem _ hm)
    rw [List.cons_append, rawLinesLoop, if_neg hc, ih _ hcs]
    simp

theorem rawLinesLoop_no_newline (l cur : List Char) (hcur : '\n' ∉ cur) :
    ∀ x ∈ rawLinesLoop l cur, '\n' ∉ x := by
  induction l generalizing cur with
  | nil =>
    intro x hx
    unfold rawLinesLoop at hx
    split_ifs at hx with h
    · exact absurd hx (List.not_mem_nil _)
    · rw [List.mem_singleton] at hx
      rw [hx, List.mem_reverse]
      exact hcur
  | cons c cs ih =>
    intro x hx
    unfold rawLinesLoop at hx
    split_ifs at hx with h
    · rcases List.mem_cons.mp hx with h1 | h1
      · rw [h1, List.mem_reverse]
        exact hcur
      · exact ih [] (List.not_mem_nil _) x h1
    · refine ih (c :: cur) ?_ x hx
      intro hm
      rcases List.mem_cons.mp hm with h1 | h1
      · exact h h1.symm
      · exact hcur h1

theorem rawLinesLoop_terminated (ls : List (List Char)) (h : ∀ x ∈ ls, '\n' ∉ x) :
    rawLinesLoop (ls.flatMap (fun l => l ++ ['\n'])) [] = ls := by
  induction ls with
  | nil => rfl
  | cons l rest ih =>
    rw [List.flatMap_cons, List.append_assoc, List.singleton_append,
      rawLinesLoop_append_line l [] _ (h l (List.mem_cons_self _ _)),
      ih (fun x hx => h x (List.mem_cons_of_mem _ hx))]
    simp

theorem mainSectionLines_sublist (keepHeaders inMain : Bool) (ls : List (List Char)) :
    (mainSectionLines keepHeaders inMain ls).Sublist ls := by
  induction ls generalizing inMain with
  | nil => exact List.Sublist.refl _
  | cons l rest ih =>
    unfold mainSectionLines
    dsimp only
    split_ifs
    · exact (ih _).cons₂ _
    · exact (ih _).cons _
    · exact (ih _).cons₂ _
    · exact (ih _).cons _

theorem rawLinesLoop_deleteOutside (keepHeaders : Bool) (content : String) :
    rawLinesLoop (deleteOutside keepHeaders content).data [] =
      mainSectionLines keepHeaders false (rawLinesLoop content.data []) := by
  unfold deleteOutside
  apply rawLinesLoop_terminated
  intro x hx
  exact rawLinesLoop_no_newline content.data [] (List.not_mem_nil _) x
    ((mainSectionLines_sublist _ _ _).subset hx)

theorem scanTooLong_deleteOutside (keepHeaders : Bool) (content : String)
    (h : scanTooLong content = false) : scanTooLong (deleteOutside keepHeaders content) = false := by
  unfold scanTooLong at h ⊢
  rw [rawLinesLoop_deleteOutside]
  rw [List.any_eq_false] at h ⊢
  intro x hx
  exact h x ((mainSectionLines_sublist _ _ _).subset hx)

/-- The lines outside the main section do not move the variables of the loop: the run over
the kept lines ends in the state of the run over all lines, up to the section flag. -/
theorem foldl_mainSectionLines (keepHeaders : Bool) (ls : List (List Char))
    (st st2 : entryVars)
    (hR : st2 = st ∨ st2 = { st with inDesktopEntry := true }) :
    (mainSectionLines keepHeaders st.inDesktopEntry ls).foldl
        (fun s raw => parseLine s (String.mk (dropCR raw))) st2 =
        ls.foldl (fun s raw => parseLine s (String.mk (dropCR raw))) st ∨
      (mainSectionLines keepHeaders st.inDesktopEntry ls).foldl
        (fun s raw => parseLine s (String.mk (dropCR raw))) st2 =
        { ls.foldl (fun s raw => parseLine s (String.mk (dropCR raw))) st with
          inDesktopEntry := true } := by
  induction ls generalizing st st2 with
  | nil => exact hR
  | cons l rest ih =>
    rw [List.foldl_cons]
    unfold mainSectionLines
    dsimp only
    by_cases hh : isSectionHeader (String.mk (dropCR l)) = true
    · rw [if_pos hh]
      have hflag : (parseLine st (String.mk (dropCR l))).inDesktopEntry =
          decide (stringsTrimSpace (String.mk (dropCR l)) = "[Desktop Entry]") := by
        rw [parseLine_header st _ hh]
      split_ifs with hk
      · rw [List.foldl_cons, ← hflag]
        apply ih
        left
        rw [parseLine_header st _ hh, parseLine_header st2 _ hh]
        rcases hR with h | h <;> rw [h]
      · rw [← hflag]
        apply ih
        have hf : (parseLine st (String.mk (dropCR l))).inDesktopEntry = false := by
          rw [hflag]
          simpa using fun h => hk (Or.inl (by simpa using h))
        rw [parseLine_header st _ hh] at hf ⊢
        rcases hR with h | h
        · rw [h]
          cases hst : st.inDesktopEntry with
          | false =>
            left
            cases st
            simp_all
          | true =>
            right
            cases st
            simp_all
        · right
          rw [h]
    · rw [if_neg hh]
      have hh2 : isSectionHeader (String.mk (dropCR l)) = false := Bool.eq_false_iff.mpr hh
      have hflag : (parseLine st (String.mk (dropCR l))).inDesktopEntry = st.inDesktopEntry := by
        rw [parseLine_flag, if_neg hh]
      cases hin : st.inDesktopEntry with
      | true =>
        have hst2 : st2 = st := by
          rcases hR with h | h
          · exact h
          · rw [h]
            cases st
            simp_all
        rw [if_pos rfl, List.foldl_cons, hst2]
        have := ih (parseLine st (String.mk (dropCR l))) (parseLine st (String.mk (dropCR l)))
          (Or.inl rfl)
        rw [hflag, hin] at this
        exact this
      | false =>
        rw [if_neg (by decide)]
        have hp := parseLine_outside st _ hh2 hin
        have := ih (parseLine st (String.mk (dropCR l))) st2 (by rw [hp]; exact hR)
        rw [hflag, hin] at this
        exact this

theorem rawLinesLoop_last_line (l cur : List Char) (h : '\n' ∉ l) (hne : l ≠ []) :
    rawLinesLoop l cur = [cur.reverse ++ l] := by
  induction l generalizing cur with
  | nil => exact absurd rfl hne
  | cons c cs ih =>
    have hc : c ≠ '\n' := fun he => h (he ▸ List.mem_cons_self _ _)
    have hcs : '\n' ∉ cs := fun hm => h (List.mem_cons_of_mem _ hm)
    rw [rawLinesLoop, if_neg hc]
    cases cs with
    | nil => simp [rawLinesLoop]
    | cons d ds =>
      rw [ih _ hcs (List.cons_ne_nil _ _)]
      simp

theorem goLen_replicate_x (n : Nat) : goLen (String.mk (List.replicate n 'x')) = n := by
  induction n with
  | zero => rfl
  | succ m ih =>
    rw [List.replicate_succ, goLen_cons, ih]
    rfl

theorem stringsTrimSpace_replicate_x (n : Nat) :
    stringsTrimSpace (String.mk (List.replicate n 'x')) = String.mk (List.replicate n 'x') := by
  have hd : ∀ m, List.dropWhile unicodeIsSpace (List.replicate m 'x') = List.replicate m 'x' := by
    intro m
    cases m with
    | zero => rfl
    | succ k =>
      rw [List.replicate_succ, List.dropWhile_cons_of_neg (by decide)]
  unfold stringsTrimSpace
  simp only [hd, List.reverse_replicate]

theorem dropCR_replicate_x (n : Nat) : dropCR (List.replicate n 'x') = List.replicate n 'x' := by
  unfold dropCR
  rw [if_neg]
  rw [List.getLast?_eq_head?_reverse, List.reverse_replicate]
  cases n with
  | zero => simp
  | succ k => simp [List.replicate_succ]

theorem isSectionHeader_replicate_x (n : Nat) :
    isSectionHeader (String.mk (List.replicate n 'x')) = false := by
  unfold isSectionHeader
  dsimp only
  rw [stringsTrimSpace_replicate_x]
  cases n with
  | zero => simp
  | succ k =>
    split_ifs
    · rfl
    · simp [stringsHasPrefix, List.replicate_succ, List.isPrefixOf]

/-- C23. For a content that is scanned without error (no line of `1024*1024` bytes or
more), deleting every line outside a section headed `[Desktop Entry]` leaves the result of
`parseDesktopFile` unchanged, whether or not the headers of the other sections are deleted
with their bodies. -/
theorem parseDesktopFile_main_section_only (resolveIcon : String → String → String)
    (openFile openFile2 : String → Option String) (path content : String)
    (keepHeaders : Bool)
    (hopen : openFile path = some content)
    (hopen2 : openFile2 path = some (deleteOutside keepHeaders content))
    (hscan : scanTooLong content = false) :
    parseDesktopFile resolveIcon openFile2 path = parseDesktopFile resolveIcon openFile path := by
  unfold parseDesktopFile
  rw [hopen, hopen2]
  dsimp only
  rw [hscan, scanTooLong_deleteOutside keepHeaders content hscan]
  have h1 : ∀ c : String, resolveEntry c =
      (rawLinesLoop c.data []).foldl (fun s raw => parseLine s (String.mk (dropCR raw)))
        { inDesktopEntry := false, name := "", exec := "", iconName := "", appType := "",
          hidden := false, noDisplay := false } := by
    intro c
    unfold resolveEntry scanLines
    rw [List.foldl_map]
  have h2 := foldl_mainSectionLines keepHeaders (rawLinesLoop content.data [])
    { inDesktopEntry := false, name := "", exec := "", iconName := "", appType := "",
      hidden := false, noDisplay := false } _ (Or.inl rfl)
  rw [← rawLinesLoop_deleteOutside, ← h1, ← h1] at h2
  rcases h2 with h | h <;> rw [h]


/-- A descriptor with a line of `1024*1024` letters in a `[Desktop Action b]` section is
a scan error; with the lines outside the main section deleted it yields the record. -/
theorem parseDesktopFile_long_line_outside_counterexample :
    parseDesktopFile (fun _ _ => "")
        (fun _ => some (String.mk
          ("[Desktop Entry]\nType=Application\nName=A\nExec=a\n[Desktop Action b]\n".data ++
            List.replicate maxTokenSize 'x')))
        "/a/x.desktop" = Except.error parseError.scanFailed ∧
      deleteOutside false (String.mk
          ("[Desktop Entry]\nType=Application\nName=A\nExec=a\n[Desktop Action b]\n".data ++
            List.replicate maxTokenSize 'x'))
        = "[Desktop Entry]\nType=Application\nName=A\nExec=a\n" ∧
      parseDesktopFile (fun _ _ => "")
        (fun _ => some "[Desktop Entry]\nType=Application\nName=A\nExec=a\n") "/a/x.desktop"
        = Except.ok { Name := "A", Exec := "a", IconName := "", IconPath := "",
                      Path := "/a/x.desktop" } ∧
      deleteOutside true (String.mk
          ("[Desktop Entry]\nType=Application\nName=A\nExec=a\n[Desktop Action b]\n".data ++
            List.replicate maxTokenSize 'x'))
        = "[Desktop Entry]\nType=Application\nName=A\nExec=a\n[Desktop Action b]\n" ∧
      parseDesktopFile (fun _ _ => "")
        (fun _ => some
          "[Desktop Entry]\nType=Application\nName=A\nExec=a\n[Desktop Action b]\n")
        "/a/x.desktop"
        = Except.ok { Name := "A", Exec := "a", IconName := "", IconPath := "",
                      Path := "/a/x.desktop" } := by
  have hne : List.replicate maxTokenSize 'x' ≠ [] := by
    intro h
    have := congrArg List.length h
    rw [List.length_replicate] at this
    exact absurd this (by decide)
  have hnl : '\n' ∉ List.replicate maxTokenSize 'x' := by
    intro h
    exact absurd (List.eq_of_mem_replicate h) (by decide)
  have hlast := rawLinesLoop_last_line _ [] hnl hne
  rw [List.reverse_nil, List.nil_append] at hlast
  have hraw : rawLinesLoop
      ("[Desktop Entry]\nType=Application\nName=A\nExec=a\n[Desktop Action b]\n".data ++
        List.replicate maxTokenSize 'x') [] =
      ["[Desktop Entry]".data, "Type=Application".data, "Name=A".data, "Exec=a".data,
        "[Desktop Action b]".data, List.replicate maxTokenSize 'x'] := by
    have e : "[Desktop Entry]\nType=Application\nName=A\nExec=a\n[Desktop Action b]\n".data ++
        List.replicate maxTokenSize 'x' =
        "[Desktop Entry]".data ++ '\n' :: ("Type=Application".data ++ '\n' ::
          ("Name=A".data ++ '\n' :: ("Exec=a".data ++ '\n' ::
            ("[Desktop Action b]".data ++ '\n' :: List.replicate maxTokenSize 'x')))) := rfl
    rw [e, rawLinesLoop_append_line _ _ _ (by decide),
      rawLinesLoop_append_line _ _ _ (by decide), rawLinesLoop_append_line _ _ _ (by decide),
      rawLinesLoop_append_line _ _ _ (by decide), rawLinesLoop_append_line _ _ _ (by decide),
      hlast]
    rfl
  have k1 : isSectionHeader (String.mk (dropCR "[Desktop Entry]".data)) = true := by decide
  have k2 : isSectionHeader (String.mk (dropCR "Type=Application".data)) = false := by decide
  have k3 : isSectionHeader (String.mk (dropCR "Name=A".data)) = false := by decide
  have k4 : isSectionHeader (String.mk (dropCR "Exec=a".data)) = false := by decide
  have k5 : isSectionHeader (String.mk (dropCR "[Desktop Action b]".data)) = true := by decide
  have m1 : decide (stringsTrimSpace (String.mk (dropCR "[Desktop Entry]".data))
      = "[Desktop Entry]") = true := by decide
  have m5 : decide (stringsTrimSpace (String.mk (dropCR "[Desktop Action b]".data))
      = "[Desktop Entry]") = false := by decide
  refine ⟨?_, ?_, by rfl, ?_, by rfl⟩
  · have hlong : scanTooLong (String.mk
        ("[Desktop Entry]\nType=Application\nName=A\nExec=a\n[Desktop Action b]\n".data ++
          List.replicate maxTokenSize 'x')) = true := by
      unfold scanTooLong
      rw [hraw, List.any_eq_true]
      exact ⟨List.replicate maxTokenSize 'x', by simp, by
        rw [goLen_replicate_x]
        exact decide_eq_true (Nat.le_refl _)⟩
    unfold parseDesktopFile
    dsimp only
    rw [hlong]
    rfl
  · unfold deleteOutside
    rw [hraw]
    simp only [mainSectionLines, k1, k2, k3, k4, k5, m1, m5, dropCR_replicate_x,
      isSectionHeader_replicate_x]
    rfl
  · unfold deleteOutside
    rw [hraw]
    simp only [mainSectionLines, k1, k2, k3, k4, k5, m1, m5, dropCR_replicate_x,
      isSectionHeader_replicate_x]
    rfl

/-- The descriptor of Firefox with a stray line before the first header and a
`[Desktop Action new]` section that carries its own Name and Exec. -/
theorem parseDesktopFile_main_section_only_witness :
    scanTooLong
        "Name=Z\n[Desktop Entry]\nType=Application\nName=Firefox\nExec=firefox %u\n[Desktop Action new]\nName=New\nExec=firefox --new\n"
        = false ∧
      parseDesktopFile (fun _ _ => "")
        (fun _ => some (deleteOutside false
          "Name=Z\n[Desktop Entry]\nType=Application\nName=Firefox\nExec=firefox %u\n[Desktop Action new]\nName=New\nExec=firefox --new\n"))
        "/a/firefox.desktop" =
      parseDesktopFile (fun _ _ => "")
        (fun _ => some
          "Name=Z\n[Desktop Entry]\nType=Application\nName=Firefox\nExec=firefox %u\n[Desktop Action new]\nName=New\nExec=firefox --new\n")
        "/a/firefox.desktop" :=
  ⟨by decide,
    parseDesktopFile_main_section_only (fun _ _ => "") _ _ "/a/firefox.desktop"
      "Name=Z\n[Desktop Entry]\nType=Application\nName=Firefox\nExec=firefox %u\n[Desktop Action new]\nName=New\nExec=firefox --new\n"
      false rfl rfl (by decide)⟩

end applications

/-! ### `strings.TrimSpace` and `strings.TrimSuffix` -/

theorem dropWhile_append_last {α : Type} (p : α → Bool) (m : List α) (x : α)
    (hx : p x = false) : (m ++ [x]).dropWhile p = m.dropWhile p ++ [x] := by
  induction m with
  | nil => simp [List.dropWhile, hx]
  | cons y ys ih =>
    by_cases hy : p y = true
    · simp only [List.cons_append, List.dropWhile_cons_of_pos hy, ih]
    · simp only [List.cons_append, List.dropWhile_cons_of_neg hy]

theorem dropWhile_dropWhile {α : Type} (p : α → Bool) (l : List α) :
    (l.dropWhile p).dropWhile p = l.dropWhile p := by
  induction l with
  | nil => rfl
  | cons y ys ih =>
    by_cases hy : p y = true
    · simp only [List.dropWhile_cons_of_pos hy, ih]
    · simp only [List.dropWhile_cons_of_neg hy]

theorem stringsTrimSpace_idem (s : String) :
    stringsTrimSpace (stringsTrimSpace s) = stringsTrimSpace s := by
  unfold stringsTrimSpace
  dsimp only
  congr 1
  cases ha : s.data.dropWhile unicodeIsSpace with
  | nil => rfl
  | cons x a =>
    have hx : unicodeIsSpace x = false := by
      have h1 := dropWhile_dropWhile unicodeIsSpace s.data
      rw [ha] at h1
      by_contra hc
      have hc2 : unicodeIsSpace x = true := by simpa using hc
      rw [List.dropWhile_cons_of_pos hc2] at h1
      have h2 := congrArg List.length h1
      have h3 := (List.dropWhile_suffix (l := a) unicodeIsSpace).length_le
      simp only [List.length_cons] at h2
      omega
    rw [List.reverse_cons, dropWhile_append_last _ _ _ hx, List.reverse_append,
      List.reverse_singleton, List.singleton_append,
      List.dropWhile_cons_of_neg (by simp [hx]), List.reverse_cons, List.reverse_reverse,
      dropWhile_append_last _ _ _ hx, dropWhile_dropWhile]
    simp

theorem stringsTrimSuffix_append (stem suffix : String) :
    stringsTrimSuffix (stem ++ suffix) suffix = stem := by
  unfold stringsTrimSuffix stringsHasSuffix
  have h : suffix.data.isSuffixOf (stem ++ suffix).data = true := by
    rw [List.isSuffixOf_iff_suffix, String.data_append]
    exact List.suffix_append _ _
  rw [if_pos h]
  simp

namespace applications

/-! ### The bundle scanner -/

theorem bundleSuffixMatch_app (caseTable : Char → Char) (stem : String) :
    bundleSuffixMatch caseTable (stem ++ ".app") = true := by
  unfold bundleSuffixMatch stringsHasSuffix stringsToLower
  rw [List.isSuffixOf_iff_suffix, String.data_append, List.map_append]
  exact ⟨_, rfl⟩

/-- C24. For a bundle whose file name is `stem ++ ".app"`, the suffix in lower case as
written here, the scanner recognises it and the record's Name is the trimmed localized
display name if that is non-blank, else the trimmed bundle name if that is non-blank, else
the trimmed stem (empty when the stem is blank); when the metadata read fails it is the
trimmed stem. -/
theorem parseAppBundle_name (readInfoPlist : String → Except String macInfoPlist)
    (resolveMacIcon : String → macInfoPlist → String) (caseTable : Char → Char)
    (bundlePath stem : String)
    (hbase : filepathBase bundlePath = stem ++ ".app") :
    bundleSuffixMatch caseTable (filepathBase bundlePath) = true ∧
      (∀ info, readInfoPlist bundlePath = Except.ok info →
        (parseAppBundle readInfoPlist resolveMacIcon bundlePath).1.Name =
          if stringsTrimSpace info.DisplayName ≠ "" then stringsTrimSpace info.DisplayName
          else if stringsTrimSpace info.BundleName ≠ "" then stringsTrimSpace info.BundleName
          else stringsTrimSpace stem) ∧
      (∀ e, readInfoPlist bundlePath = Except.error e →
        (parseAppBundle readInfoPlist resolveMacIcon bundlePath).1.Name =
          stringsTrimSpace stem) := by
  refine ⟨by rw [hbase]; exact bundleSuffixMatch_app caseTable stem, ?_, ?_⟩
  · intro info hinfo
    unfold parseAppBundle
    dsimp only
    rw [hinfo, hbase, stringsTrimSuffix_append]
    dsimp only
    simp only [firstNonEmpty, stringsTrimSpace_idem]
    split_ifs with h1 h2 h3
    · rfl
    · rfl
    · rfl
    · exact (not_not.mp h3).symm
  · intro e he
    unfold parseAppBundle
    dsimp only
    rw [he, hbase, stringsTrimSuffix_append]
    dsimp only
    have hb : stringsTrimSpace "" = "" := by decide
    simp only [firstNonEmpty, hb]
    split_ifs with h1 h3
    · exact absurd rfl h1
    · rfl
    · exact (not_not.mp h3).symm


/-- The bundle of Safari with a blank display name and a bundle name in white space. -/
theorem parseAppBundle_name_witness :
    filepathBase "/Applications/Safari.app" = "Safari" ++ ".app" ∧
      (parseAppBundle (fun _ => Except.ok
          { DisplayName := " ", BundleName := " Safari Browser ", Executable := "Safari",
            IconFile := "", IconFiles := [] }) (fun _ _ => "")
        "/Applications/Safari.app").1.Name = "Safari Browser" :=
  ⟨by decide,
    ((parseAppBundle_name (fun _ => Except.ok
        { DisplayName := " ", BundleName := " Safari Browser ", Executable := "Safari",
          IconFile := "", IconFiles := [] }) (fun _ _ => "") id
      "/Applications/Safari.app" "Safari" (by decide)).2.1
        { DisplayName := " ", BundleName := " Safari Browser ", Executable := "Safari",
          IconFile := "", IconFiles := [] } rfl).trans (by decide)⟩

/-- The bundle `Foo .app`, a space before the suffix, read without metadata: the file-name
stem is `Foo ` with the space, the record's Name is `Foo`. -/
theorem parseAppBundle_name_stem_counterexample :
    bundleSuffixMatch id (filepathBase "/Applications/Foo .app") = true ∧
      filepathBase "/Applications/Foo .app" = "Foo .app" ∧
      stringsTrimSuffix "Foo .app" ".app" = "Foo " ∧
      (parseAppBundle (fun _ => Except.error "info.plist not found") (fun _ _ => "")
        "/Applications/Foo .app").1.Name = "Foo" ∧
      (parseAppBundle (fun _ => Except.error "info.plist not found") (fun _ _ => "")
        "/Applications/Foo .app").1.Name ≠ stringsTrimSuffix "Foo .app" ".app" := by
  decide

/-- A bundle named with the suffix in capitals is recognised, the test being made on the
lowered name, and keeps the suffix in its Name, the suffix being removed as written. -/
theorem parseAppBundle_capital_suffix :
    bundleSuffixMatch id (filepathBase "/Applications/Foo.APP") = true ∧
      (parseAppBundle (fun _ => Except.error "info.plist not found") (fun _ _ => "")
        "/Applications/Foo.APP").1.Name = "Foo.APP" := by
  decide

end applications

namespace search

open applications

/-! ### The exact name match -/

theorem scoreApplication_kind_name (t : Char → Char) (B : Application) (q : String)
    (h : (scoreApplication t B q).2 = "name-substring") :
    0 ≤ stringsIndex (stringsToLower t B.Name) q ∧
      (scoreApplication t B q).1 = 2000 - stringsIndex (stringsToLower t B.Name) q * 20
        - (goLen (stringsToLower t B.Name) : Int) := by
  unfold scoreApplication at h ⊢
  dsimp only at h ⊢
  split_ifs at h ⊢ with h1 h2 h3 h4
  · exact ⟨h1, rfl⟩
  all_goals simp at h

theorem scoreApplication_kind_exec (t : Char → Char) (B : Application) (q : String)
    (h : (scoreApplication t B q).2 = "exec-substring") :
    0 ≤ stringsIndex (stringsToLower t B.Exec) q ∧
      (scoreApplication t B q).1 = 1500 - stringsIndex (stringsToLower t B.Exec) q * 20
        - (goLen (stringsToLower t B.Exec) : Int) := by
  unfold scoreApplication at h ⊢
  dsimp only at h ⊢
  split_ifs at h ⊢ with h1 h2 h3 h4
  · simp at h
  · exact ⟨h2, rfl⟩
  all_goals simp at h

theorem scoreApplication_exact (t : Char → Char) (A : Application) (q : String)
    (hA : stringsToLower t A.Name = q) :
    scoreApplication t A q = (2000 - (goLen q : Int), "name-substring") := by
  unfold scoreApplication
  dsimp only
  rw [hA, stringsIndex_self]
  simp

/-- C25. When the lowercased Name of `A` is the query `q`, `A` scores `2000 - len(q)` in
the name-substring tier, every application scored by the name-substring or the
exec-substring tier scores at most that, and one that scores exactly that has the lowercased
Name `q` too. -/
theorem exact_name_match_is_best (t : Char → Char) (A B : Application) (q : String)
    (_hq : q ≠ "") (hA : stringsToLower t A.Name = q) :
    scoreApplication t A q = (2000 - (goLen q : Int), "name-substring") ∧
      (((scoreApplication t B q).2 = "name-substring" ∨
          (scoreApplication t B q).2 = "exec-substring") →
        (scoreApplication t B q).1 ≤ (scoreApplication t A q).1 ∧
          ((scoreApplication t B q).1 = (scoreApplication t A q).1 →
            stringsToLower t B.Name = q)) := by
  refine ⟨scoreApplication_exact t A q hA, ?_⟩
  rw [scoreApplication_exact t A q hA]
  dsimp only
  rintro (hk | hk)
  · obtain ⟨h0, hs⟩ := scoreApplication_kind_name t B q hk
    rw [hs]
    rcases stringsIndex_cases (stringsToLower t B.Name) q with hneg | ⟨i, hi, hocc⟩
    · rw [hneg] at h0
      exact absurd h0 (by decide)
    · rw [hi]
      obtain ⟨hle, heq⟩ := occursFirstAt_len _ _ i hocc
      have hle2 : i + goLen q ≤ goLen (stringsToLower t B.Name) := hle
      refine ⟨by omega, ?_⟩
      intro he
      have hd := heq (by
        show i + goLen q = goLen (stringsToLower t B.Name)
        omega) (by omega)
      cases hb : stringsToLower t B.Name
      cases q
      rw [hb] at hd
      exact congrArg String.mk hd
  · obtain ⟨h0, hs⟩ := scoreApplication_kind_exec t B q hk
    rw [hs]
    rcases stringsIndex_cases (stringsToLower t B.Exec) q with hneg | ⟨i, hi, hocc⟩
    · rw [hneg] at h0
      exact absurd h0 (by decide)
    · rw [hi]
      obtain ⟨hle, -⟩ := occursFirstAt_len _ _ i hocc
      have hle2 : i + goLen q ≤ goLen (stringsToLower t B.Exec) := hle
      refine ⟨by omega, ?_⟩
      intro he
      omega

/-- The query "firefox" against Firefox itself and against Firefox Beta. -/
theorem exact_name_match_is_best_witness :
    scoreApplication id ⟨"Firefox", "firefox", "", "", "a.desktop"⟩ "firefox"
        = (2000 - (goLen "firefox" : Int), "name-substring") ∧
      (((scoreApplication id ⟨"Firefox Beta", "firefox-beta", "", "", "b.desktop"⟩
            "firefox").2 = "name-substring" ∨
          (scoreApplication id ⟨"Firefox Beta", "firefox-beta", "", "", "b.desktop"⟩
            "firefox").2 = "exec-substring") →
        (scoreApplication id ⟨"Firefox Beta", "firefox-beta", "", "", "b.desktop"⟩
            "firefox").1 ≤
          (scoreApplication id ⟨"Firefox", "firefox", "", "", "a.desktop"⟩ "firefox").1 ∧
          ((scoreApplication id ⟨"Firefox Beta", "firefox-beta", "", "", "b.desktop"⟩
              "firefox").1 =
            (scoreApplication id ⟨"Firefox", "firefox", "", "", "a.desktop"⟩ "firefox").1 →
            stringsToLower id (Application.Name
              ⟨"Firefox Beta", "firefox-beta", "", "", "b.desktop"⟩) = "firefox")) :=
  exact_name_match_is_best id ⟨"Firefox", "firefox", "", "", "a.desktop"⟩
    ⟨"Firefox Beta", "firefox-beta", "", "", "b.desktop"⟩ "firefox" (by decide) (by decide)

end search

namespace applications

/-! ### The resolved entry, read off the lines of the main section -/

theorem inMainSection_snoc (ls : List String) (l : String) :
    inMainSection (ls ++ [l]) =
      if isSectionHeader l = true then decide (stringsTrimSpace l = "[Desktop Entry]")
      else inMainSection ls := by
  unfold inMainSection
  rw [List.foldl_append]
  rfl

theorem mainPairsFrom_snoc (before ls : List String) (l : String) :
    mainPairsFrom before (ls ++ [l]) =
      mainPairsFrom before ls ++
        (if inMainSection (before ++ ls) = true then (lineKeyValue l).toList else []) := by
  induction ls generalizing before with
  | nil => simp [mainPairsFrom]
  | cons x xs ih =>
    rw [List.cons_append, mainPairsFrom, mainPairsFrom, ih, List.append_assoc,
      List.append_assoc, List.singleton_append]

theorem lineKeyValue_of_header (text : String) (h : isSectionHeader text = true) :
    lineKeyValue text = none := by
  cases hkv : lineKeyValue text with
  | none => rfl
  | some kv =>
    rw [lineKeyValue_not_header text kv hkv] at h
    exact absurd h (by decide)

theorem lastValue_snoc (key k v : String) (ps : List (String × String)) :
    lastValue key (ps ++ [(k, v)]) = if k = key then v else lastValue key ps := by
  unfold lastValue
  rw [List.filter_append]
  by_cases hk : k = key
  · simp [List.filter_cons, hk]
  · simp [List.filter_cons, hk]

theorem resolvedNameOf_snoc (k v : String) (ps : List (String × String)) :
    resolvedNameOf (ps ++ [(k, v)]) =
      if k = "Name" then v
      else if stringsHasPrefix k "Name[" = true ∧ resolvedNameOf ps = "" then v
      else resolvedNameOf ps := by
  unfold resolvedNameOf
  rw [lastValue_snoc]
  by_cases hk : k = "Name"
  · rw [if_pos hk, if_pos hk]
    by_cases hv : v = ""
    · simp [hv, hk]
    · rw [if_pos hv]
  · rw [if_neg hk, if_neg hk]
    by_cases hl : lastValue "Name" ps = ""
    · have hl2 : ¬ lastValue "Name" ps ≠ "" := by simp [hl]
      rw [if_neg hl2, if_neg hl2]
      have hrev : (List.takeWhile (fun p : String × String => decide (p.1 ≠ "Name"))
          (ps ++ [(k, v)]).reverse).reverse =
          (List.takeWhile (fun p : String × String => decide (p.1 ≠ "Name")) ps.reverse).reverse
            ++ [(k, v)] := by
        simp [List.takeWhile_cons, hk]
      rw [hrev, List.find?_append]
      cases hf : List.find? (fun p : String × String =>
          stringsHasPrefix p.1 "Name[" && decide (p.2 ≠ ""))
          (List.takeWhile (fun p : String × String => decide (p.1 ≠ "Name")) ps.reverse).reverse
        with
      | some p =>
        have hp := List.find?_some hf
        have hp2 : p.2 ≠ "" := by
          rw [Bool.and_eq_true] at hp
          exact of_decide_eq_true hp.2
        simp [hp2]
      | none =>
        by_cases hloc : stringsHasPrefix k "Name[" = true
        · by_cases hv : v = ""
          · simp [List.find?, hloc, hv]
          · simp [List.find?, hloc, hv]
        · simp [List.find?, hloc]
    · rw [if_pos hl, if_pos hl, if_neg (fun h => hl h.2)]

/-- The variables of the loop after the lines `ls`, read off the pairs of the main section. -/
theorem foldl_parseLine_eq (ls : List String) :
    ls.foldl parseLine
        { inDesktopEntry := false, name := "", exec := "", iconName := "", appType := "",
          hidden := false, noDisplay := false } =
      { inDesktopEntry := inMainSection ls,
        name := resolvedNameOf (mainPairsFrom [] ls),
        exec := sanitiseExec (lastValue "Exec" (mainPairsFrom [] ls)),
        iconName := lastValue "Icon" (mainPairsFrom [] ls),
        appType := lastValue "Type" (mainPairsFrom [] ls),
        hidden := stringsEqualFold (lastValue "Hidden" (mainPairsFrom [] ls)) "true",
        noDisplay := stringsEqualFold (lastValue "NoDisplay" (mainPairsFrom [] ls)) "true" } := by
  induction ls using List.reverseRecOn with
  | nil => decide
  | append_singleton ls l ih =>
    rw [List.foldl_append, List.foldl_cons, List.foldl_nil, ih, mainPairsFrom_snoc,
      inMainSection_snoc, List.nil_append]
    by_cases hh : isSectionHeader l = true
    · rw [parseLine_header _ l hh, lineKeyValue_of_header l hh, if_pos hh]
      simp
    · have hh2 : isSectionHeader l = false := Bool.eq_false_iff.mpr hh
      rw [if_neg hh]
      cases hin : inMainSection ls with
      | false =>
        rw [parseLine_outside _ l hh2 rfl]
        simp
      | true =>
        rw [parseLine_body _ l hh2 rfl]
        cases hkv : lineKeyValue l with
        | none => simp
        | some p =>
          obtain ⟨k, v⟩ := p
          simp only [if_true, Option.toList, lastValue_snoc, resolvedNameOf_snoc]
          by_cases h1 : k = "Type"
          · subst h1
            simp [(by decide : stringsHasPrefix "Type" "Name[" = false)]
          by_cases h2 : k = "Name"
          · subst h2
            simp
          by_cases h3 : k = "Exec"
          · subst h3
            simp [(by decide : stringsHasPrefix "Exec" "Name[" = false)]
          by_cases h4 : k = "Icon"
          · subst h4
            simp [(by decide : stringsHasPrefix "Icon" "Name[" = false)]
          by_cases h5 : k = "Hidden"
          · subst h5
            simp [(by decide : stringsHasPrefix "Hidden" "Name[" = false)]
          by_cases h6 : k = "NoDisplay"
          · subst h6
            simp [(by decide : stringsHasPrefix "NoDisplay" "Name[" = false)]
          simp only [h1, h2, h3, h4, h5, h6, if_false]
          split_ifs <;> rfl


/-- C9. For a descriptor that is opened and scanned without error, `parseDesktopFile`
returns the skip signal exactly when the resolved Type (the value of the last `Type` line of
the main section) is not "Application", or the resolved Hidden is true, or the resolved
NoDisplay is true, or the resolved Name is empty, or the sanitized Exec is empty; otherwise
it returns the record carrying that Name, that Exec and the path, so every record it returns
has a non-empty Name and a non-empty Exec; and it returns no other error. -/
theorem parseDesktopFile_skip_iff (resolveIcon : String → String → String)
    (openFile : String → Option String) (path content : String)
    (hopen : openFile path = some content) (hscan : scanTooLong content = false) :
    (parseDesktopFile resolveIcon openFile path = Except.error parseError.errSkipApplication ↔
        (resolvedType content ≠ "Application" ∨ resolvedHidden content = true
          ∨ resolvedNoDisplay content = true ∨ resolvedName content = ""
          ∨ resolvedExec content = "")) ∧
      (¬ (resolvedType content ≠ "Application" ∨ resolvedHidden content = true
          ∨ resolvedNoDisplay content = true ∨ resolvedName content = ""
          ∨ resolvedExec content = "") →
        parseDesktopFile resolveIcon openFile path =
          Except.ok
            { Name := resolvedName content, Exec := resolvedExec content,
              IconName := resolvedIcon content,
              IconPath := resolveIcon (resolvedIcon content) path, Path := path }) ∧
      (∀ app, parseDesktopFile resolveIcon openFile path = Except.ok app →
        app.Name ≠ "" ∧ app.Exec ≠ "" ∧ app.Name = resolvedName content ∧
          app.Exec = resolvedExec content ∧ app.Path = path) ∧
      (∀ e, parseDesktopFile resolveIcon openFile path = Except.error e →
        e = parseError.errSkipApplication) := by
  have hvars : resolveEntry content =
      { inDesktopEntry := inMainSection (scanLines content),
        name := resolvedName content, exec := resolvedExec content,
        iconName := resolvedIcon content, appType := resolvedType content,
        hidden := resolvedHidden content, noDisplay := resolvedNoDisplay content } :=
    foldl_parseLine_eq (scanLines content)
  by_cases hskip : resolvedType content ≠ "Application" ∨ resolvedHidden content = true
      ∨ resolvedNoDisplay content = true ∨ resolvedName content = ""
      ∨ resolvedExec content = ""
  · have hres : parseDesktopFile resolveIcon openFile path =
        Except.error parseError.errSkipApplication := by
      simp only [parseDesktopFile, hopen, hscan, hvars]
      simp [hskip]
    refine ⟨⟨fun _ => hskip, fun _ => hres⟩, fun h => absurd hskip h, ?_, ?_⟩
    · intro app happ
      rw [hres] at happ
      cases happ
    · intro e he
      rw [hres] at he
      cases he
      rfl
  · have hres : parseDesktopFile resolveIcon openFile path =
        Except.ok
          { Name := resolvedName content, Exec := resolvedExec content,
            IconName := resolvedIcon content,
            IconPath := resolveIcon (resolvedIcon content) path, Path := path } := by
      simp only [parseDesktopFile, hopen, hscan, hvars]
      simp [hskip]
    refine ⟨⟨?_, fun h => absurd h hskip⟩, fun _ => hres, ?_, ?_⟩
    · intro h
      rw [hres] at h
      cases h
    · intro app happ
      rw [hres] at happ
      cases happ
      simp only [not_or, not_not] at hskip
      exact ⟨hskip.2.2.2.1, hskip.2.2.2.2, rfl, rfl, rfl⟩
    · intro e he
      rw [hres] at he
      cases he

/-- The descriptor of Firefox yields its record; the same descriptor with `Hidden=TRUE` in
the main section, and a `Hidden=false` in a later section, is skipped. -/
theorem parseDesktopFile_skip_iff_witness :
    parseDesktopFile (fun _ _ => "")
        (fun _ => some
          "[Desktop Entry]\nType=Application\nName=Firefox\nExec=firefox %u\nIcon=firefox\n")
        "/usr/share/applications/firefox.desktop" =
      Except.ok
        { Name := "Firefox", Exec := "firefox", IconName := "firefox", IconPath := "",
          Path := "/usr/share/applications/firefox.desktop" } ∧
      parseDesktopFile (fun _ _ => "")
        (fun _ => some
          "[Desktop Entry]\nType=Application\nName=Firefox\nExec=firefox %u\nHidden=TRUE\n[Desktop Action new]\nHidden=false\n")
        "/usr/share/applications/firefox.desktop" =
      Except.error parseError.errSkipApplication :=
  ⟨(parseDesktopFile_skip_iff (fun _ _ => "")
      (fun _ => some
        "[Desktop Entry]\nType=Application\nName=Firefox\nExec=firefox %u\nIcon=firefox\n")
      "/usr/share/applications/firefox.desktop"
      "[Desktop Entry]\nType=Application\nName=Firefox\nExec=firefox %u\nIcon=firefox\n"
      rfl (by decide)).2.1 (by decide),
    (parseDesktopFile_skip_iff (fun _ _ => "")
      (fun _ => some
        "[Desktop Entry]\nType=Application\nName=Firefox\nExec=firefox %u\nHidden=TRUE\n[Desktop Action new]\nHidden=false\n")
      "/usr/share/applications/firefox.desktop"
      "[Desktop Entry]\nType=Application\nName=Firefox\nExec=firefox %u\nHidden=TRUE\n[Desktop Action new]\nHidden=false\n"
      rfl (by decide)).1.mpr (Or.inr (Or.inl (by decide)))⟩

end applications
